import Mathlib

/-! The drand distribution layer: HTTP synchronisation server, round cache, gossip relay.

A shallow embedding of four pieces of the repository

* `key/group.go`              : `MinimumT`, `GroupFromProto`
* `http/server.go`            : `handler.Watch`, `handler.getRand`, `handler.group`,
  `handler.PublicRand`, `handler.LatestRand`, `handler.Group`
* `client/cache.go`           : `NewCachingClient`, `cachingClient.Get`
* `cmd/relay-gossip/client/client.go` : the receive loop of `NewWithPubsub` with its
  shutdown branch, `Client.Sub` and the `UnsubFunc` it returns

Go's `uint64` is a natural number reduced modulo `2 ^ 64` wherever the source
does arithmetic on it.  A byte slice is a list of naturals; a Go `(value, error)`
pair is a pair whose second component is an optional error.
-/

namespace Drand

/-- Number of values of Go's `uint64`. -/
def U64 : Nat := 2 ^ 64

/-- A Go `error` value (only its identity matters here). -/
structure GoError where
  code : Nat
deriving DecidableEq, Repr

/-- The protobuf message `drand.PublicRandResponse`: a round number and three
byte strings. -/
structure PublicRandResponse where
  Round : Nat
  PreviousSignature : List Nat
  Signature : List Nat
  Randomness : List Nat
deriving DecidableEq, Repr

/-- The protobuf message `drand.PublicRandRequest`. -/
structure PublicRandRequest where
  Round : Nat
deriving DecidableEq, Repr

/-! ## `key/group.go` -/

namespace key

/-- The constant `time.Second`: a `time.Duration` counts nanoseconds. -/
def Second : Int := 1000000000

/-- The conversion `int64(x)` of a `uint64`. -/
def int64 (x : Nat) : Int :=
  if x % U64 < 2 ^ 63 then (x % U64 : Nat) else ((x % U64 : Nat) : Int) - (U64 : Nat)

/-- The protobuf message `proto.Node`: address, TLS flag and key bytes of the
identity, and the index. -/
structure ProtoNode where
  Address : List Nat
  Tls : Bool
  Key : List Nat
  Index : Nat
deriving DecidableEq, Repr

/-- A `kyber.Point`, by its canonical bytes. -/
structure Point where
  bytes : List Nat
deriving DecidableEq, Repr

/-- The struct `Node`: an identity (address, TLS flag, public key) and an index. -/
structure Node where
  Address : List Nat
  TLS : Bool
  Key : Point
  Index : Nat
deriving DecidableEq, Repr

/-- The struct `DistPublic`: the coefficients of the distributed public key. -/
structure DistPublic where
  Coefficients : List Point
deriving DecidableEq, Repr

/-- The protobuf message `proto.GroupPacket`: `Threshold` and `Period` are
`uint32`, `GenesisTime` and `TransitionTime` are `uint64`. -/
structure GroupPacket where
  Nodes : List ProtoNode
  Threshold : Nat
  Period : Nat
  GenesisTime : Nat
  TransitionTime : Nat
  GenesisSeed : Option (List Nat)
  DistKey : List (List Nat)
deriving DecidableEq, Repr

/-- The struct `Group`.  `Threshold` is a Go `int` that only ever holds a
`uint32` here; `Period` is a `time.Duration` in nanoseconds; `GenesisTime` and
`TransitionTime` are `int64`. -/
structure Group where
  Threshold : Nat
  Period : Int
  Nodes : List Node
  GenesisTime : Int
  GenesisSeed : Option (List Nat)
  TransitionTime : Int
  PublicKey : Option DistPublic
deriving DecidableEq, Repr

/-- The function `MinimumT`: `int(math.Floor(float64(n)/2.0) + 1)`.  For a
length `n` below `2 ^ 53` every step of the float64 computation is exact, so
the value is `n / 2 + 1`. -/
def MinimumT (n : Nat) : Nat := n / 2 + 1

/-- The loop of lines 310-316 of `GroupFromProto`: the nodes are converted in
order, the first error is returned.  `NodeFromProto` is the function of that
name of this package. -/
def nodesFromProto (NodeFromProto : ProtoNode → Except GoError Node) :
    List ProtoNode → Except GoError (List Node)
  | [] => .ok []
  | id :: rest =>
    match NodeFromProto id with
    | .error err => .error err
    | .ok kid =>
      match nodesFromProto NodeFromProto rest with
      | .error err => .error err
      | .ok nodes => .ok (kid :: nodes)

/-- The loop of lines 331-337 of `GroupFromProto`: the coefficients are decoded
in order, the first failure is an error.  `UnmarshalBinary` is the method of
`kyber.Point`. -/
def coefficientsFromProto (UnmarshalBinary : List Nat → Except GoError Point) :
    List (List Nat) → Except GoError (List Point)
  | [] => .ok []
  | coeff :: rest =>
    match UnmarshalBinary coeff with
    | .error _ => .error ⟨4⟩
    | .ok c =>
      match coefficientsFromProto UnmarshalBinary rest with
      | .error err => .error err
      | .ok cs => .ok (c :: cs)

/-- The function `GroupFromProto`. -/
def GroupFromProto (NodeFromProto : ProtoNode → Except GoError Node)
    (UnmarshalBinary : List Nat → Except GoError Point) (g : GroupPacket) :
    Except GoError Group :=
  match nodesFromProto NodeFromProto g.Nodes with
  | .error err => .error err
  | .ok nodes =>
    let n := nodes.length
    let thr := g.Threshold
    if thr < MinimumT n then .error ⟨1⟩
    else
      let genesisTime := int64 g.GenesisTime
      if genesisTime = 0 then .error ⟨2⟩
      else
        let period := (g.Period : Int) * Second
        if period = 0 then .error ⟨3⟩
        else
          match coefficientsFromProto UnmarshalBinary g.DistKey with
          | .error err => .error err
          | .ok coefficients =>
            let group : Group :=
              { Threshold := thr
                Period := period
                Nodes := nodes
                GenesisTime := genesisTime
                GenesisSeed := g.GenesisSeed
                TransitionTime := int64 g.TransitionTime
                PublicKey := none }
            if coefficients.length > 0 then
              if coefficients.length ≠ group.Threshold then .error ⟨5⟩
              else .ok { group with PublicKey := some { Coefficients := coefficients } }
            else .ok group

/-- A node conversion used at concrete inputs: it fails on an empty key. -/
def sampleNodeFromProto (id : ProtoNode) : Except GoError Node :=
  if id.Key = [] then .error ⟨9⟩
  else .ok { Address := id.Address, TLS := id.Tls, Key := ⟨id.Key⟩, Index := id.Index }

/-- A point decoder used at concrete inputs: it fails on empty bytes. -/
def sampleUnmarshalBinary (b : List Nat) : Except GoError Point :=
  if b = [] then .error ⟨8⟩ else .ok ⟨b⟩

/-- A packet used at concrete inputs: three nodes, threshold 2, a period of 30
seconds and a distributed key of two coefficients. -/
def samplePacket : GroupPacket :=
  { Nodes := [⟨[1], true, [7], 0⟩, ⟨[2], true, [8], 1⟩, ⟨[3], false, [9], 2⟩]
    Threshold := 2
    Period := 30
    GenesisTime := 1590000000
    TransitionTime := 0
    GenesisSeed := some [5]
    DistKey := [[1, 1], [2, 2]] }

end key

/-! ## `http/server.go` -/

namespace http

/-- The fields of `handler` that the watcher loop and `getRand` synchronise on,
with the part of the heap they act on.  A waiter `chan []byte` is represented
by its address; `closed` lists the waiter channels on which `close(ch)` (line
157) has run. -/
structure handler where
  pending : List Nat
  latestRound : Nat
  closed : List Nat := []
deriving DecidableEq, Repr

/-- The handler built by `New`: no pending waiter, `latestRound = 0`. -/
def New : handler :=
  { pending := [], latestRound := 0 }

/-- What the critical section of one `Watch` iteration leaves behind: the
handler after `Unlock`, the detached waiters and the bytes to send them. -/
structure watchTick where
  h : handler
  pending : List Nat
  bytes : List Nat
deriving DecidableEq, Repr

/-- Lines 78-89 of `handler.Watch` for one received `next`.  `marshal` is
`json.Marshal` of the external hexjson package; the loop ignores its error and
keeps its bytes. -/
def handler.watchLocked (marshal : PublicRandResponse → List Nat × Option GoError)
    (h : handler) (next : PublicRandResponse) : watchTick :=
  let bytes := (marshal next).1
  let bytes :=
    if (h.latestRound + 1) % U64 ≠ next.Round ∧ h.latestRound ≠ 0 then [] else bytes
  { h := { h with latestRound := next.Round, pending := [] }
    pending := h.pending
    bytes := bytes }

/-- What the loop of lines 91-93 has done when it ends: the sends performed, in
order, as pairs (waiter, payload), and whether it ended in a panic. -/
structure delivery where
  sends : List (Nat × List Nat)
  panicked : Bool
deriving DecidableEq, Repr

/-- Lines 91-93 of `handler.Watch`: the sends `waiter <- bytes`, in order.
`closed` lists the waiter channels that are closed when the watcher gets to
them.  A send to an open waiter is received by its request, which waits in the
`select` of line 145; a send to a closed channel panics, and the waiters after
it are not sent to. -/
def handler.watchDeliver (closed : List Nat) : List Nat → List Nat → delivery
  | [], _ => { sends := [], panicked := false }
  | waiter :: rest, bytes =>
    if waiter ∈ closed then { sends := [], panicked := true }
    else
      let d := handler.watchDeliver closed rest bytes
      { d with sends := (waiter, bytes) :: d.sends }

/-- One iteration of the `for` loop of `handler.Watch` on a received `next`,
with no other goroutine running in between: the handler afterwards and the
sends performed. -/
def handler.Watch (marshal : PublicRandResponse → List Nat × Option GoError)
    (h : handler) (next : PublicRandResponse) : handler × List (Nat × List Nat) :=
  let t := h.watchLocked marshal next
  (t.h, (handler.watchDeliver t.h.closed t.pending t.bytes).sends)

/-- Whether that iteration of the loop ends in a panic. -/
def handler.WatchPanics (marshal : PublicRandResponse → List Nat × Option GoError)
    (h : handler) (next : PublicRandResponse) : Bool :=
  let t := h.watchLocked marshal next
  (handler.watchDeliver t.h.closed t.pending t.bytes).panicked

/-- The watcher loop over a finite prefix of the stream: the handler after the
last Result. -/
def handler.WatchAll (marshal : PublicRandResponse → List Nat × Option GoError) :
    handler → List PublicRandResponse → handler
  | h, [] => h
  | h, next :: rest => handler.WatchAll marshal (h.Watch marshal next).1 rest

/-- The markers recorded by the watcher loop, one after each Result. -/
def handler.WatchMarkers (marshal : PublicRandResponse → List Nat × Option GoError) :
    handler → List PublicRandResponse → List Nat
  | _, [] => []
  | h, next :: rest =>
    (h.Watch marshal next).1.latestRound ::
      handler.WatchMarkers marshal (h.Watch marshal next).1 rest

/-- Where a call of `getRand` stands after line 161: either its waiter is
registered and it waits in the `select` of line 145, or it has returned the
pair of line 169 / 172. -/
inductive getRandOutcome where
  | parked (ch : Nat)
  | returned (data : List Nat) (err : Option GoError)
deriving DecidableEq, Repr

/-- Lines 163-172 of `handler.getRand`: the point fetch. -/
def handler.fetchRand (marshal : PublicRandResponse → List Nat × Option GoError)
    (PublicRand : PublicRandRequest → Except GoError PublicRandResponse)
    (round : Nat) : getRandOutcome :=
  match PublicRand { Round := round } with
  | .error err => .returned [] (some err)
  | .ok resp => .returned (marshal resp).1 (marshal resp).2

/-- Lines 128-173 of `handler.getRand` up to the `select`.  `seen` is the value
of `h.latestRound` read under `RLock` at line 132, `h` the handler when the
write lock of line 137 is held, `ch` the channel made at line 136. -/
def handler.getRand (marshal : PublicRandResponse → List Nat × Option GoError)
    (PublicRand : PublicRandRequest → Except GoError PublicRandResponse)
    (seen : Nat) (h : handler) (ch : Nat) (round : Nat) : handler × getRandOutcome :=
  let block := decide ((seen + 1) % U64 = round)
  if block then
    let block := decide ((h.latestRound + 1) % U64 = round)
    if block then
      ({ h with pending := h.pending ++ [ch] }, .parked ch)
    else
      (h, handler.fetchRand marshal PublicRand round)
  else
    (h, handler.fetchRand marshal PublicRand round)

/-- The list of parked requests after a call of `getRand` for `round`: the
pair (waiter, requested round) is added when the call registered its waiter. -/
def parkedAfter (parked : List (Nat × Nat)) (round : Nat) : getRandOutcome → List (Nat × Nat)
  | .parked ch => parked ++ [(ch, round)]
  | .returned _ _ => parked

/-- States of the handler reachable from `New` by watcher iterations and by
calls of `getRand` (with any earlier reading `seen` of the marker), each with
the requests parked in it: for every pending waiter the round its request asked
for (a local variable of the waiting `getRand`). -/
inductive Reachable (marshal : PublicRandResponse → List Nat × Option GoError)
    (PublicRand : PublicRandRequest → Except GoError PublicRandResponse) :
    handler → List (Nat × Nat) → Prop
  | init : Reachable marshal PublicRand New []
  | watch (h : handler) (parked : List (Nat × Nat)) (next : PublicRandResponse) :
      Reachable marshal PublicRand h parked →
      Reachable marshal PublicRand (h.Watch marshal next).1 []
  | getRand (h : handler) (parked : List (Nat × Nat)) (seen ch round : Nat) :
      Reachable marshal PublicRand h parked →
      Reachable marshal PublicRand (h.getRand marshal PublicRand seen ch round).1
        (parkedAfter parked round (h.getRand marshal PublicRand seen ch round).2)

/-- A stand-in encoder used only to instantiate statements at concrete inputs:
an opening brace, the round, a closing brace. -/
def sampleMarshal (r : PublicRandResponse) : List Nat × Option GoError :=
  ([123, r.Round, 125], none)

/-- A stand-in upstream used only at concrete inputs: round 7 fails, every
other round is answered with a Result of that round. -/
def samplePublicRand (req : PublicRandRequest) : Except GoError PublicRandResponse :=
  if req.Round = 7 then .error ⟨1⟩
  else .ok { Round := req.Round, PreviousSignature := [], Signature := [1], Randomness := [2] }

/-- Lines 148-158 of `handler.getRand`: the branch `case <-ctx.Done()` of a
parked call whose waiter is `ch`, with `ctxErr` the value of `ctx.Err()`.  The
loop cuts the first entry equal to `ch` out of `h.pending`, and line 157 closes
`ch`, whether or not it was found in the list. -/
def handler.cancelRand (ctxErr : GoError) (h : handler) (ch : Nat) : handler × getRandOutcome :=
  ({ h with pending := h.pending.erase ch, closed := ch :: h.closed },
    .returned [] (some ctxErr))

/-- A waiter channel (an unbuffered `chan []byte`) and the request that made
it: whether `close(ch)` has run, and the bytes the request received at line
146, if it has. -/
structure waiter where
  closed : Bool
  got : Option (List Nat)
deriving DecidableEq, Repr

/-- The handler with its goroutines: the shared fields `h`; the locals of the
watcher between lines 89 and 93, namely the detached waiters it has not sent to
yet and the bytes it sends; the waiter channels by address; and whether a
goroutine has panicked. -/
structure server where
  h : handler
  todo : List Nat
  bytes : List Nat
  waiters : Nat → waiter
  panicked : Bool

/-- The server after `New`: nothing pending, the watcher at the top of its loop,
every channel still to be made. -/
def server.init : server :=
  { h := New, todo := [], bytes := [], waiters := fun _ => { closed := false, got := none },
    panicked := false }

/-- The atomic steps of the handler: a request runs lines 131-142 of `getRand`
(registering its waiter `ch` if `latestRound + 1 == round` both times); the
watcher runs its critical section on a received Result; the watcher sends to
the next detached waiter; a parked request observes cancellation and runs lines
149-158. -/
inductive action where
  | register (seen ch round : Nat)
  | detach (next : PublicRandResponse)
  | deliver
  | cancel (ch : Nat)
deriving DecidableEq, Repr

/-- Whether the request with waiter `ch` is waiting in the `select` of line
145: its waiter is registered or detached, and it has neither received nor
cancelled. -/
def server.parked (s : server) (ch : Nat) : Bool :=
  (decide (ch ∈ s.h.pending) || decide (ch ∈ s.todo)) &&
    (s.waiters ch).got.isNone && !(s.waiters ch).closed

/-- One atomic step.  A send `waiter <- bytes` to a closed channel panics; to an
open one it meets the request waiting in `select`, which receives the bytes.
The watcher receives its next Result only after the loop of lines 91-93 is
done.  Nothing runs after a panic. -/
def server.step (marshal : PublicRandResponse → List Nat × Option GoError)
    (PublicRand : PublicRandRequest → Except GoError PublicRandResponse)
    (ctxErr : GoError) (s : server) : action → server
  | .register seen ch round =>
    if s.panicked then s
    else { s with h := (s.h.getRand marshal PublicRand seen ch round).1 }
  | .detach next =>
    if s.panicked then s
    else
      match s.todo with
      | [] =>
        let t := s.h.watchLocked marshal next
        { s with h := t.h, todo := t.pending, bytes := t.bytes }
      | _ :: _ => s
  | .deliver =>
    if s.panicked then s
    else
      match s.todo with
      | [] => s
      | w :: rest =>
        if (s.waiters w).closed then { s with panicked := true }
        else
          { s with todo := rest
                   waiters := Function.update s.waiters w { closed := false, got := some s.bytes } }
  | .cancel ch =>
    if s.panicked then s
    else if s.parked ch then
      { s with h := (s.h.cancelRand ctxErr ch).1
               waiters := Function.update s.waiters ch { closed := true, got := none } }
    else s

/-- A schedule: the steps taken one after the other. -/
def server.run (marshal : PublicRandResponse → List Nat × Option GoError)
    (PublicRand : PublicRandRequest → Except GoError PublicRandResponse)
    (ctxErr : GoError) : server → List action → server
  | s, [] => s
  | s, a :: rest => server.run marshal PublicRand ctxErr (s.step marshal PublicRand ctxErr a) rest

/-- A `time.Time`: the wall clock in nanoseconds since the Unix epoch and, on
the values `time.Now()` returns, a reading of the monotonic clock. -/
structure Time where
  wall : Int
  mono : Option Int
deriving DecidableEq, Repr

/-- The function `time.Unix(sec, 0)`. -/
def Unix (sec : Int) : Time :=
  { wall := sec * key.Second, mono := none }

/-- The method `Time.Add`. -/
def Time.Add (t : Time) (d : Int) : Time :=
  { wall := t.wall + d, mono := t.mono.map fun m => m + d }

/-- The method `Time.Sub`: the difference of the monotonic readings when both
times carry one, of the wall clocks otherwise, kept within the range of a
`time.Duration` (an `int64` of nanoseconds). -/
def Time.Sub (t u : Time) : Int :=
  let d :=
    match t.mono, u.mono with
    | some a, some b => a - b
    | _, _ => t.wall - u.wall
  if d < -(2 ^ 63) then -(2 ^ 63) else if d > 2 ^ 63 - 1 then 2 ^ 63 - 1 else d

/-- The method `Header.Set`: the value under `key` is replaced. -/
def Header.Set (h : List (String × String)) (key value : String) : List (String × String) :=
  (h.filter fun e => e.1 != key) ++ [(key, value)]

/-- What a handler has done with its `http.ResponseWriter`: only
`w.WriteHeader(code)`; or headers set and then `w.Write(data)`, which answers
200; or headers set and the rest left to `http.ServeContent`. -/
inductive reply where
  | status (code : Nat)
  | write (header : List (String × String)) (data : List Nat)
  | serveContent (header : List (String × String)) (name : String) (modtime : Time)
      (content : List Nat)
deriving DecidableEq, Repr

/-- The expression `int(math.Ceil(remaining.Seconds()))` for a positive
duration: `Seconds()` is the float64 sum of the whole seconds and of the
nanoseconds over 1e9; below `2 ^ 22` seconds that sum lies strictly between two
integers whenever the nanoseconds are not 0, so its ceiling is the exact one. -/
def ceilSeconds (remaining : Int) : Int :=
  (remaining + key.Second - 1) / key.Second

/-- The method `handler.LatestRand`.  `grp` is what `h.group` returned;
`TimeOfRound` is `beacon.TimeOfRound`; `Format` renders a time in
`http.TimeFormat`; `now1`, `now2`, `now3` are the readings of `time.Now()` at
lines 226, 227 and 233.  `none` is the panic of reading `grp.Period` through a
nil pointer. -/
def handler.LatestRand (marshal : PublicRandResponse → List Nat × Option GoError)
    (PublicRand : PublicRandRequest → Except GoError PublicRandResponse)
    (TimeOfRound : Int → Int → Nat → Int) (Format : Time → String)
    (grp : Option key.Group) (now1 now2 now3 : Time) : Option reply :=
  match PublicRand { Round := 0 } with
  | .error _ => some (.status 500)
  | .ok resp =>
    match marshal resp with
    | (_, some _) => some (.status 500)
    | (data, none) =>
      let roundTime :=
        match grp with
        | none => now1
        | some g => Unix (TimeOfRound g.Period g.GenesisTime resp.Round)
      let nextTime :=
        match grp with
        | none => now2
        | some g => Unix (TimeOfRound g.Period g.GenesisTime ((resp.Round + 1) % U64))
      let remaining := nextTime.Sub now3
      let header : Option (List (String × String)) :=
        if remaining > 0 then
          match grp with
          | none => none
          | some g =>
            if remaining < g.Period then
              some (Header.Set [] "Cache-Control"
                ("max-age:" ++ toString (ceilSeconds remaining) ++ ", public"))
            else some []
        else some []
      match header with
      | none => none
      | some header =>
        let header := Header.Set header "Content-Type" "application/json"
        let header := Header.Set header "Expires" (Format nextTime)
        let header := Header.Set header "Last-Modified" (Format roundTime)
        some (.write header data)

/-- What a call of `handler.group` has done: the group it returned, the field
`h.groupInfo` afterwards, and how many calls of `h.client.Group` it made. -/
structure groupResult where
  grp : Option key.Group
  groupInfo : Option key.Group
  calls : Nat
deriving DecidableEq, Repr

/-- The method `handler.group`.  `groupInfo` is the field `h.groupInfo`;
`groupReply` is the pair `(pkt, err)` that `h.client.Group` returns if
called; `NodeFromProto` and `UnmarshalBinary` are what `key.GroupFromProto`
uses. -/
def handler.group (groupReply : Option key.GroupPacket × Option GoError)
    (NodeFromProto : key.ProtoNode → Except GoError key.Node)
    (UnmarshalBinary : List Nat → Except GoError key.Point)
    (groupInfo : Option key.Group) : groupResult :=
  match groupInfo with
  | some g => { grp := some g, groupInfo := some g, calls := 0 }
  | none =>
    match groupReply with
    | (_, some _) => { grp := none, groupInfo := none, calls := 1 }
    | (none, none) => { grp := none, groupInfo := none, calls := 1 }
    | (some pkt, none) =>
      match key.GroupFromProto NodeFromProto UnmarshalBinary pkt with
      | .error _ => { grp := none, groupInfo := none, calls := 1 }
      | .ok parsedPkt => { grp := some parsedPkt, groupInfo := some parsedPkt, calls := 1 }

/-- The method `handler.Group`: the reply and the field `h.groupInfo`
afterwards.  `marshalGroup` is `json.Marshal(grp.ToProto())`, `now` the reading
of `time.Now()` at line 264. -/
def handler.Group (groupReply : Option key.GroupPacket × Option GoError)
    (NodeFromProto : key.ProtoNode → Except GoError key.Node)
    (UnmarshalBinary : List Nat → Except GoError key.Point)
    (marshalGroup : key.Group → List Nat × Option GoError) (Format : Time → String)
    (groupInfo : Option key.Group) (now : Time) : reply × Option key.Group :=
  let r := handler.group groupReply NodeFromProto UnmarshalBinary groupInfo
  match r.grp with
  | none => (.status 204, r.groupInfo)
  | some grp =>
    match marshalGroup grp with
    | (_, some _) => (.status 500, r.groupInfo)
    | (data, none) =>
      let header := Header.Set [] "Cache-Control" "public, max-age=604800, immutable"
      let header := Header.Set header "Expires" (Format (now.Add (7 * 24 * 3600 * key.Second)))
      (.serveContent header "group.json" (Unix grp.GenesisTime) data, r.groupInfo)

/-- The error `strconv.ErrSyntax`. -/
def ErrSyntax : GoError := ⟨20⟩

/-- The error `strconv.ErrRange`. -/
def ErrRange : GoError := ⟨21⟩

/-- The loop of Go's `strconv.ParseUint` for base 10 and 64 bits, on the bytes
left to read and the value `n` so far: a byte that is not an ASCII digit is a
syntax error; `n >= cutoff` (so `n * 10` overflows) or a wrapped or too large
`n * 10 + d` is a range error. -/
def ParseUint.loop : List Nat → Nat → Except GoError Nat
  | [], n => .ok n
  | c :: rest, n =>
    if 48 ≤ c ∧ c ≤ 57 then
      let d := c - 48
      if n ≥ (U64 - 1) / 10 + 1 then .error ErrRange
      else
        let n := (n * 10) % U64
        let n1 := (n + d) % U64
        if n1 < n ∨ n1 > U64 - 1 then .error ErrRange
        else ParseUint.loop rest n1
    else .error ErrSyntax

/-- Go's `strconv.ParseUint(s, 10, 64)` on the bytes of `s`. -/
def ParseUint (s : List Nat) : Except GoError Nat :=
  if s = [] then .error ErrSyntax else ParseUint.loop s 0

/-- The number a string of decimal digits denotes. -/
def decimalValue (s : List Nat) : Nat :=
  s.foldl (fun acc c => acc * 10 + (c - 48)) 0

/-- A base-10 unsigned 64-bit integer, in the words of the specification: a
non-empty string of decimal digits only (so no sign, no letter) whose value is
at most `2 ^ 64 - 1`. -/
def isUint64Decimal (s : List Nat) : Prop :=
  s ≠ [] ∧ (∀ c ∈ s, 48 ≤ c ∧ c ≤ 57) ∧ decimalValue s ≤ 2 ^ 64 - 1

/-- Go's `strings.Replace(s, old, new, 1)` for a non-empty `old`: the leftmost
occurrence of `old` in `s` is replaced by `new`. -/
def Replace1 (old new : List Nat) : List Nat → List Nat
  | [] => []
  | c :: cs =>
    if old.isPrefixOf (c :: cs) then new ++ (c :: cs).drop old.length
    else c :: Replace1 old new cs

/-- The bytes of the string `"/public/"`. -/
def publicPath : List Nat := [47, 112, 117, 98, 108, 105, 99, 47]

/-- The method `handler.PublicRand`: the reply and the rounds `h.getRand` was
called with.  `path` holds the bytes of `r.URL.Path`; `getRand` is the pair
`h.getRand` returns for a round once it returns; `grp` is what `h.group`
returns; `now1`, `now2` are the readings of `time.Now()` at lines 193 and 201. -/
def handler.PublicRand (getRand : Nat → List Nat × Option GoError)
    (TimeOfRound : Int → Int → Nat → Int) (Format : Time → String)
    (grp : Option key.Group) (now1 now2 : Time) (path : List Nat) : reply × List Nat :=
  let round := Replace1 publicPath [] path
  match ParseUint round with
  | .error _ => (.status 400, [])
  | .ok roundN =>
    match getRand roundN with
    | (_, some _) => (.status 500, [roundN])
    | (data, none) =>
      let roundExpectedTime :=
        match grp with
        | none => now1
        | some g => Unix (TimeOfRound g.Period g.GenesisTime roundN)
      let header := Header.Set [] "Cache-Control" "public, max-age=604800, immutable"
      let header := Header.Set header "Expires" (Format (now2.Add (7 * 24 * 3600 * key.Second)))
      (.serveContent header "rand.json" roundExpectedTime data, [roundN])

/-- A schedule function used at concrete inputs: round `r` is due `r` periods
after genesis. -/
def sampleTimeOfRound (period genesis : Int) (round : Nat) : Int :=
  genesis + round * (period / key.Second)

/-- A time format used at concrete inputs: the decimal wall-clock seconds. -/
def sampleFormat (t : Time) : String := toString (t.wall / key.Second)

/-- A group used at concrete inputs: period 30 seconds, genesis at second 1000. -/
def sampleGroup : key.Group :=
  { Threshold := 2, Period := 30 * key.Second, Nodes := [], GenesisTime := 1000,
    GenesisSeed := none, TransitionTime := 0, PublicKey := none }

end http

/-! ## `client/cache.go` -/

namespace client

/-- The data a `Result` of the client package carries: the round it reports
and its randomness bytes. -/
structure Result where
  Round : Nat
  Randomness : List Nat
deriving DecidableEq, Repr

/-- Modelled from the spec: the recency list of the external package
`hashicorp/golang-lru/simplelru` that the "bounded adaptive-replacement cache
keyed by round number" is made of.  Entries are key/value pairs, most recently
used first; the capacity is passed by the adaptive cache, which creates its
four lists with its own size. -/
abbrev LRU (β : Type) := List (Nat × β)

namespace LRU

variable {β : Type}

/-- The `Len` method. -/
def Len (l : LRU β) : Nat := l.length

/-- The `Keys` method, most recently used first. -/
def keys (l : LRU β) : List Nat := l.map Prod.fst

/-- The `Contains` method: a lookup that does not touch recency. -/
def Contains (l : LRU β) (key : Nat) : Bool := (l.lookup key).isSome

/-- The `Peek` method: the value under `key`, recency untouched. -/
def Peek (l : LRU β) (key : Nat) : Option β := l.lookup key

/-- The `Remove` method: the entry under `key` is unlinked. -/
def Remove (l : LRU β) (key : Nat) : LRU β := l.eraseP fun e => e.1 == key

/-- The `RemoveOldest` method: the last entry is unlinked and returned. -/
def RemoveOldest (l : LRU β) : LRU β × Option (Nat × β) := (l.dropLast, l.getLast?)

/-- The `Add` method: an existing key moves to the front with the new value; a
new key is pushed to the front and the oldest entry leaves when the length
exceeds `size`. -/
def Add (size : Nat) (l : LRU β) (key : Nat) (value : β) : LRU β :=
  if l.Contains key then (key, value) :: l.Remove key
  else
    let l1 : LRU β := (key, value) :: l
    if l1.Len > size then (RemoveOldest l1).1 else l1

/-- The `Get` method: a hit moves the entry to the front. -/
def Get (l : LRU β) (key : Nat) : LRU β × Option β :=
  match l.lookup key with
  | some v => ((key, v) :: l.Remove key, some v)
  | none => (l, none)

end LRU

/-- Modelled from the spec: the "bounded adaptive-replacement cache keyed by
round number" (`lru.ARCCache` of the external package `hashicorp/golang-lru`):
recent entries `t1`, frequent entries `t2`, their ghost lists `b1`, `b2` of
evicted keys, and the target size `p` of `t1`. -/
structure ARCCache where
  size : Nat
  p : Nat
  t1 : LRU Result
  b1 : LRU Unit
  t2 : LRU Result
  b2 : LRU Unit
deriving DecidableEq, Repr

namespace ARCCache

/-- The cache of the given size with nothing in it. -/
def empty (size : Nat) : ARCCache :=
  { size := size, p := 0, t1 := [], b1 := [], t2 := [], b2 := [] }

/-- The constructor `lru.NewARC`: a non-positive size is an error. -/
def NewARC (size : Int) : Except GoError ARCCache :=
  if size ≤ 0 then .error ⟨0⟩ else .ok (empty size.toNat)

/-- The keys the cache holds a value for: those of `t1`, then those of `t2`. -/
def cached (c : ARCCache) : List Nat := LRU.keys c.t1 ++ LRU.keys c.t2

/-- A cache of size `n` that has never evicted: its ghost lists are empty and
it holds, once each, exactly the keys `seen`, at most `n` of them. -/
def NoEviction (n : Nat) (c : ARCCache) (seen : List Nat) : Prop :=
  c.size = n ∧ c.b1 = [] ∧ c.b2 = [] ∧ c.cached.Nodup ∧
    (∀ k, k ∈ c.cached ↔ k ∈ seen) ∧ c.cached.length ≤ n

/-- The `Contains` method: the key is in `t1` or in `t2`. -/
def Contains (c : ARCCache) (key : Nat) : Bool :=
  LRU.Contains c.t1 key || LRU.Contains c.t2 key

/-- The `Peek` method: the value under `key`, the cache untouched. -/
def Peek (c : ARCCache) (key : Nat) : Option Result :=
  match LRU.Peek c.t1 key with
  | some v => some v
  | none => LRU.Peek c.t2 key

/-- The `Get` method: a hit in `t1` is promoted to `t2`, a hit in `t2` moves to
its front, a miss changes nothing. -/
def Get (c : ARCCache) (key : Nat) : ARCCache × Option Result :=
  match LRU.Peek c.t1 key with
  | some val =>
    ({ c with t1 := LRU.Remove c.t1 key, t2 := LRU.Add c.size c.t2 key val }, some val)
  | none =>
    match LRU.Get c.t2 key with
    | (t2, some val) => ({ c with t2 := t2 }, some val)
    | (_, none) => (c, none)

/-- The helper `replace`: the oldest entry of `t1` or of `t2` moves to the
matching ghost list. -/
def replace (c : ARCCache) (b2ContainsKey : Bool) : ARCCache :=
  let t1Len := LRU.Len c.t1
  if t1Len > 0 ∧ (t1Len > c.p ∨ (t1Len = c.p ∧ b2ContainsKey = true)) then
    match LRU.RemoveOldest c.t1 with
    | (t1, some (k, _)) => { c with t1 := t1, b1 := LRU.Add c.size c.b1 k () }
    | (t1, none) => { c with t1 := t1 }
  else
    match LRU.RemoveOldest c.t2 with
    | (t2, some (k, _)) => { c with t2 := t2, b2 := LRU.Add c.size c.b2 k () }
    | (t2, none) => { c with t2 := t2 }

/-- The step of `Add` on a key found in the ghost list `b1`: `t1` is too small,
the target `p` grows (by the ratio of the ghost lists), capped at `size`. -/
def growP (c : ARCCache) : ARCCache :=
  let b1Len := LRU.Len c.b1
  let b2Len := LRU.Len c.b2
  let delta := if b2Len > b1Len then b2Len / b1Len else 1
  if c.p + delta ≥ c.size then { c with p := c.size } else { c with p := c.p + delta }

/-- The step of `Add` on a key found in the ghost list `b2`: `t2` is too small,
the target `p` shrinks, floored at 0. -/
def shrinkP (c : ARCCache) : ARCCache :=
  let b1Len := LRU.Len c.b1
  let b2Len := LRU.Len c.b2
  let delta := if b1Len > b2Len then b1Len / b2Len else 1
  if delta ≥ c.p then { c with p := 0 } else { c with p := c.p - delta }

/-- The step of `Add` that makes room: `replace` runs when `t1` and `t2`
together hold `size` entries or more. -/
def makeRoom (c : ARCCache) (b2ContainsKey : Bool) : ARCCache :=
  if LRU.Len c.t1 + LRU.Len c.t2 ≥ c.size then c.replace b2ContainsKey else c

/-- The step of `Add` that keeps the ghost lists trim. -/
def trimGhosts (c : ARCCache) : ARCCache :=
  let c := if LRU.Len c.b1 > c.size - c.p then { c with b1 := (LRU.RemoveOldest c.b1).1 } else c
  if LRU.Len c.b2 > c.p then { c with b2 := (LRU.RemoveOldest c.b2).1 } else c

/-- The `Add` method. -/
def Add (c : ARCCache) (key : Nat) (value : Result) : ARCCache :=
  if LRU.Contains c.t1 key then
    { c with t1 := LRU.Remove c.t1 key, t2 := LRU.Add c.size c.t2 key value }
  else if LRU.Contains c.t2 key then
    { c with t2 := LRU.Add c.size c.t2 key value }
  else if LRU.Contains c.b1 key then
    let c := c.growP.makeRoom false
    { c with b1 := LRU.Remove c.b1 key, t2 := LRU.Add c.size c.t2 key value }
  else if LRU.Contains c.b2 key then
    let c := c.shrinkP.makeRoom true
    { c with b2 := LRU.Remove c.b2 key, t2 := LRU.Add c.size c.t2 key value }
  else
    let c := (c.makeRoom false).trimGhosts
    { c with t1 := LRU.Add c.size c.t1 key value }

end ARCCache

/-- The wrapped `Client`: its `Get` method acts on a client state `U` and
returns Go's pair `(Result, error)`, either of which may be nil. -/
structure Client (U : Type) where
  Get : U → Nat → (Option Result × Option GoError) × U

/-- The struct `cachingClient`: the state of the embedded `Client` and the
cache. -/
structure cachingClient (U : Type) where
  Client : U
  cache : ARCCache
deriving DecidableEq, Repr

/-- The constructor `NewCachingClient`. -/
def NewCachingClient {U : Type} (client : U) (size : Int) : Except GoError (cachingClient U) :=
  match ARCCache.NewARC size with
  | .error err => .error err
  | .ok cache => .ok { Client := client, cache := cache }

/-- The outcome of one `cachingClient.Get`: the returned pair, the caching client
afterwards, and the rounds with which the wrapped `Client.Get` was called. -/
structure getResult (U : Type) where
  res : Option Result
  err : Option GoError
  c : cachingClient U
  calls : List Nat
deriving DecidableEq, Repr

/-- The method `cachingClient.Get`. -/
def cachingClient.Get {U : Type} (up : Drand.client.Client U) (c : cachingClient U) (round : Nat) :
    getResult U :=
  match c.cache.Get round with
  | (cache, some val) =>
    { res := some val, err := none, c := { c with cache := cache }, calls := [] }
  | (cache, none) =>
    match up.Get c.Client round with
    | ((val, err), u) =>
      let cache :=
        match err, val with
        | none, some v => cache.Add round v
        | _, _ => cache
      { res := val, err := err, c := { Client := u, cache := cache }, calls := [round] }

/-- A sequence of `cachingClient.Get` calls, results dropped: the caching client
afterwards and every call made to the wrapped `Client.Get`, in order. -/
def cachingClient.Gets {U : Type} (up : Drand.client.Client U) :
    cachingClient U → List Nat → cachingClient U × List Nat
  | c, [] => (c, [])
  | c, round :: rest =>
    let r := cachingClient.Get up c round
    let s := cachingClient.Gets up r.c rest
    (s.1, r.calls ++ s.2)

/-- The mock of the test file as far as `TestCacheGet` uses it: a client that
answers every round with a Result of that round and counts its calls. -/
def countingClient : Client Nat :=
  { Get := fun n round => ((some { Round := round, Randomness := [round] }, none), n + 1) }

/-- A client that fails on round 7 and resolves round 0 to the latest round 42. -/
def sampleClient : Client Nat :=
  { Get := fun n round =>
      if round = 7 then ((none, some ⟨1⟩), n + 1)
      else if round = 0 then ((some { Round := 42, Randomness := [4, 2] }, none), n + 1)
      else ((some { Round := round, Randomness := [round] }, none), n + 1) }

/-- The entries the cache holds a value for: those of `t1`, then those of
`t2`. -/
def ARCCache.entries (c : ARCCache) : List (Nat × Result) := c.t1 ++ c.t2

/-- The wrapped client `up` keeping a record of its own answers: every pair
(round, Result) that `up.Get` has returned with a nil error, oldest first.  The
replies and the state of `up` are passed on as they are; this is the record the
words "a Result that the wrapped client previously returned, without error, to
a Get for that exact round" speak of. -/
def recording {U : Type} (up : Drand.client.Client U) :
    Drand.client.Client (U × List (Nat × Result)) :=
  { Get := fun s round =>
      match up.Get s.1 round with
      | ((some v, none), u) => ((some v, none), (u, s.2 ++ [(round, v)]))
      | (ans, u) => (ans, (u, s.2)) }

/-- The caching clients reachable from the one `NewCachingClient` builds, around
the wrapped client with an empty record, by calls of `cachingClient.Get`. -/
inductive Reached {U : Type} (up : Drand.client.Client U) :
    cachingClient (U × List (Nat × Result)) → Prop
  | init (u : U) (size : Int) (c0 : cachingClient (U × List (Nat × Result))) :
      NewCachingClient (u, ([] : List (Nat × Result))) size = .ok c0 → Reached up c0
  | get (c : cachingClient (U × List (Nat × Result))) (round : Nat) :
      Reached up c → Reached up (cachingClient.Get (recording up) c round).c

end client

/-! ## `cmd/relay-gossip/client/client.go` -/

namespace gossip

/-- A Go channel `chan drand.PublicRandResponse` with its receiving side: its
capacity, the values buffered in it (oldest first), whether it has been closed,
the number of receivers parked in `<-ch` (a receiver parks only when the buffer
is empty), and the values its receivers have taken out of it so far (oldest
first). -/
structure Chan where
  cap : Nat
  buf : List PublicRandResponse
  closed : Bool
  recvq : Nat := 0
  got : List PublicRandResponse := []
deriving DecidableEq, Repr

/-- Everything that has been sent on the channel and not lost: what its
receivers have taken, then what is still buffered. -/
def Chan.stream (ch : Chan) : List PublicRandResponse := ch.got ++ ch.buf

/-- The `select` of lines 80-84 on one channel: `none` is the panic of a send on
a closed channel; otherwise the channel afterwards and the value that went
through `case ch <- rand`, if that branch ran (`none`: the `default` branch, the
notification is dropped).  The send can proceed when a receiver is parked on
the channel, which then takes the value at once, or when the buffer has room. -/
def Chan.trySend (ch : Chan) (rand : PublicRandResponse) :
    Option (Chan × Option PublicRandResponse) :=
  if ch.closed then none
  else if 0 < ch.recvq ∧ ch.buf = [] then
    some ({ ch with recvq := ch.recvq - 1, got := ch.got ++ [rand] }, some rand)
  else if ch.buf.length < ch.cap then some ({ ch with buf := ch.buf ++ [rand] }, some rand)
  else some (ch, none)

/-- A consumer runs `<-ch`: it takes the oldest buffered value; on an empty
closed channel it gets the zero value at once; on an empty open channel it
parks until a value is sent. -/
def Chan.recv (ch : Chan) : Chan :=
  match ch.buf with
  | v :: rest => { ch with buf := rest, got := ch.got ++ [v] }
  | [] => if ch.closed then ch else { ch with recvq := ch.recvq + 1 }

/-- The builtin `close`: `none` is the panic of closing a closed channel.  The
receivers parked on the channel are woken with the zero value. -/
def Chan.close (ch : Chan) : Option Chan :=
  if ch.closed then none else some { ch with closed := true, recvq := 0 }

/-- The struct `Client` together with the channels it can reach: `latest`, the
map `subs.M` from subscription identity to channel (both addresses; the entries
in the order the next `range` visits them), the channels by address, and the
next address `new(int)` returns. -/
structure Client where
  latest : Nat
  M : List (Nat × Nat)
  chans : Nat → Chan
  fresh : Nat

/-- The client `NewWithPubsub` returns, in a world with channels `chans`. -/
def NewWithPubsub (chans : Nat → Chan) : Client :=
  { latest := 0, M := [], chans := chans, fresh := 0 }

/-- What the loop of lines 79-85 has done when it ends: the channels, the sends
that went through, in order, as triples (subscription identity, channel, value
sent), and whether it ended in the panic of a send on a closed channel. -/
structure fanOutResult where
  chans : Nat → Chan
  sent : List (Nat × Nat × PublicRandResponse)
  panicked : Bool

/-- Lines 79-85: the loop over `c.subs.M`. -/
def fanOut (rand : PublicRandResponse) : List (Nat × Nat) → (Nat → Chan) → fanOutResult
  | [], chans => { chans := chans, sent := [], panicked := false }
  | (id, a) :: rest, chans =>
    match (chans a).trySend rand with
    | none => { chans := chans, sent := [], panicked := true }
    | some (ch, went) =>
      let r := fanOut rand rest (Function.update chans a ch)
      { r with sent := (went.toList.map fun v => (id, a, v)) ++ r.sent }

/-- What one step of the client has done: the client afterwards, the sends that
went through, as triples (subscription, channel, value), and whether it ended in
a panic. -/
structure stepResult where
  c : Client
  out : List (Nat × Nat × PublicRandResponse)
  panicked : Bool

/-- Lines 73-86 of the receive loop for one decoded announcement `rand`. -/
def Client.onRand (c : Client) (rand : PublicRandResponse) : stepResult :=
  if c.latest ≥ rand.Round then { c := c, out := [], panicked := false }
  else
    let c := { c with latest := rand.Round }
    let r := fanOut rand c.M c.chans
    { c := { c with chans := r.chans }
      out := r.sent
      panicked := r.panicked }

/-- The method `Client.Sub`: the client afterwards and the pair (identity,
channel) the returned `UnsubFunc` captures. -/
def Client.Sub (c : Client) (ch : Nat) : Client × (Nat × Nat) :=
  let id := c.fresh
  ({ c with M := (c.M.filter fun e => e.1 != id) ++ [(id, ch)], fresh := c.fresh + 1 }, (id, ch))

/-- A call of the `UnsubFunc` that captured `(id, ch)`, lines 111-114: the
entry is deleted, then the channel is closed. -/
def UnsubFunc (c : Client) (id ch : Nat) : stepResult :=
  let c := { c with M := c.M.filter fun e => e.1 != id }
  match (c.chans ch).close with
  | none => { c := c, out := [], panicked := true }
  | some closed =>
    { c := { c with chans := Function.update c.chans ch closed }, out := [], panicked := false }

/-- What can happen to a relay client: an announcement is decoded, a consumer
subscribes a channel, an `UnsubFunc` is called, a consumer starts a receive on
a channel, or the runtime settles on another order in which the next `range`
visits the map (Go leaves that order unspecified). -/
inductive Event where
  | announce (rand : PublicRandResponse)
  | sub (ch : Nat)
  | unsub (id ch : Nat)
  | recv (ch : Nat)
  | reorder (M : List (Nat × Nat))
deriving DecidableEq, Repr

/-- One event. -/
def Client.step (c : Client) : Event → stepResult
  | .announce rand => c.onRand rand
  | .sub ch => { c := (c.Sub ch).1, out := [], panicked := false }
  | .unsub id ch => UnsubFunc c id ch
  | .recv ch =>
    { c := { c with chans := Function.update c.chans ch (c.chans ch).recv }
      out := []
      panicked := false }
  | .reorder M =>
    { c := if M.Perm c.M then { c with M := M } else c, out := [], panicked := false }

/-- A sequence of events: the client afterwards, if no event panicked. -/
def Client.exec : Client → List Event → Option Client
  | c, [] => some c
  | c, e :: rest => if (c.step e).panicked then none else Client.exec (c.step e).c rest

/-- Every send that went through during a sequence of events, in order, as
triples (subscription, channel, value); a panic ends the run. -/
def Client.enqueued : Client → List Event → List (Nat × Nat × PublicRandResponse)
  | _, [] => []
  | c, e :: rest =>
    (c.step e).out ++ if (c.step e).panicked then [] else Client.enqueued (c.step e).c rest

/-- The values among the given sends that went to the subscription `id`. -/
def sentTo (out : List (Nat × Nat × PublicRandResponse)) (id : Nat) : List PublicRandResponse :=
  (out.filter fun p => p.1 == id).map fun p => p.2.2

/-- The values among the given sends that went into the channel `a`. -/
def sentInto (out : List (Nat × Nat × PublicRandResponse)) (a : Nat) :
    List PublicRandResponse :=
  (out.filter fun p => p.2.1 == a).map fun p => p.2.2

/-- The values enqueued to the subscription `id` during a sequence of events. -/
def Client.enqueuedTo (c : Client) (evs : List Event) (id : Nat) : List PublicRandResponse :=
  sentTo (c.enqueued evs) id

/-- The announcements of a sequence of events, in order. -/
def announcements : List Event → List PublicRandResponse
  | [] => []
  | .announce rand :: rest => rand :: announcements rest
  | _ :: rest => announcements rest

/-- The round numbers of the announcements of a sequence of events, in order. -/
def announced : List Event → List Nat
  | [] => []
  | .announce rand :: rest => rand.Round :: announced rest
  | _ :: rest => announced rest

/-- The largest round among the announcements (0 when there is none). -/
def maxAnnounced (evs : List Event) : Nat := (announced evs).foldr max 0

/-- An empty open channel of capacity 2, used at concrete inputs. -/
def sampleChans (_ : Nat) : Chan := { cap := 2, buf := [], closed := false }

/-- An empty open channel of capacity 1, used at concrete inputs. -/
def oneSlotChans (_ : Nat) : Chan := { cap := 1, buf := [], closed := false }

/-- An empty open unbuffered channel, used at concrete inputs. -/
def unbufferedChans (_ : Nat) : Chan := { cap := 0, buf := [], closed := false }

/-- A Result of the given round, used at concrete inputs. -/
def sampleRand (round : Nat) : PublicRandResponse :=
  { Round := round, PreviousSignature := [], Signature := [round], Randomness := [] }

/-- A client with two subscribers, used at concrete inputs: the queue of the
first (capacity 1) is full, the queue of the second (capacity 2) is empty. -/
def twoSubs : Client :=
  { latest := 4
    M := [(0, 10), (1, 11)]
    chans := fun a =>
      if a = 10 then { cap := 1, buf := [sampleRand 4], closed := false }
      else { cap := 2, buf := [], closed := false }
    fresh := 2 }

/-- Whether an event keeps to the use of the relay in which every subscriber has
an open queue of its own: `Sub` is handed an open queue that is not registered
at that moment, and an `UnsubFunc` is called while its subscription is
registered. -/
def Event.disciplined (c : Client) : Event → Bool
  | .sub ch => !(c.chans ch).closed && decide (ch ∉ c.M.map Prod.snd)
  | .unsub id ch => decide ((id, ch) ∈ c.M)
  | _ => true

/-- Whether every event of a sequence, taken in the state it happens in, keeps
to that use. -/
def Client.disciplined : Client → List Event → Bool
  | _, [] => true
  | c, e :: rest => e.disciplined c && Client.disciplined (c.step e).c rest

/-- Lines 51-53: the loop `for _, ch := range c.subs.M { close(ch) }`.  Returns
the channels afterwards and whether the loop ended in the panic of closing a
closed channel. -/
def closeAll : List (Nat × Nat) → (Nat → Chan) → (Nat → Chan) × Bool
  | [], chans => (chans, false)
  | (_, a) :: rest, chans =>
    match (chans a).close with
    | none => (chans, true)
    | some closed => closeAll rest (Function.update chans a closed)

/-- Lines 49-59 of the receive loop, the branch taken once the root context is
cancelled: every channel of the map is closed, then the map is replaced by an
empty one. -/
def Client.shutdown (c : Client) : stepResult :=
  let r := closeAll c.M c.chans
  if r.2 then { c := { c with chans := r.1 }, out := [], panicked := true }
  else { c := { c with M := [], chans := r.1 }, out := [], panicked := false }

/-- The client with the goroutine `NewWithPubsub` starts: `running` is false
once that goroutine has returned at line 58. -/
structure Relay where
  c : Client
  running : Bool

/-- The relay `NewWithPubsub` returns, in a world with channels `chans`. -/
def Relay.start (chans : Nat → Chan) : Relay :=
  { c := NewWithPubsub chans, running := true }

/-- What can happen to a relay: an event of the client, or `Close()` followed by
the receive loop finding its context cancelled. -/
inductive RelayEvent where
  | client (e : Event)
  | cancel
deriving DecidableEq, Repr

/-- What one step of the relay has done. -/
structure relayResult where
  r : Relay
  out : List (Nat × Nat × PublicRandResponse)
  panicked : Bool

/-- One event of the relay.  An announcement is processed only while the receive
loop runs; `Sub`, unsubscription and receives are the consumers' own calls and
need no loop; a cancellation runs the shutdown branch once, after which the
loop is gone. -/
def Relay.step (r : Relay) : RelayEvent → relayResult
  | .client (.announce rand) =>
    if r.running then
      { r := { r with c := (r.c.onRand rand).c }
        out := (r.c.onRand rand).out
        panicked := (r.c.onRand rand).panicked }
    else { r := r, out := [], panicked := false }
  | .client e =>
    { r := { r with c := (r.c.step e).c }, out := (r.c.step e).out,
      panicked := (r.c.step e).panicked }
  | .cancel =>
    if r.running then
      { r := { c := r.c.shutdown.c, running := false }, out := [],
        panicked := r.c.shutdown.panicked }
    else { r := r, out := [], panicked := false }

/-- A sequence of relay events; a panic ends the run. -/
def Relay.run : Relay → List RelayEvent → relayResult
  | r, [] => { r := r, out := [], panicked := false }
  | r, e :: rest =>
    if (r.step e).panicked then r.step e
    else
      { r := (Relay.run (r.step e).r rest).r
        out := (r.step e).out ++ (Relay.run (r.step e).r rest).out
        panicked := (Relay.run (r.step e).r rest).panicked }

end gossip

end Drand

/-! # Theorems -/

namespace Drand

namespace http

/-- The critical section always records the round just received. -/
theorem watchLocked_latestRound (marshal : PublicRandResponse → List Nat × Option GoError)
    (h : handler) (next : PublicRandResponse) :
    (h.watchLocked marshal next).h.latestRound = next.Round := rfl

/-- The markers recorded by the watcher loop are the rounds of the stream. -/
theorem WatchMarkers_eq_rounds (marshal : PublicRandResponse → List Nat × Option GoError)
    (rs : List PublicRandResponse) :
    ∀ h : handler, h.WatchMarkers marshal rs = rs.map fun r => r.Round := by
  induction rs with
  | nil => intro h; rfl
  | cons next rest ih =>
    intro h
    simp only [handler.WatchMarkers, List.map_cons, ih]
    rfl

/-- In a reachable state the parked requests are the pending waiters, in
order, and each asked for the round after the marker. -/
theorem Reachable_parked (marshal : PublicRandResponse → List Nat × Option GoError)
    (PublicRand : PublicRandRequest → Except GoError PublicRandResponse)
    (h : handler) (parked : List (Nat × Nat)) (hr : Reachable marshal PublicRand h parked) :
    parked.map Prod.fst = h.pending ∧ ∀ p ∈ parked, p.2 = (h.latestRound + 1) % U64 := by
  induction hr with
  | init => exact ⟨rfl, fun p hp => absurd hp (List.not_mem_nil _)⟩
  | watch h parked next _ _ => exact ⟨rfl, fun p hp => absurd hp (List.not_mem_nil _)⟩
  | getRand h parked seen ch round _ ih =>
    by_cases h1 : (seen + 1) % U64 = round
    · by_cases h2 : (h.latestRound + 1) % U64 = round
      · have hg : h.getRand marshal PublicRand seen ch round =
            ({ h with pending := h.pending ++ [ch] }, getRandOutcome.parked ch) := by
          simp [handler.getRand, h1, h2]
        rw [hg]
        refine ⟨by simp [parkedAfter, ih.1], ?_⟩
        intro p hp
        simp only [parkedAfter, List.mem_append, List.mem_singleton] at hp
        rcases hp with hp | hp
        · exact ih.2 p hp
        · rw [hp]; exact h2.symm
      · have hg : h.getRand marshal PublicRand seen ch round =
            (h, handler.fetchRand marshal PublicRand round) := by
          simp [handler.getRand, h1, h2]
        rw [hg]
        cases hf : handler.fetchRand marshal PublicRand round with
        | parked c =>
          unfold handler.fetchRand at hf
          cases hP : PublicRand { Round := round } <;> simp [hP] at hf
        | returned d e => exact ih
    · have hg : h.getRand marshal PublicRand seen ch round =
          (h, handler.fetchRand marshal PublicRand round) := by
        simp [handler.getRand, h1]
      rw [hg]
      cases hf : handler.fetchRand marshal PublicRand round with
      | parked c =>
        unfold handler.fetchRand at hf
        cases hP : PublicRand { Round := round } <;> simp [hP] at hf
      | returned d e => exact ih

/-- The loop of lines 91-93 sends to the detached waiters that stand before the
first closed one, and it panics exactly when a detached waiter is closed. -/
theorem watchDeliver_spec (closed : List Nat) (bytes : List Nat) (pending : List Nat) :
    (handler.watchDeliver closed pending bytes).sends
      = (pending.takeWhile fun w => decide (w ∉ closed)).map (fun w => (w, bytes)) ∧
    ((handler.watchDeliver closed pending bytes).panicked = true ↔ ∃ w ∈ pending, w ∈ closed) := by
  induction pending with
  | nil => simp [handler.watchDeliver]
  | cons w rest ih =>
    by_cases hw : w ∈ closed
    · simp [handler.watchDeliver, hw]
    · simp [handler.watchDeliver, hw, ih.1, ih.2]

/-- When no detached waiter is closed, every one of them is sent the bytes, in
order, and the loop ends without a panic. -/
theorem watchDeliver_of_open (closed : List Nat) (bytes : List Nat) (pending : List Nat)
    (hopen : ∀ w ∈ pending, w ∉ closed) :
    handler.watchDeliver closed pending bytes
      = { sends := pending.map (fun w => (w, bytes)), panicked := false } := by
  induction pending with
  | nil => rfl
  | cons w rest ih =>
    have hw : w ∉ closed := hopen w (List.mem_cons_self _ _)
    have hr := ih (fun x hx => hopen x (List.mem_cons_of_mem _ hx))
    simp [handler.watchDeliver, hw, hr]

/-- No channel is closed in a state reached by watcher iterations and calls of
`getRand` alone. -/
theorem Reachable_closed (marshal : PublicRandResponse → List Nat × Option GoError)
    (PublicRand : PublicRandRequest → Except GoError PublicRandResponse)
    (h : handler) (parked : List (Nat × Nat)) (hr : Reachable marshal PublicRand h parked) :
    h.closed = [] := by
  induction hr with
  | init => rfl
  | watch h parked next _ ih => exact ih
  | getRand h parked seen ch round _ ih =>
    unfold handler.getRand
    simp only []
    split_ifs <;> exact ih

/-- Once the marker is set (non-zero), a parked request released by the watcher
gets the empty payload or the encoding of a Result of the round it asked for. -/
theorem released_waiter_gets_its_round
    (marshal : PublicRandResponse → List Nat × Option GoError)
    (PublicRand : PublicRandRequest → Except GoError PublicRandResponse)
    (h : handler) (parked : List (Nat × Nat)) (hr : Reachable marshal PublicRand h parked)
    (hset : h.latestRound ≠ 0) (next : PublicRandResponse) :
    (h.Watch marshal next).2.map Prod.fst = parked.map Prod.fst ∧
    ∀ p ∈ parked, ∀ payload, (p.1, payload) ∈ (h.Watch marshal next).2 →
      payload = [] ∨ (payload = (marshal next).1 ∧ next.Round = p.2) := by
  obtain ⟨hp1, hp2⟩ := Reachable_parked marshal PublicRand h parked hr
  have hcl := Reachable_closed marshal PublicRand h parked hr
  have hw : ∀ bytes, handler.watchDeliver h.closed h.pending bytes
      = { sends := h.pending.map (fun w => (w, bytes)), panicked := false } := fun bytes =>
    watchDeliver_of_open h.closed bytes h.pending (by rw [hcl]; simp)
  refine ⟨?_, ?_⟩
  · rw [hp1]
    simp only [handler.Watch, handler.watchLocked, hw, List.map_map]
    exact List.map_id _
  · intro p hp payload hmem
    simp only [handler.Watch, handler.watchLocked, hw, List.mem_map,
      Prod.mk.injEq] at hmem
    obtain ⟨w, _, _, hpay⟩ := hmem
    by_cases hgap : (h.latestRound + 1) % U64 ≠ next.Round ∧ h.latestRound ≠ 0
    · rw [if_pos hgap] at hpay
      exact Or.inl hpay.symm
    · rw [if_neg hgap] at hpay
      refine Or.inr ⟨hpay.symm, ?_⟩
      rw [hp2 p hp]
      by_contra hne
      exact hgap ⟨fun e => hne e.symm, hset⟩

/-- C1 (evaluation at the failing input): on the fresh handler a request for
round 1 is parked (0 + 1 = 1); when the watcher then receives its first Result,
of round 1970, the marker is still 0, no gap is flagged, and the parked request
is released with the encoding of the round-1970 Result, which is neither empty
nor the encoding of a Result of round 1. -/
theorem getRand_first_round_released_with_other_round
    (marshal : PublicRandResponse → List Nat × Option GoError)
    (PublicRand : PublicRandRequest → Except GoError PublicRandResponse) :
    Reachable marshal PublicRand (New.getRand marshal PublicRand New.latestRound 0 1).1
      [(0, 1)] ∧
    (New.getRand marshal PublicRand New.latestRound 0 1).2 = getRandOutcome.parked 0 ∧
    ((New.getRand marshal PublicRand New.latestRound 0 1).1.Watch marshal
        { Round := 1970, PreviousSignature := [], Signature := [9], Randomness := [8] }).2
      = [(0, (marshal
          { Round := 1970, PreviousSignature := [], Signature := [9], Randomness := [8] }).1)] ∧
    ((New.getRand sampleMarshal PublicRand New.latestRound 0 1).1.Watch sampleMarshal
        { Round := 1970, PreviousSignature := [], Signature := [9], Randomness := [8] }).2
      = [(0, [123, 1970, 125])] ∧
    ∀ res : PublicRandResponse, res.Round = 1 → (sampleMarshal res).1 ≠ [123, 1970, 125] := by
  have hg : New.getRand marshal PublicRand New.latestRound 0 1 =
      ({ pending := [0], latestRound := 0 }, getRandOutcome.parked 0) := by
    simp [handler.getRand, New, U64]
  refine ⟨?_, ?_, ?_, ?_, ?_⟩
  · have := Reachable.getRand New [] New.latestRound 0 1
      (Reachable.init : Reachable marshal PublicRand New [])
    rw [hg] at this ⊢
    exact this
  · rw [hg]
  · rw [hg]
    simp [handler.Watch, handler.watchLocked, handler.watchDeliver]
  · simp [handler.getRand, handler.Watch, handler.watchLocked, handler.watchDeliver, New, U64,
      sampleMarshal]
  · intro res hres
    simp [sampleMarshal, hres]

/-- One watcher iteration with no cancellation in between, on a Result of round
`R`, from marker `m` and pending list `P` none of whose waiters is closed: the
marker becomes `R`, the pending list empty, and one and the same payload is sent
to every waiter of `P`, in order, without a panic; the payload is empty exactly
when `m ≠ 0` and `R` is not `m + 1` (in 64-bit arithmetic), and is otherwise the
encoding of the Result. -/
theorem watch_step_releases_open_waiters
    (marshal : PublicRandResponse → List Nat × Option GoError)
    (hne : ∀ r, (marshal r).1 ≠ [])
    (h : handler) (next : PublicRandResponse)
    (hopen : ∀ w ∈ h.pending, w ∉ h.closed) :
    (h.Watch marshal next).1.latestRound = next.Round ∧
    (h.Watch marshal next).1.pending = [] ∧
    h.WatchPanics marshal next = false ∧
    ∃ payload : List Nat,
      (h.Watch marshal next).2 = h.pending.map (fun waiter => (waiter, payload)) ∧
      (payload = [] ↔ (h.latestRound ≠ 0 ∧ next.Round ≠ (h.latestRound + 1) % U64)) ∧
      (payload ≠ [] → payload = (marshal next).1) := by
  have hw : ∀ bytes, handler.watchDeliver h.closed h.pending bytes
      = { sends := h.pending.map (fun w => (w, bytes)), panicked := false } := fun bytes =>
    watchDeliver_of_open h.closed bytes h.pending hopen
  refine ⟨rfl, rfl, ?_, ?_⟩
  · simp only [handler.WatchPanics, handler.watchLocked, hw]
  by_cases hgap : (h.latestRound + 1) % U64 ≠ next.Round ∧ h.latestRound ≠ 0
  · refine ⟨[], ?_, ?_, ?_⟩
    · simp [handler.Watch, handler.watchLocked, hw, hgap]
    · simp only [true_iff]
      exact ⟨hgap.2, fun e => hgap.1 e.symm⟩
    · intro hc; exact absurd rfl hc
  · refine ⟨(marshal next).1, ?_, ?_, ?_⟩
    · simp only [handler.Watch, handler.watchLocked, hw, if_neg hgap]
    · constructor
      · intro he; exact absurd he (hne next)
      · intro hc; exact absurd ⟨fun e => hc.2 e.symm, hc.1⟩ hgap
    · intro _; rfl

/-- The iteration at a concrete input: marker 5, waiters 3 and 4, Result of
round 6. -/
theorem watch_step_releases_open_waiters_example :
    (∀ r, (sampleMarshal r).1 ≠ []) ∧
    (({ pending := [3, 4], latestRound := 5 } : handler).Watch sampleMarshal
        { Round := 6, PreviousSignature := [], Signature := [], Randomness := [] }).1.latestRound
      = 6 ∧
    (({ pending := [3, 4], latestRound := 5 } : handler).Watch sampleMarshal
        { Round := 6, PreviousSignature := [], Signature := [], Randomness := [] }).2
      = [(3, [123, 6, 125]), (4, [123, 6, 125])] :=
  ⟨fun r => by simp [sampleMarshal],
   (watch_step_releases_open_waiters sampleMarshal (fun r => by simp [sampleMarshal])
      { pending := [3, 4], latestRound := 5 }
      { Round := 6, PreviousSignature := [], Signature := [], Randomness := [] }
      (by decide)).1,
   by decide⟩

/-- C5 (evaluation at the failing schedule): the marker is 5 and the requests
with waiters 0 and 1, both for round 6, are pending.  The watcher receives round
6 and, under the lock, sets the marker to 6, empties the pending list and keeps
the waiters 0 and 1 with the encoding of the Result.  Before it sends, the
request of waiter 0 is cancelled and closes its channel.  The first send of
lines 91-93 then panics: nothing has been sent, and waiter 1, whose request is
still waiting, is never released.  Without the cancellation both waiters are
sent the encoding. -/
theorem watch_step_leaves_waiter_unreleased
    (PublicRand : PublicRandRequest → Except GoError PublicRandResponse) (ctxErr : GoError) :
    (({ pending := [0, 1], latestRound := 5 } : handler).watchLocked sampleMarshal
        ⟨6, [], [], []⟩)
      = { h := { pending := [], latestRound := 6 }, pending := [0, 1], bytes := [123, 6, 125] } ∧
    handler.watchDeliver
        ((({ pending := [], latestRound := 6 } : handler).cancelRand ctxErr 0).1.closed)
        [0, 1] [123, 6, 125]
      = { sends := [], panicked := true } ∧
    handler.watchDeliver ({ pending := [], latestRound := 6 } : handler).closed
        [0, 1] [123, 6, 125]
      = { sends := [(0, [123, 6, 125]), (1, [123, 6, 125])], panicked := false } ∧
    (server.run sampleMarshal PublicRand ctxErr server.init
        [action.detach ⟨5, [], [], []⟩, action.register 5 0 6, action.register 5 1 6,
          action.detach ⟨6, [], [], []⟩]).todo = [0, 1] ∧
    (server.run sampleMarshal PublicRand ctxErr server.init
        [action.detach ⟨5, [], [], []⟩, action.register 5 0 6, action.register 5 1 6,
          action.detach ⟨6, [], [], []⟩]).h
      = { pending := [], latestRound := 6 } ∧
    (server.run sampleMarshal PublicRand ctxErr server.init
        [action.detach ⟨5, [], [], []⟩, action.register 5 0 6, action.register 5 1 6,
          action.detach ⟨6, [], [], []⟩, action.cancel 0, action.deliver]).panicked = true ∧
    (server.run sampleMarshal PublicRand ctxErr server.init
        [action.detach ⟨5, [], [], []⟩, action.register 5 0 6, action.register 5 1 6,
          action.detach ⟨6, [], [], []⟩, action.cancel 0, action.deliver]).todo = [0, 1] ∧
    (server.run sampleMarshal PublicRand ctxErr server.init
        [action.detach ⟨5, [], [], []⟩, action.register 5 0 6, action.register 5 1 6,
          action.detach ⟨6, [], [], []⟩, action.cancel 0, action.deliver]).waiters 1
      = { closed := false, got := none } ∧
    (server.run sampleMarshal PublicRand ctxErr server.init
        [action.detach ⟨5, [], [], []⟩, action.register 5 0 6, action.register 5 1 6,
          action.detach ⟨6, [], [], []⟩, action.cancel 0, action.deliver]).parked 1 = true := by
  refine ⟨by decide, ?_, by decide, ?_, ?_, ?_, ?_, ?_, ?_⟩ <;>
    simp [server.run, server.step, server.init, server.parked, handler.getRand,
      handler.watchLocked, handler.watchDeliver, handler.cancelRand, New, U64, sampleMarshal]

/-- C6: `getRand` registers its waiter (appending it to the pending list) and
waits exactly when `latestRound + 1 == round` held at the first read and holds
again under the write lock, in 64-bit arithmetic; in every other case the
handler is unchanged and the call returns the outcome of the point fetch for
`round`: the upstream error, or the encoding of the response. -/
theorem getRand_parks_iff_next_round
    (marshal : PublicRandResponse → List Nat × Option GoError)
    (PublicRand : PublicRandRequest → Except GoError PublicRandResponse)
    (seen : Nat) (h : handler) (ch round : Nat) :
    h.getRand marshal PublicRand seen ch round =
      (if (seen + 1) % U64 = round ∧ (h.latestRound + 1) % U64 = round then
        ({ h with pending := h.pending ++ [ch] }, getRandOutcome.parked ch)
      else
        (h, match PublicRand { Round := round } with
            | .error err => getRandOutcome.returned [] (some err)
            | .ok resp => getRandOutcome.returned (marshal resp).1 (marshal resp).2)) ∧
    ((∃ c, (h.getRand marshal PublicRand seen ch round).2 = getRandOutcome.parked c) ↔
      ((seen + 1) % U64 = round ∧ (h.latestRound + 1) % U64 = round)) := by
  have hf : ∀ c, handler.fetchRand marshal PublicRand round ≠ getRandOutcome.parked c := by
    intro c
    unfold handler.fetchRand
    cases PublicRand { Round := round } <;> simp
  by_cases h1 : (seen + 1) % U64 = round
  · by_cases h2 : (h.latestRound + 1) % U64 = round
    · refine ⟨?_, ?_⟩
      · simp [handler.getRand, h1, h2]
      · simp [handler.getRand, h1, h2]
    · refine ⟨?_, ?_⟩
      · simp only [handler.getRand, h1, h2, decide_True, decide_False, if_true, and_false,
          if_false]
        rfl
      · simp only [handler.getRand, h1, h2, decide_True, decide_False, if_true, and_false,
          iff_false, not_exists]
        intro c
        exact hf c
  · refine ⟨?_, ?_⟩
    · simp only [handler.getRand, h1, decide_False, false_and, if_false]
      rfl
    · simp only [handler.getRand, h1, decide_False, false_and, iff_false, not_exists]
      intro c
      exact hf c

/-- C10 (as stated, refuted): from marker 5 a Result of round 3 takes the marker
down to 3. -/
theorem watch_marker_can_decrease :
    ¬ ∀ (h : handler) (next : PublicRandResponse),
        h.latestRound ≤ (h.Watch sampleMarshal next).1.latestRound := by
  intro hall
  have := hall { pending := [], latestRound := 5 }
    { Round := 3, PreviousSignature := [], Signature := [], Randomness := [] }
  exact absurd this (by decide)

/-- C10 (amended): after each watcher iteration the marker is the round of the
Result just processed; so over a stream whose rounds never go down and start at
or above the marker, the marker is non-decreasing from one iteration to the
next. -/
theorem watch_marker_follows_stream
    (marshal : PublicRandResponse → List Nat × Option GoError)
    (h : handler) (rs : List PublicRandResponse)
    (hs : List.Chain (fun a b => a ≤ b) h.latestRound (rs.map fun r => r.Round)) :
    h.WatchMarkers marshal rs = (rs.map fun r => r.Round) ∧
    List.Chain (fun a b => a ≤ b) h.latestRound (h.WatchMarkers marshal rs) := by
  rw [WatchMarkers_eq_rounds]
  exact ⟨rfl, hs⟩

/-- C10 (amended) at a concrete input: marker 4 and the stream 5, 6, 6, 9. -/
theorem watch_marker_follows_stream_witness :
    ({ pending := [1], latestRound := 4 } : handler).WatchMarkers sampleMarshal
        [⟨5, [], [], []⟩, ⟨6, [], [], []⟩, ⟨6, [], [], []⟩, ⟨9, [], [], []⟩] = [5, 6, 6, 9] ∧
    List.Chain (fun a b => a ≤ b) 4
      (({ pending := [1], latestRound := 4 } : handler).WatchMarkers sampleMarshal
        [⟨5, [], [], []⟩, ⟨6, [], [], []⟩, ⟨6, [], [], []⟩, ⟨9, [], [], []⟩]) :=
  watch_marker_follows_stream sampleMarshal { pending := [1], latestRound := 4 }
    [⟨5, [], [], []⟩, ⟨6, [], [], []⟩, ⟨6, [], [], []⟩, ⟨9, [], [], []⟩] (by simp)

end http

end Drand

namespace Drand
namespace client

namespace LRU
variable {β : Type}

theorem Contains_iff_mem_keys (l : LRU β) (k : Nat) : Contains l k = true ↔ k ∈ keys l := by
  unfold Contains keys
  rw [List.lookup_isSome_iff]
  simp only [beq_iff_eq, List.mem_map]
  constructor
  · rintro ⟨p, hp, rfl⟩; exact ⟨p, hp, rfl⟩
  · rintro ⟨p, hp, rfl⟩; exact ⟨p, hp, rfl⟩

theorem Contains_false_iff (l : LRU β) (k : Nat) : Contains l k = false ↔ k ∉ keys l := by
  rw [← Contains_iff_mem_keys]; simp

theorem lookup_none_of_not_mem (l : LRU β) (k : Nat) (h : k ∉ keys l) : l.lookup k = none := by
  have := (Contains_false_iff l k).2 h
  unfold Contains at this
  simpa using this

theorem mem_keys_of_lookup (l : LRU β) (k : Nat) (v : β) (h : l.lookup k = some v) :
    k ∈ keys l := by
  rw [← Contains_iff_mem_keys]
  unfold Contains
  simp [h]

theorem keys_Remove_subset (l : LRU β) (k : Nat) : keys (Remove l k) ⊆ keys l := by
  unfold keys Remove
  exact List.map_subset _ (List.eraseP_subset l)

theorem keys_dropLast_subset (l : LRU β) : keys (l.dropLast) ⊆ keys l := by
  unfold keys
  exact List.map_subset _ (List.dropLast_subset l)

theorem keys_Add_subset (size : Nat) (l : LRU β) (k : Nat) (v : β) :
    keys (Add size l k v) ⊆ k :: keys l := by
  unfold Add
  split
  · intro x hx
    simp only [keys, List.map_cons, List.mem_cons] at hx ⊢
    rcases hx with hx | hx
    · exact Or.inl hx
    · exact Or.inr (keys_Remove_subset l k hx)
  · simp only [RemoveOldest]
    split
    · intro x hx
      have := keys_dropLast_subset ((k, v) :: l) hx
      simpa [keys] using this
    · intro x hx
      simpa [keys] using hx

theorem Peek_Add_self (size : Nat) (hs : 1 ≤ size) (l : LRU β) (k : Nat) (v : β) :
    Peek (Add size l k v) k = some v := by
  unfold Add Peek
  split
  · simp
  · simp only [RemoveOldest, Len]
    split
    · rename_i hlen
      cases l with
      | nil => simp at hlen; omega
      | cons a l => simp
    · simp

end LRU


namespace ARCCache

theorem replace_frame (c : ARCCache) (b : Bool) :
    (c.replace b).size = c.size ∧
    LRU.keys (c.replace b).t1 ⊆ LRU.keys c.t1 ∧
    LRU.keys (c.replace b).t2 ⊆ LRU.keys c.t2 := by
  unfold replace
  simp only []
  split_ifs with hc
  · cases hl : c.t1.getLast? with
    | none =>
      simp only [LRU.RemoveOldest, hl]
      exact ⟨trivial, LRU.keys_dropLast_subset c.t1, fun _ h => h⟩
    | some e =>
      simp only [LRU.RemoveOldest, hl]
      exact ⟨trivial, LRU.keys_dropLast_subset c.t1, fun _ h => h⟩
  · cases hl : c.t2.getLast? with
    | none =>
      simp only [LRU.RemoveOldest, hl]
      exact ⟨trivial, fun _ h => h, LRU.keys_dropLast_subset c.t2⟩
    | some e =>
      simp only [LRU.RemoveOldest, hl]
      exact ⟨trivial, fun _ h => h, LRU.keys_dropLast_subset c.t2⟩

theorem Contains_false_iff_not_cached (c : ARCCache) (k : Nat) :
    c.Contains k = false ↔ k ∉ LRU.keys c.t1 ∧ k ∉ LRU.keys c.t2 := by
  unfold Contains
  rw [Bool.or_eq_false_iff, LRU.Contains_false_iff, LRU.Contains_false_iff]

theorem Peek_of_t1 (c : ARCCache) (k : Nat) (v : Result) (h : LRU.Peek c.t1 k = some v) :
    c.Peek k = some v := by
  unfold Peek; rw [h]

theorem Peek_of_t2 (c : ARCCache) (k : Nat) (v : Result) (h1 : k ∉ LRU.keys c.t1)
    (h : LRU.Peek c.t2 k = some v) : c.Peek k = some v := by
  unfold Peek
  have : LRU.Peek c.t1 k = none := LRU.lookup_none_of_not_mem c.t1 k h1
  rw [this]; exact h

/-- A miss leaves the cache as it is. -/
theorem Get_of_not_Contains (c : ARCCache) (k : Nat) (h : c.Contains k = false) :
    c.Get k = (c, none) := by
  rw [Contains_false_iff_not_cached] at h
  unfold Get
  have h1 : LRU.Peek c.t1 k = none := LRU.lookup_none_of_not_mem c.t1 k h.1
  have h2 : List.lookup k c.t2 = none := LRU.lookup_none_of_not_mem c.t2 k h.2
  rw [h1]
  simp only [LRU.Get, h2]

/-- A hit returns the value `Peek` shows. -/
theorem Get_of_Peek (c : ARCCache) (k : Nat) (v : Result) (h : c.Peek k = some v) :
    (c.Get k).2 = some v := by
  unfold Peek at h
  unfold Get
  cases h1 : LRU.Peek c.t1 k with
  | some w =>
    rw [h1] at h
    simpa using h
  | none =>
    rw [h1] at h
    simp only [LRU.Peek] at h
    simp only [LRU.Get, h]


theorem keys_sub_cons (r : Nat) (l l0 : LRU Result) (h : LRU.keys l ⊆ LRU.keys l0) :
    LRU.keys l ⊆ r :: LRU.keys l0 := by
  intro x hx
  exact List.mem_cons_of_mem _ (h hx)

theorem keys_Remove_sub_cons (r : Nat) (l : LRU Result) :
    LRU.keys (LRU.Remove l r) ⊆ r :: LRU.keys l := by
  intro x hx
  exact List.mem_cons_of_mem _ (LRU.keys_Remove_subset l r hx)

theorem keys_Add_sub_cons (n r : Nat) (v : Result) (l l0 : LRU Result)
    (h : LRU.keys l ⊆ LRU.keys l0) :
    LRU.keys (LRU.Add n l r v) ⊆ r :: LRU.keys l0 := by
  intro x hx
  have := LRU.keys_Add_subset n l r v hx
  rcases List.mem_cons.1 this with h1 | h1
  · exact List.mem_cons.2 (Or.inl h1)
  · exact List.mem_cons_of_mem _ (h h1)

theorem growP_frame (c : ARCCache) :
    c.growP.size = c.size ∧ c.growP.t1 = c.t1 ∧ c.growP.t2 = c.t2 ∧
    c.growP.b1 = c.b1 ∧ c.growP.b2 = c.b2 := by
  unfold growP
  simp only []
  split_ifs <;> exact ⟨rfl, rfl, rfl, rfl, rfl⟩

theorem shrinkP_frame (c : ARCCache) :
    c.shrinkP.size = c.size ∧ c.shrinkP.t1 = c.t1 ∧ c.shrinkP.t2 = c.t2 ∧
    c.shrinkP.b1 = c.b1 ∧ c.shrinkP.b2 = c.b2 := by
  unfold shrinkP
  simp only []
  split_ifs <;> exact ⟨rfl, rfl, rfl, rfl, rfl⟩

theorem trimGhosts_frame (c : ARCCache) :
    c.trimGhosts.size = c.size ∧ c.trimGhosts.t1 = c.t1 ∧ c.trimGhosts.t2 = c.t2 := by
  unfold trimGhosts
  simp only []
  split_ifs <;> exact ⟨rfl, rfl, rfl⟩

theorem makeRoom_frame (c : ARCCache) (b : Bool) :
    (c.makeRoom b).size = c.size ∧
    LRU.keys (c.makeRoom b).t1 ⊆ LRU.keys c.t1 ∧
    LRU.keys (c.makeRoom b).t2 ⊆ LRU.keys c.t2 := by
  unfold makeRoom
  split_ifs
  · exact replace_frame c b
  · exact ⟨rfl, fun _ h => h, fun _ h => h⟩

theorem Add_frame (c : ARCCache) (r : Nat) (v : Result) :
    (c.Add r v).size = c.size ∧
    LRU.keys (c.Add r v).t1 ⊆ r :: LRU.keys c.t1 ∧
    LRU.keys (c.Add r v).t2 ⊆ r :: LRU.keys c.t2 := by
  unfold Add
  simp only []
  split_ifs
  · exact ⟨rfl, keys_Remove_sub_cons r _, keys_Add_sub_cons _ r v _ _ (fun _ h => h)⟩
  · exact ⟨rfl, keys_sub_cons r _ _ (fun _ h => h), keys_Add_sub_cons _ r v _ _ (fun _ h => h)⟩
  · have hm := makeRoom_frame c.growP false
    have hg := growP_frame c
    rw [hg.2.1, hg.2.2.1, hg.1] at hm
    exact ⟨hm.1, keys_sub_cons r _ _ hm.2.1, keys_Add_sub_cons _ r v _ _ hm.2.2⟩
  · have hm := makeRoom_frame c.shrinkP true
    have hg := shrinkP_frame c
    rw [hg.2.1, hg.2.2.1, hg.1] at hm
    exact ⟨hm.1, keys_sub_cons r _ _ hm.2.1, keys_Add_sub_cons _ r v _ _ hm.2.2⟩
  · have hm := makeRoom_frame c false
    have ht := trimGhosts_frame (c.makeRoom false)
    refine ⟨?_, ?_, ?_⟩
    · show (c.makeRoom false).trimGhosts.size = c.size
      rw [ht.1, hm.1]
    · show LRU.keys (LRU.Add _ (c.makeRoom false).trimGhosts.t1 r v) ⊆ _
      rw [ht.2.1]
      exact keys_Add_sub_cons _ r v _ _ hm.2.1
    · show LRU.keys (c.makeRoom false).trimGhosts.t2 ⊆ _
      rw [ht.2.2]
      exact keys_sub_cons r _ _ hm.2.2


/-- After `Add` on a key that was not cached, the key maps to the added value
(for a cache of size at least 1). -/
theorem Peek_Add (c : ARCCache) (r : Nat) (v : Result) (hs : 1 ≤ c.size)
    (hc : c.Contains r = false) : (c.Add r v).Peek r = some v := by
  rw [Contains_false_iff_not_cached] at hc
  have h1 : LRU.Contains c.t1 r = false := (LRU.Contains_false_iff _ _).2 hc.1
  have h2 : LRU.Contains c.t2 r = false := (LRU.Contains_false_iff _ _).2 hc.2
  unfold Add
  simp only [h1, h2, Bool.false_eq_true, if_false]
  split_ifs
  · have hm := makeRoom_frame c.growP false
    have hg := growP_frame c
    rw [hg.2.1, hg.1] at hm
    apply Peek_of_t2
    · exact fun h => hc.1 (hm.2.1 h)
    · exact LRU.Peek_Add_self _ (by rw [hm.1]; exact hs) _ r v
  · have hm := makeRoom_frame c.shrinkP true
    have hg := shrinkP_frame c
    rw [hg.2.1, hg.1] at hm
    apply Peek_of_t2
    · exact fun h => hc.1 (hm.2.1 h)
    · exact LRU.Peek_Add_self _ (by rw [hm.1]; exact hs) _ r v
  · have hm := makeRoom_frame c false
    have ht := trimGhosts_frame (c.makeRoom false)
    apply Peek_of_t1
    exact LRU.Peek_Add_self _ (by rw [ht.1, hm.1]; exact hs) _ r v

/-- `Add` creates no entry under any key but the one added. -/
theorem Contains_Add_of_ne (c : ARCCache) (r k : Nat) (v : Result) (hk : k ≠ r)
    (hc : c.Contains k = false) : (c.Add r v).Contains k = false := by
  rw [Contains_false_iff_not_cached] at hc ⊢
  have hf := Add_frame c r v
  constructor
  · intro h
    rcases List.mem_cons.1 (hf.2.1 h) with h | h
    · exact hk h
    · exact hc.1 h
  · intro h
    rcases List.mem_cons.1 (hf.2.2 h) with h | h
    · exact hk h
    · exact hc.2 h

end ARCCache

/-- A hit: the step `cachingClient.Get` takes when the round is cached. -/
theorem cachingClient_Get_of_Peek {U : Type} (up : Client U) (c : cachingClient U) (r : Nat)
    (v : Result) (hv : c.cache.Peek r = some v) :
    cachingClient.Get up c r =
      { res := some v, err := none, c := { c with cache := (c.cache.Get r).1 }, calls := [] } := by
  have hg := ARCCache.Get_of_Peek c.cache r v hv
  unfold cachingClient.Get
  cases hget : c.cache.Get r with
  | mk cache o =>
    rw [hget] at hg
    simp only at hg
    subst hg
    rfl

/-- C3: when round `r` is in the cache with value `v`, `cachingClient.Get`
returns `(v, nil)`, makes no call to the wrapped client's `Get`, and leaves the
wrapped client as it was. -/
theorem cachingClient_Get_hit {U : Type} (up : Client U) (c : cachingClient U) (r : Nat)
    (v : Result) (hv : c.cache.Peek r = some v) :
    (cachingClient.Get up c r).res = some v ∧
    (cachingClient.Get up c r).err = none ∧
    (cachingClient.Get up c r).calls = [] ∧
    (cachingClient.Get up c r).c.Client = c.Client := by
  rw [cachingClient_Get_of_Peek up c r v hv]
  exact ⟨rfl, rfl, rfl, rfl⟩

namespace LRU
variable {β : Type}

theorem keys_Remove (l : LRU β) (k : Nat) : keys (Remove l k) = (keys l).erase k := by
  unfold keys Remove
  induction l with
  | nil => rfl
  | cons a l ih =>
    by_cases h : a.1 = k
    · simp [List.eraseP_cons, h]
    · have h2 : (a.1 == k) = false := by simpa using h
      simp only [List.eraseP_cons, h2, cond_false, List.map_cons, Bool.false_eq_true, if_false]
      rw [List.erase_cons_tail (by simpa using h), ih]

theorem lookup_some_of_mem (l : LRU β) (k : Nat) (h : k ∈ keys l) : ∃ v, l.lookup k = some v := by
  have := (Contains_iff_mem_keys l k).2 h
  unfold Contains at this
  exact Option.isSome_iff_exists.1 this

theorem Add_new (size : Nat) (l : LRU β) (k : Nat) (v : β) (hk : k ∉ keys l)
    (hlen : l.length + 1 ≤ size) : Add size l k v = (k, v) :: l := by
  unfold Add
  have : Contains l k = false := (Contains_false_iff l k).2 hk
  simp only [this, Bool.false_eq_true, if_false, Len, List.length_cons]
  rw [if_neg (by omega)]

end LRU

namespace ARCCache

theorem NoEviction_of_perm {n : Nat} {c c1 : ARCCache} {seen : List Nat}
    (h : NoEviction n c seen) (hs : c1.size = c.size) (hb1 : c1.b1 = c.b1) (hb2 : c1.b2 = c.b2)
    (hp : c1.cached.Perm c.cached) : NoEviction n c1 seen := by
  obtain ⟨h1, h2, h3, h4, h5, h6⟩ := h
  refine ⟨hs.trans h1, hb1.trans h2, hb2.trans h3, hp.nodup_iff.2 h4, ?_, ?_⟩
  · intro k
    rw [hp.mem_iff]
    exact h5 k
  · rw [hp.length_eq]
    exact h6

/-- A hit in a cache that has never evicted returns a value and keeps the same
keys. -/
theorem Get_hit_NoEviction {n : Nat} {c : ARCCache} {seen : List Nat}
    (h : NoEviction n c seen) (r : Nat) (hr : r ∈ seen) :
    ∃ c1 v, c.Get r = (c1, some v) ∧ NoEviction n c1 seen := by
  have hmem : r ∈ c.cached := (h.2.2.2.2.1 r).2 hr
  have hnd : c.cached.Nodup := h.2.2.2.1
  have hlen : c.cached.length ≤ c.size := by rw [h.1]; exact h.2.2.2.2.2
  unfold cached at hmem hnd hlen
  by_cases h1 : r ∈ LRU.keys c.t1
  · obtain ⟨v, hv⟩ := LRU.lookup_some_of_mem c.t1 r h1
    have h2 : r ∉ LRU.keys c.t2 := fun h2 => (List.nodup_append.1 hnd).2.2 h1 h2
    have hpos : 1 ≤ (LRU.keys c.t1).length := List.length_pos_of_mem h1
    have hl1 : (LRU.keys c.t1).length = c.t1.length := by simp [LRU.keys]
    have hl2 : (LRU.keys c.t2).length = c.t2.length := by simp [LRU.keys]
    have hadd : LRU.Add c.size c.t2 r v = (r, v) :: c.t2 :=
      LRU.Add_new c.size c.t2 r v h2 (by rw [List.length_append] at hlen; omega)
    refine ⟨{ c with t1 := LRU.Remove c.t1 r, t2 := (r, v) :: c.t2 }, v, ?_, ?_⟩
    · unfold Get
      simp only [LRU.Peek, hv, hadd]
    · refine NoEviction_of_perm h rfl rfl rfl ?_
      show (LRU.keys (LRU.Remove c.t1 r) ++ LRU.keys ((r, v) :: c.t2)).Perm _
      rw [LRU.keys_Remove]
      show ((LRU.keys c.t1).erase r ++ r :: LRU.keys c.t2).Perm (LRU.keys c.t1 ++ LRU.keys c.t2)
      refine List.perm_middle.trans ?_
      exact (List.Perm.append_right _ (List.perm_cons_erase h1)).symm
  · have h2 : r ∈ LRU.keys c.t2 := by
      rcases List.mem_append.1 hmem with h | h
      · exact absurd h h1
      · exact h
    obtain ⟨v, hv⟩ := LRU.lookup_some_of_mem c.t2 r h2
    have hp1 : LRU.Peek c.t1 r = none := LRU.lookup_none_of_not_mem c.t1 r h1
    refine ⟨{ c with t2 := (r, v) :: LRU.Remove c.t2 r }, v, ?_, ?_⟩
    · unfold Get
      simp only [hp1, LRU.Get, hv]
    · refine NoEviction_of_perm h rfl rfl rfl ?_
      show (LRU.keys c.t1 ++ LRU.keys ((r, v) :: LRU.Remove c.t2 r)).Perm _
      show (LRU.keys c.t1 ++ r :: LRU.keys (LRU.Remove c.t2 r)).Perm _
      rw [LRU.keys_Remove]
      exact List.Perm.append_left _ (List.perm_cons_erase h2).symm

/-- Adding a new key to a cache that has never evicted and still has room
evicts nothing. -/
theorem Add_NoEviction {n : Nat} {c : ARCCache} {seen : List Nat}
    (h : NoEviction n c seen) (r : Nat) (v : Result) (hr : r ∉ seen)
    (hroom : c.cached.length < n) : NoEviction n (c.Add r v) (r :: seen) := by
  obtain ⟨hsz, hb1, hb2, hnd, hmem, _⟩ := h
  have hrc : r ∉ c.cached := fun hx => hr ((hmem r).1 hx)
  have hr1 : r ∉ LRU.keys c.t1 := fun hx => hrc (List.mem_append_left _ hx)
  have hr2 : r ∉ LRU.keys c.t2 := fun hx => hrc (List.mem_append_right _ hx)
  have hl1 : (LRU.keys c.t1).length = c.t1.length := by simp [LRU.keys]
  have hl2 : (LRU.keys c.t2).length = c.t2.length := by simp [LRU.keys]
  have hlen : c.t1.length + c.t2.length < c.size := by
    rw [hsz, ← hl1, ← hl2, ← List.length_append]; exact hroom
  have hroomy : c.makeRoom false = c := by
    unfold makeRoom
    rw [if_neg]
    simp only [LRU.Len]
    omega
  have htrim : c.trimGhosts = c := by
    unfold trimGhosts
    simp [hb1, hb2, LRU.Len]
  have hadd : LRU.Add c.size c.t1 r v = (r, v) :: c.t1 :=
    LRU.Add_new c.size c.t1 r v hr1 (by omega)
  have hAdd : c.Add r v = { c with t1 := (r, v) :: c.t1 } := by
    unfold Add
    have c1 : LRU.Contains c.t1 r = false := (LRU.Contains_false_iff _ _).2 hr1
    have c2 : LRU.Contains c.t2 r = false := (LRU.Contains_false_iff _ _).2 hr2
    have c3 : LRU.Contains c.b1 r = false := by rw [hb1]; rfl
    have c4 : LRU.Contains c.b2 r = false := by rw [hb2]; rfl
    simp only [c1, c2, c3, c4, Bool.false_eq_true, if_false, hroomy, htrim, hadd]
  rw [hAdd]
  have hK : ({ c with t1 := (r, v) :: c.t1 } : ARCCache).cached = r :: c.cached := rfl
  refine ⟨hsz, hb1, hb2, ?_, ?_, ?_⟩
  · rw [hK]; exact List.nodup_cons.2 ⟨hrc, hnd⟩
  · intro k
    rw [hK, List.mem_cons, List.mem_cons, hmem k]
  · rw [hK, List.length_cons]; omega

end ARCCache


/-- Against an upstream that always succeeds, a run of `Get` calls over rounds
drawn from at most `n` distinct ones, on a cache of size `n` that has never
evicted, calls the upstream for the not yet seen rounds only, once each. -/
theorem Gets_calls_unseen {U : Type} (up : Client U)
    (hup : ∀ u r, ∃ v u1, up.Get u r = ((some v, none), u1))
    (n : Nat) (D : List Nat) (hDn : D.length ≤ n) :
    ∀ (rest : List Nat) (c : cachingClient U) (seen : List Nat),
      ARCCache.NoEviction n c.cache seen → (∀ r ∈ seen, r ∈ D) → (∀ r ∈ rest, r ∈ D) →
      (cachingClient.Gets up c rest).2.Nodup ∧
      ∀ r, r ∈ (cachingClient.Gets up c rest).2 ↔ (r ∈ rest ∧ r ∉ seen) := by
  intro rest
  induction rest with
  | nil =>
    intro c seen _ _ _
    simp [cachingClient.Gets]
  | cons a rest ih =>
    intro c seen hinv hseen hrest
    have haD : a ∈ D := hrest a (List.mem_cons_self _ _)
    have hrest1 : ∀ r ∈ rest, r ∈ D := fun r hr => hrest r (List.mem_cons_of_mem _ hr)
    by_cases ha : a ∈ seen
    · obtain ⟨c1, v, hget, hinv1⟩ := ARCCache.Get_hit_NoEviction hinv a ha
      have hstep : cachingClient.Get up c a =
          { res := some v, err := none, c := { c with cache := c1 }, calls := [] } := by
        unfold cachingClient.Get
        rw [hget]
      have := ih { c with cache := c1 } seen hinv1 hseen hrest1
      simp only [cachingClient.Gets, hstep, List.nil_append]
      refine ⟨this.1, fun r => ?_⟩
      rw [this.2 r, List.mem_cons]
      constructor
      · rintro ⟨h1, h2⟩; exact ⟨Or.inr h1, h2⟩
      · rintro ⟨h1 | h1, h2⟩
        · subst h1; exact absurd ha h2
        · exact ⟨h1, h2⟩
    · have hmiss : c.cache.Contains a = false := by
        rw [ARCCache.Contains_false_iff_not_cached]
        have hnc : a ∉ c.cache.cached := fun hx => ha ((hinv.2.2.2.2.1 a).1 hx)
        exact ⟨fun hx => hnc (List.mem_append_left _ hx),
          fun hx => hnc (List.mem_append_right _ hx)⟩
      have hget := ARCCache.Get_of_not_Contains c.cache a hmiss
      obtain ⟨v, u1, hu⟩ := hup c.Client a
      have hstep : cachingClient.Get up c a =
          { res := some v, err := none, c := { Client := u1, cache := c.cache.Add a v },
            calls := [a] } := by
        unfold cachingClient.Get
        rw [hget]
        simp only [hu]
      have hroom : c.cache.cached.length < n := by
        have hnc : a ∉ c.cache.cached := fun hx => ha ((hinv.2.2.2.2.1 a).1 hx)
        have hnd : (a :: c.cache.cached).Nodup := List.nodup_cons.2 ⟨hnc, hinv.2.2.2.1⟩
        have hsub : (a :: c.cache.cached) ⊆ D := by
          intro x hx
          rcases List.mem_cons.1 hx with h | h
          · subst h; exact haD
          · exact hseen x ((hinv.2.2.2.2.1 x).1 h)
        have := (hnd.subperm hsub).length_le
        simp only [List.length_cons] at this
        omega
      have hinv1 := ARCCache.Add_NoEviction hinv a v ha hroom
      have hseen1 : ∀ r ∈ a :: seen, r ∈ D := by
        intro r hr
        rcases List.mem_cons.1 hr with h | h
        · subst h; exact haD
        · exact hseen r h
      have := ih { Client := u1, cache := c.cache.Add a v } (a :: seen) hinv1 hseen1 hrest1
      simp only [cachingClient.Gets, hstep, List.singleton_append]
      refine ⟨List.nodup_cons.2 ⟨?_, this.1⟩, fun r => ?_⟩
      · intro hx
        exact ((this.2 a).1 hx).2 (List.mem_cons_self _ _)
      · rw [List.mem_cons, this.2 r, List.mem_cons, List.mem_cons]
        constructor
        · rintro (h | ⟨h1, h2⟩)
          · subst h; exact ⟨Or.inl rfl, ha⟩
          · exact ⟨Or.inr h1, fun hx => h2 (Or.inr hx)⟩
        · rintro ⟨h1 | h1, h2⟩
          · exact Or.inl h1
          · by_cases hra : r = a
            · exact Or.inl hra
            · refine Or.inr ⟨h1, fun hx => ?_⟩
              rcases hx with hx | hx
              · exact hra hx
              · exact h2 hx

theorem NoEviction_empty (n : Nat) : ARCCache.NoEviction n (ARCCache.empty n) [] := by
  refine ⟨rfl, rfl, rfl, ?_, ?_, ?_⟩
  · simp [ARCCache.cached, ARCCache.empty, LRU.keys]
  · intro k; simp [ARCCache.cached, ARCCache.empty, LRU.keys]
  · simp [ARCCache.cached, ARCCache.empty, LRU.keys]

/-- C8: from the empty cache that `NewCachingClient` builds with capacity `size`,
a sequence of `cachingClient.Get` calls that requests at most `size` distinct
rounds, against a wrapped client that always succeeds with a non-nil Result,
calls the wrapped client's `Get` exactly once for each distinct round requested
and never for another round; with capacity 3 and rounds 1, 1, 2, 3, 1 the
calls are for 1, 2, 3: three of them. -/
theorem cachingClient_Gets_once_per_round {U : Type} (up : Client U) (u0 : U) (size : Int)
    (c0 : cachingClient U) (rounds : List Nat)
    (hnew : NewCachingClient u0 size = .ok c0)
    (hd : (rounds.dedup.length : Int) ≤ size)
    (hup : ∀ u r, ∃ v u1, up.Get u r = ((some v, none), u1)) :
    (∀ r, (cachingClient.Gets up c0 rounds).2.count r = if r ∈ rounds then 1 else 0) ∧
    (cachingClient.Gets up c0 rounds).2.length = rounds.dedup.length ∧
    (cachingClient.Gets countingClient { Client := 0, cache := ARCCache.empty 3 }
        [1, 1, 2, 3, 1]).2 = [1, 2, 3] ∧
    (cachingClient.Gets countingClient { Client := 0, cache := ARCCache.empty 3 }
        [1, 1, 2, 3, 1]).1.Client = 3 := by
  have hc0 : 0 < size ∧ c0 = { Client := u0, cache := ARCCache.empty size.toNat } := by
    unfold NewCachingClient ARCCache.NewARC at hnew
    by_cases hs : size ≤ 0
    · simp [hs] at hnew
    · simp only [hs, if_false] at hnew
      refine ⟨by omega, ?_⟩
      injection hnew with h
      exact h.symm
  have hDn : rounds.dedup.length ≤ size.toNat := by
    have := hc0.1
    omega
  have key := Gets_calls_unseen up hup size.toNat rounds.dedup hDn rounds c0 []
    (by rw [hc0.2]; exact NoEviction_empty _) (by simp)
    (fun r hr => List.mem_dedup.2 hr)
  refine ⟨fun r => ?_, ?_, by decide, by decide⟩
  · by_cases hr : r ∈ rounds
    · rw [if_pos hr]
      exact List.count_eq_one_of_mem key.1 ((key.2 r).2 ⟨hr, by simp⟩)
    · rw [if_neg hr]
      exact List.count_eq_zero_of_not_mem fun hx => hr ((key.2 r).1 hx).1
  · apply List.Perm.length_eq
    rw [List.perm_ext_iff_of_nodup key.1 (List.nodup_dedup _)]
    intro r
    rw [key.2 r, List.mem_dedup]
    simp

/-- C8 at a concrete input: capacity 3 and the rounds 1, 1, 2, 3, 1 of
`TestCacheGet`. -/
theorem cachingClient_Gets_once_per_round_witness :
    (cachingClient.Gets countingClient { Client := 0, cache := ARCCache.empty 3 }
        [1, 1, 2, 3, 1]).2.length = ([1, 1, 2, 3, 1] : List Nat).dedup.length :=
  (cachingClient_Gets_once_per_round countingClient 0 3
    { Client := 0, cache := ARCCache.empty 3 } [1, 1, 2, 3, 1] rfl (by decide)
    (fun u r => ⟨_, _, rfl⟩)).2.1


/-- C3 at a concrete input: round 1 cached, as after the first `Get` of
`TestCacheGet`. -/
theorem cachingClient_Get_hit_witness :
    (cachingClient.Get countingClient
        { Client := 1, cache := { ARCCache.empty 3 with t1 := [(1, ⟨1, [1]⟩)] } } 1).res
      = some ⟨1, [1]⟩ ∧
    (cachingClient.Get countingClient
        { Client := 1, cache := { ARCCache.empty 3 with t1 := [(1, ⟨1, [1]⟩)] } } 1).calls
      = [] :=
  ⟨(cachingClient_Get_hit countingClient
      { Client := 1, cache := { ARCCache.empty 3 with t1 := [(1, ⟨1, [1]⟩)] } } 1 ⟨1, [1]⟩
      (by decide)).1,
   (cachingClient_Get_hit countingClient
      { Client := 1, cache := { ARCCache.empty 3 with t1 := [(1, ⟨1, [1]⟩)] } } 1 ⟨1, [1]⟩
      (by decide)).2.2.1⟩

/-- C4: when round `r` is not in the cache and the wrapped client's `Get(r)`
returns an error `e`, `cachingClient.Get(r)` returns that same error (and the
value the wrapped client returned with it), the cache is exactly as before, and
a following `cachingClient.Get(r)` calls the wrapped client again. -/
theorem cachingClient_Get_upstream_error {U : Type} (up : Client U) (c : cachingClient U)
    (r : Nat) (val : Option Result) (e : GoError) (u : U)
    (hmiss : c.cache.Contains r = false)
    (hup : up.Get c.Client r = ((val, some e), u)) :
    (cachingClient.Get up c r).err = some e ∧
    (cachingClient.Get up c r).res = val ∧
    (cachingClient.Get up c r).calls = [r] ∧
    (cachingClient.Get up c r).c.cache = c.cache ∧
    (cachingClient.Get up c r).c.Client = u ∧
    (cachingClient.Get up (cachingClient.Get up c r).c r).calls = [r] := by
  have hget := ARCCache.Get_of_not_Contains c.cache r hmiss
  have hstep : cachingClient.Get up c r =
      { res := val, err := some e, c := { Client := u, cache := c.cache }, calls := [r] } := by
    unfold cachingClient.Get
    rw [hget]
    simp only [hup]
  rw [hstep]
  refine ⟨rfl, rfl, rfl, rfl, rfl, ?_⟩
  unfold cachingClient.Get
  simp only [hget]

/-- C4 at a concrete input: round 7 fails upstream, the cache holds round 1. -/
theorem cachingClient_Get_upstream_error_witness :
    (cachingClient.Get sampleClient
        { Client := 1, cache := { ARCCache.empty 3 with t1 := [(1, ⟨1, [1]⟩)] } } 7).err
      = some ⟨1⟩ ∧
    (cachingClient.Get sampleClient
        { Client := 1, cache := { ARCCache.empty 3 with t1 := [(1, ⟨1, [1]⟩)] } } 7).c.cache
      = { ARCCache.empty 3 with t1 := [(1, ⟨1, [1]⟩)] } :=
  ⟨(cachingClient_Get_upstream_error sampleClient
      { Client := 1, cache := { ARCCache.empty 3 with t1 := [(1, ⟨1, [1]⟩)] } } 7 none ⟨1⟩ 2
      (by decide) (by rfl)).1,
   (cachingClient_Get_upstream_error sampleClient
      { Client := 1, cache := { ARCCache.empty 3 with t1 := [(1, ⟨1, [1]⟩)] } } 7 none ⟨1⟩ 2
      (by decide) (by rfl)).2.2.2.1⟩

/-- C7: when round `r` is not in the cache (of size at least 1) and the wrapped
client's `Get(r)` returns `(v, nil)` with `v` non-nil, `cachingClient.Get(r)`
returns `v` and afterwards the cache maps the requested round `r` to `v`,
whatever round `v` itself reports; an immediately following
`cachingClient.Get(r)` returns `v` without calling the wrapped client; and no
entry appears under any other key, in particular none under `v.Round`. -/
theorem cachingClient_Get_caches_under_requested_round {U : Type} (up : Client U)
    (c : cachingClient U) (r : Nat) (v : Result) (u : U)
    (hsize : 1 ≤ c.cache.size)
    (hmiss : c.cache.Contains r = false)
    (hup : up.Get c.Client r = ((some v, none), u)) :
    (cachingClient.Get up c r).res = some v ∧
    (cachingClient.Get up c r).err = none ∧
    (cachingClient.Get up c r).calls = [r] ∧
    (cachingClient.Get up c r).c.cache.Peek r = some v ∧
    (cachingClient.Get up (cachingClient.Get up c r).c r).res = some v ∧
    (cachingClient.Get up (cachingClient.Get up c r).c r).err = none ∧
    (cachingClient.Get up (cachingClient.Get up c r).c r).calls = [] ∧
    (cachingClient.Get up (cachingClient.Get up c r).c r).c.Client = u ∧
    (∀ k, k ≠ r → c.cache.Contains k = false →
      (cachingClient.Get up c r).c.cache.Contains k = false) ∧
    (v.Round ≠ r → c.cache.Contains v.Round = false →
      (cachingClient.Get up c r).c.cache.Contains v.Round = false) := by
  have hget := ARCCache.Get_of_not_Contains c.cache r hmiss
  have hstep : cachingClient.Get up c r =
      { res := some v, err := none, c := { Client := u, cache := c.cache.Add r v },
        calls := [r] } := by
    unfold cachingClient.Get
    rw [hget]
    simp only [hup]
  have hpeek : (c.cache.Add r v).Peek r = some v := ARCCache.Peek_Add c.cache r v hsize hmiss
  have hhit :
      (cachingClient.Get up { Client := u, cache := c.cache.Add r v } r).res = some v ∧
      (cachingClient.Get up { Client := u, cache := c.cache.Add r v } r).err = none ∧
      (cachingClient.Get up { Client := u, cache := c.cache.Add r v } r).calls = [] ∧
      (cachingClient.Get up { Client := u, cache := c.cache.Add r v } r).c.Client = u := by
    rw [cachingClient_Get_of_Peek up { Client := u, cache := c.cache.Add r v } r v hpeek]
    exact ⟨rfl, rfl, rfl, rfl⟩
  rw [hstep]
  exact ⟨rfl, rfl, rfl, hpeek, hhit.1, hhit.2.1, hhit.2.2.1, hhit.2.2.2,
    fun k hk hc => ARCCache.Contains_Add_of_ne c.cache r k v hk hc,
    fun hk hc => ARCCache.Contains_Add_of_ne c.cache r v.Round v hk hc⟩

/-- C7 at a concrete input: round 0 is resolved upstream to the latest round
42 and is cached under key 0, not under 42. -/
theorem cachingClient_Get_caches_under_requested_round_witness :
    (cachingClient.Get sampleClient { Client := 0, cache := ARCCache.empty 2 } 0).c.cache.Peek 0
      = some ⟨42, [4, 2]⟩ ∧
    (cachingClient.Get sampleClient { Client := 0, cache := ARCCache.empty 2 } 0).c.cache.Contains
      42 = false :=
  ⟨(cachingClient_Get_caches_under_requested_round sampleClient
      { Client := 0, cache := ARCCache.empty 2 } 0 ⟨42, [4, 2]⟩ 1
      (by decide) (by decide) (by rfl)).2.2.2.1,
   (cachingClient_Get_caches_under_requested_round sampleClient
      { Client := 0, cache := ARCCache.empty 2 } 0 ⟨42, [4, 2]⟩ 1
      (by decide) (by decide) (by rfl)).2.2.2.2.2.2.2.2.2 (by decide) (by decide)⟩

end client
end Drand

namespace Drand

namespace gossip

theorem trySend_some (ch : Chan) (rand : PublicRandResponse) (hopen : ch.closed = false) :
    ch.trySend rand =
      if 0 < ch.recvq ∧ ch.buf = [] then
        some ({ ch with recvq := ch.recvq - 1, got := ch.got ++ [rand] }, some rand)
      else if ch.buf.length < ch.cap then some ({ ch with buf := ch.buf ++ [rand] }, some rand)
      else some (ch, none) := by
  unfold Chan.trySend
  simp [hopen]

theorem trySend_unique (ch x y : Chan) (rand : PublicRandResponse)
    (o1 o2 : Option PublicRandResponse)
    (h1 : ch.trySend rand = some (x, o1)) (h2 : ch.trySend rand = some (y, o2)) : x = y := by
  rw [h1] at h2
  simp only [Option.some.injEq, Prod.mk.injEq] at h2
  exact h2.1

/-- A send that does not panic finds the channel open and leaves it open; the
value that goes through, if any, is the value sent, and it is added at the end
of what the channel has carried. -/
theorem trySend_effect (ch x : Chan) (rand : PublicRandResponse)
    (o : Option PublicRandResponse) (h : ch.trySend rand = some (x, o)) :
    ch.closed = false ∧ x.closed = false ∧ (o = none ∨ o = some rand) ∧
    x.stream = ch.stream ++ o.toList := by
  unfold Chan.trySend at h
  by_cases hc : ch.closed = true
  · simp [hc] at h
  · have hc1 : ch.closed = false := by simpa using hc
    rw [if_neg hc] at h
    by_cases hp : 0 < ch.recvq ∧ ch.buf = []
    · rw [if_pos hp] at h
      simp only [Option.some.injEq, Prod.mk.injEq] at h
      obtain ⟨hx, ho⟩ := h
      subst hx
      subst ho
      refine ⟨hc1, hc1, Or.inr rfl, ?_⟩
      simp [Chan.stream, hp.2]
    · rw [if_neg hp] at h
      by_cases hr : ch.buf.length < ch.cap
      · rw [if_pos hr] at h
        simp only [Option.some.injEq, Prod.mk.injEq] at h
        obtain ⟨hx, ho⟩ := h
        subst hx
        subst ho
        refine ⟨hc1, hc1, Or.inr rfl, ?_⟩
        simp [Chan.stream]
      · rw [if_neg hr] at h
        simp only [Option.some.injEq, Prod.mk.injEq] at h
        obtain ⟨hx, ho⟩ := h
        subst hx
        subst ho
        exact ⟨hc1, hc1, Or.inl rfl, by simp [Chan.stream]⟩

theorem fanOut_cons (rand : PublicRandResponse) (id a : Nat) (rest : List (Nat × Nat))
    (chans : Nat → Chan) (ch : Chan) (o : Option PublicRandResponse)
    (hs : (chans a).trySend rand = some (ch, o)) :
    fanOut rand ((id, a) :: rest) chans =
      { fanOut rand rest (Function.update chans a ch) with
        sent := (o.toList.map fun v => (id, a, v)) ++
          (fanOut rand rest (Function.update chans a ch)).sent } := by
  simp only [fanOut, hs]

/-- The sends the loop reports go to subscriptions of the map, each at most
once and in the order of the map, and carry the announcement itself; this also
when the loop ends in a panic. -/
theorem fanOut_sent_spec (rand : PublicRandResponse) :
    ∀ (M : List (Nat × Nat)) (chans : Nat → Chan),
      ((fanOut rand M chans).sent.map fun p => p.1).Sublist (M.map Prod.fst) ∧
      ∀ p ∈ (fanOut rand M chans).sent, p.2.2 = rand ∧ (p.1, p.2.1) ∈ M := by
  intro M
  induction M with
  | nil =>
    intro chans
    exact ⟨List.Sublist.refl _, fun p hp => absurd hp (List.not_mem_nil _)⟩
  | cons e rest ih =>
    intro chans
    obtain ⟨id, a⟩ := e
    cases hs : (chans a).trySend rand with
    | none =>
      simp only [fanOut, hs]
      exact ⟨List.nil_sublist _, fun p hp => absurd hp (List.not_mem_nil _)⟩
    | some q =>
      obtain ⟨ch, o⟩ := q
      rw [fanOut_cons rand id a rest chans ch o hs]
      obtain ⟨hsub, hval⟩ := ih (Function.update chans a ch)
      obtain ⟨_, _, ho, _⟩ := trySend_effect _ _ _ _ hs
      rcases ho with ho | ho
      · subst ho
        refine ⟨by simpa using hsub.cons id, ?_⟩
        intro p hp
        simp only [Option.toList, List.map_nil, List.nil_append] at hp
        exact ⟨(hval p hp).1, List.mem_cons_of_mem _ (hval p hp).2⟩
      · subst ho
        refine ⟨by simpa using hsub.cons₂ id, ?_⟩
        intro p hp
        simp only [Option.toList, List.map_cons, List.map_nil, List.singleton_append,
          List.mem_cons] at hp
        rcases hp with hp | hp
        · subst hp
          exact ⟨rfl, List.mem_cons_self _ _⟩
        · exact ⟨(hval p hp).1, List.mem_cons_of_mem _ (hval p hp).2⟩

/-- What a channel has carried after the loop is what it had carried before,
followed by the values the loop reports as sent into it; this also when the
loop ends in a panic. -/
theorem fanOut_stream (rand : PublicRandResponse) (b : Nat) :
    ∀ (M : List (Nat × Nat)) (chans : Nat → Chan),
      ((fanOut rand M chans).chans b).stream =
        (chans b).stream ++ sentInto (fanOut rand M chans).sent b := by
  intro M
  induction M with
  | nil => intro chans; simp [fanOut, sentInto]
  | cons e rest ih =>
    intro chans
    obtain ⟨id, a⟩ := e
    cases hs : (chans a).trySend rand with
    | none => simp [fanOut, hs, sentInto]
    | some q =>
      obtain ⟨ch, o⟩ := q
      rw [fanOut_cons rand id a rest chans ch o hs]
      have h := ih (Function.update chans a ch)
      obtain ⟨_, _, _, hst⟩ := trySend_effect _ _ _ _ hs
      show ((fanOut rand rest (Function.update chans a ch)).chans b).stream = _
      rw [h]
      by_cases hab : b = a
      · subst hab
        rw [Function.update_same, hst]
        cases o <;> simp [sentInto]
      · rw [Function.update_noteq hab]
        have hba : (a == b) = false := by
          simp only [beq_eq_false_iff_ne, ne_eq]
          exact fun h => hab h.symm
        cases o <;> simp [sentInto, List.filter_cons, hba]

/-- The loop does not panic when every subscribed channel is open. -/
theorem fanOut_completes_of_open (rand : PublicRandResponse) :
    ∀ (M : List (Nat × Nat)) (chans : Nat → Chan),
      (∀ e ∈ M, (chans e.2).closed = false) → (fanOut rand M chans).panicked = false := by
  intro M
  induction M with
  | nil => intro chans _; rfl
  | cons e rest ih =>
    intro chans hopen
    obtain ⟨id, a⟩ := e
    have ha : (chans a).closed = false := hopen (id, a) (List.mem_cons_self _ _)
    cases hs : (chans a).trySend rand with
    | none =>
      unfold Chan.trySend at hs
      rw [if_neg (by simp [ha])] at hs
      split_ifs at hs
    | some q =>
      obtain ⟨ch, o⟩ := q
      obtain ⟨_, hcl, _, _⟩ := trySend_effect _ _ _ _ hs
      have hopen1 : ∀ e ∈ rest, ((Function.update chans a ch) e.2).closed = false := by
        intro e he
        by_cases hea : e.2 = a
        · rw [hea, Function.update_same]; exact hcl
        · rw [Function.update_noteq hea]; exact hopen e (List.mem_cons_of_mem _ he)
      rw [fanOut_cons rand id a rest chans ch o hs]
      exact ih (Function.update chans a ch) hopen1

/-- When no two subscriptions share a channel and the loop does not panic, each
subscribed channel ends as the `select` on that channel alone leaves it, the
loop reports a send to a subscription exactly when that `select` sent, and
every other channel is untouched. -/
theorem fanOut_chans_of_nodup (rand : PublicRandResponse) :
    ∀ (M : List (Nat × Nat)) (chans : Nat → Chan),
      (M.map Prod.snd).Nodup → (fanOut rand M chans).panicked = false →
      (∀ e ∈ M, ∃ o, (chans e.2).trySend rand = some ((fanOut rand M chans).chans e.2, o) ∧
          ∀ v, (e.1, e.2, v) ∈ (fanOut rand M chans).sent ↔ o = some v) ∧
      (∀ a, a ∉ M.map Prod.snd → (fanOut rand M chans).chans a = chans a) := by
  intro M
  induction M with
  | nil =>
    intro chans _ _
    exact ⟨fun e he => absurd he (List.not_mem_nil _), fun a _ => rfl⟩
  | cons e rest ih =>
    intro chans hnd hp
    obtain ⟨id, a⟩ := e
    simp only [List.map_cons, List.nodup_cons] at hnd
    cases hs : (chans a).trySend rand with
    | none => simp [fanOut, hs] at hp
    | some q =>
      obtain ⟨ch, o⟩ := q
      rw [fanOut_cons rand id a rest chans ch o hs] at hp ⊢
      obtain ⟨hrest, hother⟩ := ih (Function.update chans a ch) hnd.2 hp
      have hspec := (fanOut_sent_spec rand rest (Function.update chans a ch)).2
      refine ⟨?_, ?_⟩
      · intro e he
        rcases List.mem_cons.1 he with he | he
        · subst he
          refine ⟨o, ?_, ?_⟩
          · show (chans a).trySend rand =
              some ((fanOut rand rest (Function.update chans a ch)).chans a, o)
            rw [hother a hnd.1, Function.update_same]; exact hs
          · intro v
            show (id, a, v) ∈ (o.toList.map fun v => (id, a, v)) ++ _ ↔ _
            rw [List.mem_append]
            constructor
            · intro h
              rcases h with h | h
              · cases o with
                | none => simp at h
                | some w =>
                  simp only [Option.toList, List.map_cons, List.map_nil, List.mem_singleton,
                    Prod.mk.injEq, true_and] at h
                  rw [h]
              · exact absurd (List.mem_map_of_mem Prod.snd (hspec _ h).2) hnd.1
            · intro h
              subst h
              exact Or.inl (by simp)
        · obtain ⟨o1, h1, h2⟩ := hrest e he
          have hne : e.2 ≠ a := by
            intro heq
            apply hnd.1
            rw [← heq]
            exact List.mem_map_of_mem _ he
          rw [Function.update_noteq hne] at h1
          refine ⟨o1, h1, fun v => ?_⟩
          rw [← h2 v]
          show (e.1, e.2, v) ∈ (o.toList.map fun v => (id, a, v)) ++ _ ↔ _
          rw [List.mem_append]
          constructor
          · intro h
            rcases h with h | h
            · simp only [List.mem_map, Prod.mk.injEq] at h
              obtain ⟨_, _, _, h3, _⟩ := h
              exact absurd h3.symm hne
            · exact h
          · exact fun h => Or.inr h
      · intro b hb
        simp only [List.map_cons, List.mem_cons, not_or] at hb
        show (fanOut rand rest (Function.update chans a ch)).chans b = chans b
        rw [hother b hb.2, Function.update_noteq hb.1]

/-- An announcement that is not newer than the counter is dropped: nothing
changes and nothing is enqueued. -/
theorem onRand_discard (c : Client) (rand : PublicRandResponse) (h : rand.Round ≤ c.latest) :
    c.onRand rand = { c := c, out := [], panicked := false } := by
  unfold Client.onRand
  rw [if_pos h]

/-- What an accepted announcement does. -/
theorem onRand_accept (c : Client) (rand : PublicRandResponse) (hacc : c.latest < rand.Round) :
    c.onRand rand =
      { c := { c with latest := rand.Round, chans := (fanOut rand c.M c.chans).chans }
        out := (fanOut rand c.M c.chans).sent
        panicked := (fanOut rand c.M c.chans).panicked } := by
  unfold Client.onRand
  rw [if_neg (by omega)]

/-- C9 (as stated, refuted).  First: two `Sub` calls hand the relay the same
queue 5 (capacity 2, empty) and the first `UnsubFunc` is called; the second
subscription is still registered, its queue has free capacity, but it is closed:
the accepted announcement of round 1 is not appended, the fan-out panics.
Second: a subscriber's queue is unbuffered (capacity 0, so always full) and its
consumer is parked in a receive; the accepted announcement of round 1 is not
dropped, it is handed to the consumer.  Third: two subscriptions share the open
queue 5 of capacity 1, empty when round 1 is accepted; the announcement is
appended for the first subscription only, and the second, whose queue had free
capacity, gets nothing. -/
theorem onRand_panics_or_hands_over :
    (((NewWithPubsub sampleChans).exec [Event.sub 5, Event.sub 5, Event.unsub 0 5]).map
        fun c => (c.M, (c.chans 5).buf, (c.chans 5).cap, (c.chans 5).closed, c.latest))
      = some ([(1, 5)], [], 2, true, 0) ∧
    (((NewWithPubsub sampleChans).exec [Event.sub 5, Event.sub 5, Event.unsub 0 5]).map
        fun c => ((c.onRand (sampleRand 1)).panicked, (c.onRand (sampleRand 1)).out,
          ((c.onRand (sampleRand 1)).c.chans 5).buf))
      = some (true, [], []) ∧
    (((NewWithPubsub unbufferedChans).exec [Event.sub 5, Event.recv 5]).map
        fun c => (c.M, (c.chans 5).buf, (c.chans 5).cap, (c.chans 5).closed, c.latest))
      = some ([(0, 5)], [], 0, false, 0) ∧
    (((NewWithPubsub unbufferedChans).exec [Event.sub 5, Event.recv 5]).map
        fun c => ((c.onRand (sampleRand 1)).panicked, (c.onRand (sampleRand 1)).out,
          ((c.onRand (sampleRand 1)).c.chans 5).got))
      = some (false, [(0, 5, sampleRand 1)], [sampleRand 1]) ∧
    (((NewWithPubsub oneSlotChans).exec [Event.sub 5, Event.sub 5]).map
        fun c => (c.M, (c.chans 5).buf, (c.chans 5).cap, (c.chans 5).closed, c.latest))
      = some ([(0, 5), (1, 5)], [], 1, false, 0) ∧
    (((NewWithPubsub oneSlotChans).exec [Event.sub 5, Event.sub 5]).map
        fun c => ((c.onRand (sampleRand 1)).panicked, (c.onRand (sampleRand 1)).out,
          ((c.onRand (sampleRand 1)).c.chans 5).buf))
      = some (false, [(0, 5, sampleRand 1)], [sampleRand 1]) :=
  ⟨rfl, rfl, rfl, rfl, rfl, rfl⟩

/-- C9 (amended): when the relay accepts an announcement (its round is above the
counter), every registered channel being open and no two subscriptions sharing
a channel, the fan-out completes (it neither waits nor panics), the counter
becomes the round, the map is unchanged, and for every subscriber: if a
consumer is parked in a receive on its queue, the announcement is handed to that
consumer; otherwise a queue with room gets the announcement appended at its
end, and a full queue is left as it is, the announcement being dropped.  What
happens to one subscriber's queue is decided by that queue alone: it is the same
in any other client with the same subscriptions, whatever the state (full or
not) of the other queues there. -/
theorem onRand_fans_out_independently (c : Client) (rand : PublicRandResponse)
    (hacc : c.latest < rand.Round)
    (hopen : ∀ e ∈ c.M, (c.chans e.2).closed = false)
    (hown : (c.M.map Prod.snd).Nodup) :
    (c.onRand rand).panicked = false ∧
    (c.onRand rand).c.latest = rand.Round ∧
    (c.onRand rand).c.M = c.M ∧
    (∀ e ∈ c.M,
      ((0 < (c.chans e.2).recvq ∧ (c.chans e.2).buf = []) →
        (c.onRand rand).c.chans e.2 =
          { c.chans e.2 with recvq := (c.chans e.2).recvq - 1
                             got := (c.chans e.2).got ++ [rand] } ∧
        (e.1, e.2, rand) ∈ (c.onRand rand).out) ∧
      (¬ (0 < (c.chans e.2).recvq ∧ (c.chans e.2).buf = []) →
        (c.chans e.2).buf.length < (c.chans e.2).cap →
        (c.onRand rand).c.chans e.2 = { c.chans e.2 with buf := (c.chans e.2).buf ++ [rand] } ∧
        (e.1, e.2, rand) ∈ (c.onRand rand).out) ∧
      (¬ (0 < (c.chans e.2).recvq ∧ (c.chans e.2).buf = []) →
        (c.chans e.2).cap ≤ (c.chans e.2).buf.length →
        (c.onRand rand).c.chans e.2 = c.chans e.2 ∧
        ∀ v, (e.1, e.2, v) ∉ (c.onRand rand).out)) ∧
    (∀ a, a ∉ c.M.map Prod.snd → (c.onRand rand).c.chans a = c.chans a) ∧
    (∀ c2 : Client, c2.M = c.M → c2.latest < rand.Round →
      (∀ e ∈ c2.M, (c2.chans e.2).closed = false) →
      (c2.onRand rand).panicked = false ∧
      ∀ e ∈ c.M, c2.chans e.2 = c.chans e.2 →
        (c2.onRand rand).c.chans e.2 = (c.onRand rand).c.chans e.2) := by
  have hdone := fanOut_completes_of_open rand c.M c.chans hopen
  obtain ⟨hsub, hother⟩ := fanOut_chans_of_nodup rand c.M c.chans hown hdone
  rw [onRand_accept c rand hacc]
  refine ⟨hdone, rfl, rfl, ?_, hother, ?_⟩
  · intro e he
    obtain ⟨o, hsend, hout⟩ := hsub e he
    rw [trySend_some _ rand (hopen e he)] at hsend
    refine ⟨?_, ?_, ?_⟩
    · intro hpark
      rw [if_pos hpark] at hsend
      simp only [Option.some.injEq, Prod.mk.injEq] at hsend
      exact ⟨hsend.1.symm, (hout rand).2 hsend.2.symm⟩
    · intro hpark hroom
      rw [if_neg hpark, if_pos hroom] at hsend
      simp only [Option.some.injEq, Prod.mk.injEq] at hsend
      exact ⟨hsend.1.symm, (hout rand).2 hsend.2.symm⟩
    · intro hpark hfull
      rw [if_neg hpark, if_neg (by omega)] at hsend
      simp only [Option.some.injEq, Prod.mk.injEq] at hsend
      refine ⟨hsend.1.symm, fun v hv => ?_⟩
      have := (hout v).1 hv
      rw [← hsend.2] at this
      exact absurd this (by simp)
  · intro c2 hM2 hacc2 hopen2
    have hdone2 := fanOut_completes_of_open rand c2.M c2.chans hopen2
    have hown2 : (c2.M.map Prod.snd).Nodup := by rw [hM2]; exact hown
    obtain ⟨hsub2, _⟩ := fanOut_chans_of_nodup rand c2.M c2.chans hown2 hdone2
    rw [onRand_accept c2 rand hacc2]
    refine ⟨hdone2, ?_⟩
    intro e he heq
    obtain ⟨o, hsend, _⟩ := hsub e he
    obtain ⟨o2, hsend2, _⟩ := hsub2 e (by rw [hM2]; exact he)
    rw [heq] at hsend2
    exact trySend_unique _ _ _ rand o2 o hsend2 hsend

/-- C9 (amended) at a concrete input: round 5 reaches a client whose first
subscriber's queue is full and whose second subscriber's queue has room. -/
theorem onRand_fans_out_independently_witness :
    (twoSubs.onRand (sampleRand 5)).panicked = false ∧
    (twoSubs.onRand (sampleRand 5)).c.latest = 5 ∧
    (twoSubs.onRand (sampleRand 5)).c.chans 10 = twoSubs.chans 10 ∧
    (twoSubs.onRand (sampleRand 5)).c.chans 11
      = { cap := 2, buf := [sampleRand 5], closed := false } :=
  have h := onRand_fans_out_independently twoSubs (sampleRand 5)
    (by decide) (by decide) (by decide)
  ⟨h.1, h.2.1, ((h.2.2.2.1 (0, 10) (by decide)).2.2 (by decide) (by decide)).1,
    ((h.2.2.2.1 (1, 11) (by decide)).2.1 (by decide) (by decide)).1⟩

/-- The loop closes no channel and opens none. -/
theorem fanOut_closed (rand : PublicRandResponse) (b : Nat) :
    ∀ (M : List (Nat × Nat)) (chans : Nat → Chan),
      ((fanOut rand M chans).chans b).closed = (chans b).closed := by
  intro M
  induction M with
  | nil => intro chans; rfl
  | cons e rest ih =>
    intro chans
    obtain ⟨id, a⟩ := e
    cases hs : (chans a).trySend rand with
    | none => simp only [fanOut, hs]
    | some q =>
      obtain ⟨ch, o⟩ := q
      rw [fanOut_cons rand id a rest chans ch o hs]
      show ((fanOut rand rest (Function.update chans a ch)).chans b).closed = _
      rw [ih (Function.update chans a ch)]
      obtain ⟨h1, h2, _, _⟩ := trySend_effect _ _ _ _ hs
      by_cases hab : b = a
      · subst hab
        rw [Function.update_same, h1, h2]
      · rw [Function.update_noteq hab]

theorem recv_closed (ch : Chan) : ch.recv.closed = ch.closed := by
  unfold Chan.recv
  cases hb : ch.buf with
  | nil =>
    simp only
    split_ifs <;> rfl
  | cons v rest => rfl

/-- An event that keeps to the intended use, in a state where every registered
queue is open and registered once, does not panic and leads to such a state. -/
theorem step_keeps_open_private (c : Client) (e : Event) (hd : e.disciplined c = true)
    (hopen : ∀ p ∈ c.M, (c.chans p.2).closed = false)
    (hown : (c.M.map Prod.snd).Nodup) :
    (c.step e).panicked = false ∧
    (∀ p ∈ (c.step e).c.M, ((c.step e).c.chans p.2).closed = false) ∧
    ((c.step e).c.M.map Prod.snd).Nodup := by
  cases e with
  | announce rand =>
    simp only [Client.step]
    by_cases hacc : c.latest < rand.Round
    · rw [onRand_accept c rand hacc]
      refine ⟨fanOut_completes_of_open rand c.M c.chans hopen, ?_, hown⟩
      intro p hp
      show ((fanOut rand c.M c.chans).chans p.2).closed = false
      rw [fanOut_closed]
      exact hopen p hp
    · rw [onRand_discard c rand (by omega)]
      exact ⟨rfl, hopen, hown⟩
  | sub ch =>
    simp only [Event.disciplined, Bool.and_eq_true, Bool.not_eq_true', decide_eq_true_eq] at hd
    refine ⟨rfl, ?_, ?_⟩
    · intro p hp
      simp only [Client.step, Client.Sub, List.mem_append, List.mem_filter,
        List.mem_singleton] at hp
      rcases hp with hp | hp
      · exact hopen p hp.1
      · rw [hp]; exact hd.1
    · simp only [Client.step, Client.Sub, List.map_append, List.map_cons, List.map_nil]
      rw [List.nodup_append]
      refine ⟨(List.Sublist.map _ (List.filter_sublist _)).nodup hown, List.nodup_singleton _, ?_⟩
      intro a ha hb
      simp only [List.mem_singleton] at hb
      subst hb
      apply hd.2
      exact (List.Sublist.map _ (List.filter_sublist _)).subset ha
  | unsub i ch =>
    simp only [Event.disciplined, decide_eq_true_eq] at hd
    have hch : (c.chans ch).closed = false := hopen (i, ch) hd
    have hcl : (c.chans ch).close = some { c.chans ch with closed := true, recvq := 0 } := by
      unfold Chan.close
      simp [hch]
    simp only [Client.step, UnsubFunc, hcl]
    refine ⟨trivial, ?_, (List.Sublist.map _ (List.filter_sublist _)).nodup hown⟩
    intro p hp
    simp only [List.mem_filter, bne_iff_ne, ne_eq] at hp
    have hne : p.2 ≠ ch := by
      intro heq
      have := List.inj_on_of_nodup_map hown hp.1 hd heq
      exact hp.2 (by rw [this])
    rw [Function.update_noteq hne]
    exact hopen p hp.1
  | recv ch =>
    refine ⟨rfl, ?_, hown⟩
    intro p hp
    simp only [Client.step]
    by_cases ha : p.2 = ch
    · rw [ha, Function.update_same, recv_closed]
      rw [← ha]
      exact hopen p hp
    · rw [Function.update_noteq ha]
      exact hopen p hp
  | reorder M =>
    simp only [Client.step]
    by_cases hp : M.Perm c.M
    · rw [if_pos hp]
      exact ⟨trivial, fun p hq => hopen p (hp.subset hq), ((hp.map Prod.snd).nodup_iff).2 hown⟩
    · rw [if_neg hp]
      exact ⟨trivial, hopen, hown⟩

/-- From the client `NewWithPubsub` returns, every sequence of events that
keeps to the intended use runs without panic and ends in a state where every
registered queue is open and registered once. -/
theorem exec_keeps_open_private :
    ∀ (evs : List Event) (c : Client), c.disciplined evs = true →
      (∀ p ∈ c.M, (c.chans p.2).closed = false) → (c.M.map Prod.snd).Nodup →
      ∃ c1, c.exec evs = some c1 ∧ (∀ p ∈ c1.M, (c1.chans p.2).closed = false) ∧
        (c1.M.map Prod.snd).Nodup := by
  intro evs
  induction evs with
  | nil => intro c _ hopen hown; exact ⟨c, rfl, hopen, hown⟩
  | cons e rest ih =>
    intro c hd hopen hown
    simp only [Client.disciplined, Bool.and_eq_true] at hd
    obtain ⟨hp, hopen1, hown1⟩ := step_keeps_open_private c e hd.1 hopen hown
    obtain ⟨c1, h1, h2, h3⟩ := ih (c.step e).c hd.2 hopen1 hown1
    refine ⟨c1, ?_, h2, h3⟩
    simp only [Client.exec, hp, Bool.false_eq_true, if_false]
    exact h1

/-- Sends that go to distinct subscriptions and all carry the value `rand` hold
for one subscription either nothing or `rand`, once. -/
theorem sentTo_of_nodup (rand : PublicRandResponse) (id : Nat) :
    ∀ out : List (Nat × Nat × PublicRandResponse),
      (out.map fun p => p.1).Nodup → (∀ p ∈ out, p.2.2 = rand) →
      sentTo out id = [] ∨ sentTo out id = [rand] := by
  intro out
  induction out with
  | nil => intro _ _; exact Or.inl rfl
  | cons p rest ih =>
    intro hnd hval
    simp only [List.map_cons, List.nodup_cons] at hnd
    have hv : p.2.2 = rand := hval p (List.mem_cons_self _ _)
    have hrest := ih hnd.2 (fun q hq => hval q (List.mem_cons_of_mem _ hq))
    by_cases hp : p.1 = id
    · have hnone : sentTo rest id = [] := by
        unfold sentTo
        rw [List.map_eq_nil_iff, List.filter_eq_nil_iff]
        intro q hq hqid
        apply hnd.1
        rw [hp]
        have : q.1 = id := by simpa using hqid
        rw [← this]
        exact List.mem_map_of_mem (fun p => p.1) hq
      right
      unfold sentTo at hnone ⊢
      rw [List.filter_cons_of_pos (by simpa using hp), List.map_cons, hnone, hv]
    · have : sentTo (p :: rest) id = sentTo rest id := by
        unfold sentTo
        rw [List.filter_cons_of_neg (by simpa using hp)]
      rw [this]
      exact hrest

/-- One event keeps the subscription identities distinct, moves the counter to
the larger of itself and the round announced, and enqueues to one subscription
either nothing or an accepted announcement, whose round is then the counter. -/
theorem step_spec (c : Client) (e : Event) (id : Nat) (hnd : (c.M.map Prod.fst).Nodup) :
    ((c.step e).c.M.map Prod.fst).Nodup ∧
    (c.step e).c.latest = max c.latest (maxAnnounced [e]) ∧
    (sentTo (c.step e).out id = [] ∨
      ∃ rand, e = Event.announce rand ∧ sentTo (c.step e).out id = [rand] ∧
        c.latest < rand.Round ∧ (c.step e).c.latest = rand.Round) := by
  cases e with
  | announce rand =>
    simp only [Client.step]
    by_cases hacc : c.latest < rand.Round
    · rw [onRand_accept c rand hacc]
      obtain ⟨hsub, hval⟩ := fanOut_sent_spec rand c.M c.chans
      refine ⟨hnd, ?_, ?_⟩
      · simp only [maxAnnounced, announced, List.foldr]
        omega
      · simp only
        rcases sentTo_of_nodup rand id _ (hsub.nodup hnd) (fun p hp => (hval p hp).1) with h | h
        · exact Or.inl h
        · exact Or.inr ⟨rand, rfl, h, hacc, rfl⟩
    · rw [onRand_discard c rand (by omega)]
      refine ⟨hnd, ?_, Or.inl rfl⟩
      simp only [maxAnnounced, announced, List.foldr]
      omega
  | sub ch =>
    refine ⟨?_, ?_, Or.inl rfl⟩
    · simp only [Client.step, Client.Sub, List.map_append, List.map_cons, List.map_nil]
      rw [List.nodup_append]
      refine ⟨(List.Sublist.map _ (List.filter_sublist _)).nodup hnd, List.nodup_singleton _, ?_⟩
      intro a ha hb
      simp only [List.mem_singleton] at hb
      subst hb
      simp only [List.mem_map, List.mem_filter] at ha
      obtain ⟨p, ⟨_, hp⟩, hp2⟩ := ha
      simp [hp2] at hp
    · simp [Client.step, Client.Sub, maxAnnounced, announced]
  | unsub i ch =>
    simp only [Client.step, UnsubFunc]
    cases hc : (c.chans ch).close with
    | none =>
      exact ⟨(List.Sublist.map _ (List.filter_sublist _)).nodup hnd,
        by simp [maxAnnounced, announced], Or.inl rfl⟩
    | some cl =>
      exact ⟨(List.Sublist.map _ (List.filter_sublist _)).nodup hnd,
        by simp [maxAnnounced, announced], Or.inl rfl⟩
  | recv ch =>
    exact ⟨hnd, by simp [Client.step, maxAnnounced, announced], Or.inl rfl⟩
  | reorder M =>
    simp only [Client.step]
    by_cases hp : M.Perm c.M
    · rw [if_pos hp]
      exact ⟨((hp.map Prod.fst).nodup_iff).2 hnd, by simp [maxAnnounced, announced], Or.inl rfl⟩
    · rw [if_neg hp]
      exact ⟨hnd, by simp [maxAnnounced, announced], Or.inl rfl⟩

theorem maxAnnounced_cons (e : Event) (rest : List Event) :
    maxAnnounced (e :: rest) = max (maxAnnounced [e]) (maxAnnounced rest) := by
  cases e <;> simp [maxAnnounced, announced]

theorem announced_eq_rounds (evs : List Event) :
    announced evs = (announcements evs).map fun v => v.Round := by
  induction evs with
  | nil => rfl
  | cons e rest ih => cases e <;> simp [announced, announcements, ih]

theorem sentTo_append (x y : List (Nat × Nat × PublicRandResponse)) (id : Nat) :
    sentTo (x ++ y) id = sentTo x id ++ sentTo y id := by
  simp [sentTo, List.filter_append]

theorem sentInto_append (x y : List (Nat × Nat × PublicRandResponse)) (a : Nat) :
    sentInto (x ++ y) a = sentInto x a ++ sentInto y a := by
  simp [sentInto, List.filter_append]

theorem enqueuedTo_cons (c : Client) (e : Event) (rest : List Event) (id : Nat) :
    c.enqueuedTo (e :: rest) id =
      sentTo (c.step e).out id ++
        if (c.step e).panicked then [] else (c.step e).c.enqueuedTo rest id := by
  simp only [Client.enqueuedTo, Client.enqueued, sentTo_append]
  split_ifs <;> rfl

/-- The values enqueued to one subscription have rounds above the counter at
the start and strictly increasing, and they are a subsequence of the
announcements. -/
theorem enqueuedTo_increasing (id : Nat) :
    ∀ (evs : List Event) (c : Client), (c.M.map Prod.fst).Nodup →
      (∀ v ∈ c.enqueuedTo evs id, c.latest < v.Round) ∧
      ((c.enqueuedTo evs id).map fun v => v.Round).Pairwise (fun a b => a < b) ∧
      (c.enqueuedTo evs id).Sublist (announcements evs) := by
  intro evs
  induction evs with
  | nil =>
    intro c _
    simp [Client.enqueuedTo, Client.enqueued, announcements, sentTo]
  | cons e rest ih =>
    intro c hnd
    rw [enqueuedTo_cons c e rest id]
    obtain ⟨hnd1, hl, hout⟩ := step_spec c e id hnd
    have hle : c.latest ≤ (c.step e).c.latest := by rw [hl]; exact le_max_left _ _
    have htail : ∃ tail : List PublicRandResponse,
        (if (c.step e).panicked then [] else (c.step e).c.enqueuedTo rest id) = tail ∧
        (∀ v ∈ tail, (c.step e).c.latest < v.Round) ∧
        (tail.map fun v => v.Round).Pairwise (fun a b => a < b) ∧
        tail.Sublist (announcements rest) := by
      by_cases hp : (c.step e).panicked = true
      · exact ⟨[], by rw [if_pos hp], fun r hr => absurd hr (List.not_mem_nil _),
          List.Pairwise.nil, List.nil_sublist _⟩
      · exact ⟨_, by rw [if_neg hp], ih (c.step e).c hnd1⟩
    obtain ⟨tail, htl, ih1, ih2, ih3⟩ := htail
    rw [htl]
    rcases hout with hout | ⟨rand, he, hout, hacc, hl1⟩
    · rw [hout, List.nil_append]
      refine ⟨fun r hr => lt_of_le_of_lt hle (ih1 r hr), ih2, ?_⟩
      cases e with
      | announce rand => exact ih3.cons _
      | sub ch => exact ih3
      | unsub i ch => exact ih3
      | recv ch => exact ih3
      | reorder M => exact ih3
    · rw [hout, he]
      simp only [List.singleton_append, announcements, List.map_cons]
      refine ⟨?_, ?_, ih3.cons₂ _⟩
      · intro r hr
        rcases List.mem_cons.1 hr with h | h
        · rw [h]; exact hacc
        · exact lt_of_le_of_lt hle (ih1 r h)
      · refine List.Pairwise.cons ?_ ih2
        intro r hr
        obtain ⟨v, hv, hvr⟩ := List.mem_map.1 hr
        have := ih1 v hv
        rw [hl1] at this
        rw [← hvr]
        exact this

/-- After a sequence of events the counter is the largest round announced, or
what it was if that is larger. -/
theorem exec_latest :
    ∀ (evs : List Event) (c c1 : Client), (c.M.map Prod.fst).Nodup → c.exec evs = some c1 →
      c1.latest = max c.latest (maxAnnounced evs) := by
  intro evs
  induction evs with
  | nil =>
    intro c c1 _ h
    simp only [Client.exec, Option.some.injEq] at h
    subst h
    simp [maxAnnounced, announced]
  | cons e rest ih =>
    intro c c1 hnd h
    simp only [Client.exec] at h
    by_cases hp : (c.step e).panicked = true
    · simp [hp] at h
    · rw [if_neg hp] at h
      obtain ⟨hnd2, hl, _⟩ := step_spec c e 0 hnd
      rw [ih (c.step e).c c1 hnd2 h, hl, maxAnnounced_cons e rest, max_assoc]

theorem recv_stream (ch : Chan) : ch.recv.stream = ch.stream := by
  unfold Chan.recv Chan.stream
  cases hb : ch.buf with
  | nil =>
    simp only
    split_ifs <;> simp [hb]
  | cons v rest => simp [hb]

/-- One event adds to what a channel has carried exactly the values the step
reports as sent into it, and a reported send goes to a subscription of the
map, through the channel registered for it; this also when the step ends in a
panic. -/
theorem step_stream (c : Client) (e : Event) :
    (∀ a, ((c.step e).c.chans a).stream = (c.chans a).stream ++ sentInto (c.step e).out a) ∧
    (∀ p ∈ (c.step e).out, (p.1, p.2.1) ∈ c.M) := by
  cases e with
  | announce rand =>
    simp only [Client.step]
    by_cases hacc : c.latest < rand.Round
    · rw [onRand_accept c rand hacc]
      exact ⟨fun a => fanOut_stream rand a c.M c.chans,
        fun p hp => ((fanOut_sent_spec rand c.M c.chans).2 p hp).2⟩
    · rw [onRand_discard c rand (by omega)]
      exact ⟨fun a => by simp [sentInto], fun p hp => absurd hp (List.not_mem_nil _)⟩
  | sub ch =>
    exact ⟨fun a => by simp [Client.step, Client.Sub, sentInto],
      fun p hp => absurd hp (List.not_mem_nil _)⟩
  | unsub i ch =>
    simp only [Client.step, UnsubFunc]
    cases hc : (c.chans ch).close with
    | none => exact ⟨fun a => by simp [sentInto], fun p hp => absurd hp (List.not_mem_nil _)⟩
    | some cl =>
      refine ⟨fun a => ?_, fun p hp => absurd hp (List.not_mem_nil _)⟩
      simp only [sentInto, List.filter_nil, List.map_nil, List.append_nil]
      by_cases ha : a = ch
      · subst ha
        rw [Function.update_same]
        unfold Chan.close at hc
        split_ifs at hc
        simp only [Option.some.injEq] at hc
        rw [← hc]
        rfl
      · rw [Function.update_noteq ha]
  | recv ch =>
    refine ⟨fun a => ?_, fun p hp => absurd hp (List.not_mem_nil _)⟩
    simp only [Client.step, sentInto, List.filter_nil, List.map_nil, List.append_nil]
    by_cases ha : a = ch
    · subst ha
      rw [Function.update_same, recv_stream]
    · rw [Function.update_noteq ha]
  | reorder M =>
    refine ⟨fun a => ?_, fun p hp => absurd hp (List.not_mem_nil _)⟩
    simp only [Client.step, sentInto, List.filter_nil, List.map_nil, List.append_nil]
    split_ifs <;> rfl

/-- After a sequence of events, what a channel has carried is what it had
carried at the start followed by the values reported as sent into it. -/
theorem exec_stream (a : Nat) :
    ∀ (evs : List Event) (c c1 : Client), c.exec evs = some c1 →
      (c1.chans a).stream = (c.chans a).stream ++ sentInto (c.enqueued evs) a := by
  intro evs
  induction evs with
  | nil =>
    intro c c1 h
    simp only [Client.exec, Option.some.injEq] at h
    subst h
    simp [Client.enqueued, sentInto]
  | cons e rest ih =>
    intro c c1 h
    simp only [Client.exec] at h
    by_cases hp : (c.step e).panicked = true
    · simp [hp] at h
    · rw [if_neg hp] at h
      rw [ih (c.step e).c c1 h, (step_stream c e).1 a]
      simp only [Client.enqueued, if_neg hp, sentInto_append, List.append_assoc]

/-- C2: from the client `NewWithPubsub` returns (`latest = 0`, no subscriber),
over every sequence of decoded announcements, interleaved in any way with
`Sub` calls, unsubscriptions, consumers' receives and changes of the map's
iteration order, the values enqueued to any one subscription are announcements
of the sequence, in the order announced, with strictly increasing rounds; and
every announcement whose round is at most the largest round announced before it
is discarded: the client is left exactly as it was (counter included) and
nothing is enqueued to any subscriber.  The enqueued values are those found in
the queues: what a queue has carried at the end of the run (the values its
consumers have taken, then the values still buffered) is what it had carried at
the start followed by the values enqueued into it, and in every state one event
adds to a queue exactly the values it enqueues, each for a subscription
registered with that queue. -/
theorem relay_enqueues_increasing_rounds (chans : Nat → Chan) (evs : List Event) (id : Nat) :
    (((NewWithPubsub chans).enqueuedTo evs id).map fun v => v.Round).Pairwise
      (fun a b => a < b) ∧
    ((NewWithPubsub chans).enqueuedTo evs id).Sublist (announcements evs) ∧
    (∀ (pre post : List Event) (rand : PublicRandResponse) (c1 : Client),
      evs = pre ++ Event.announce rand :: post →
      (NewWithPubsub chans).exec pre = some c1 →
      rand.Round ≤ maxAnnounced pre →
      c1.step (Event.announce rand) = { c := c1, out := [], panicked := false }) ∧
    (∀ (c1 : Client) (a : Nat), (NewWithPubsub chans).exec evs = some c1 →
      (c1.chans a).stream
        = (chans a).stream ++ sentInto ((NewWithPubsub chans).enqueued evs) a) ∧
    (∀ (c : Client) (e : Event),
      (∀ a, ((c.step e).c.chans a).stream
        = (c.chans a).stream ++ sentInto (c.step e).out a) ∧
      (∀ p ∈ (c.step e).out, (p.1, p.2.1) ∈ c.M)) := by
  have hnd : ((NewWithPubsub chans).M.map Prod.fst).Nodup := List.nodup_nil
  obtain ⟨_, h2, h3⟩ := enqueuedTo_increasing id evs (NewWithPubsub chans) hnd
  refine ⟨h2, h3, ?_, ?_, step_stream⟩
  · intro pre post rand c1 _ hexec hle
    have hl := exec_latest pre (NewWithPubsub chans) c1 hnd hexec
    have hl0 : (NewWithPubsub chans).latest = 0 := rfl
    rw [hl0, Nat.zero_max] at hl
    exact onRand_discard c1 rand (by rw [hl]; exact hle)
  · intro c1 a hexec
    exact exec_stream a evs (NewWithPubsub chans) c1 hexec

/-- A run of the relay at a concrete input: one subscriber with a queue of
capacity 2; rounds 5, 3, 5, 7, 8, 9 are announced, with a receive before the
last.  Rounds 5, 7 and 9 are enqueued; 3 and the second 5 are discarded, 8 is
dropped on the full queue.  At the end the consumer has taken round 5 and the
queue holds rounds 7 and 9. -/
theorem relay_run_example :
    ((NewWithPubsub sampleChans).enqueuedTo
      [Event.sub 0, Event.announce (sampleRand 5), Event.announce (sampleRand 3),
        Event.announce (sampleRand 5), Event.announce (sampleRand 7),
        Event.announce (sampleRand 8), Event.recv 0,
        Event.announce (sampleRand 9)] 0).map (fun v => v.Round) = [5, 7, 9] ∧
    ((NewWithPubsub sampleChans).exec
      [Event.sub 0, Event.announce (sampleRand 5), Event.announce (sampleRand 3),
        Event.announce (sampleRand 5), Event.announce (sampleRand 7),
        Event.announce (sampleRand 8), Event.recv 0,
        Event.announce (sampleRand 9)]).map (fun c => ((c.chans 0).got, (c.chans 0).buf))
      = some ([sampleRand 5], [sampleRand 7, sampleRand 9]) :=
  ⟨by decide, rfl⟩

/-- A run with an unbuffered queue: the consumer is parked in a receive when
round 5 is announced and is handed it; nobody waits when round 6 is announced,
which is dropped; the consumer waits again and is handed round 7. -/
theorem relay_unbuffered_example :
    ((NewWithPubsub unbufferedChans).enqueuedTo
      [Event.sub 0, Event.recv 0, Event.announce (sampleRand 5),
        Event.announce (sampleRand 6), Event.recv 0,
        Event.announce (sampleRand 7)] 0).map (fun v => v.Round) = [5, 7] ∧
    ((NewWithPubsub unbufferedChans).exec
      [Event.sub 0, Event.recv 0, Event.announce (sampleRand 5),
        Event.announce (sampleRand 6), Event.recv 0,
        Event.announce (sampleRand 7)]).map (fun c => ((c.chans 0).got, (c.chans 0).buf))
      = some ([sampleRand 5, sampleRand 7], []) :=
  ⟨by decide, rfl⟩

end gossip

end Drand

namespace Drand

namespace key

theorem nodesFromProto_length (NodeFromProto : ProtoNode → Except GoError Node) :
    ∀ (ids : List ProtoNode) (nodes : List Node),
      nodesFromProto NodeFromProto ids = .ok nodes → nodes.length = ids.length := by
  intro ids
  induction ids with
  | nil =>
    intro nodes h
    simp only [nodesFromProto, Except.ok.injEq] at h
    subst h
    rfl
  | cons id rest ih =>
    intro nodes h
    simp only [nodesFromProto] at h
    cases h1 : NodeFromProto id with
    | error e => simp [h1] at h
    | ok kid =>
      simp only [h1] at h
      cases h2 : nodesFromProto NodeFromProto rest with
      | error e => simp [h2] at h
      | ok ns =>
        simp only [h2, Except.ok.injEq] at h
        rw [← h, List.length_cons, List.length_cons, ih ns h2]

theorem coefficientsFromProto_length (UnmarshalBinary : List Nat → Except GoError Point) :
    ∀ (keys : List (List Nat)) (cs : List Point),
      coefficientsFromProto UnmarshalBinary keys = .ok cs → cs.length = keys.length := by
  intro keys
  induction keys with
  | nil =>
    intro cs h
    simp only [coefficientsFromProto, Except.ok.injEq] at h
    subst h
    rfl
  | cons k rest ih =>
    intro cs h
    simp only [coefficientsFromProto] at h
    cases h1 : UnmarshalBinary k with
    | error e => simp [h1] at h
    | ok c =>
      simp only [h1] at h
      cases h2 : coefficientsFromProto UnmarshalBinary rest with
      | error e => simp [h2] at h
      | ok cs1 =>
        simp only [h2, Except.ok.injEq] at h
        rw [← h, List.length_cons, List.length_cons, ih cs1 h2]

/-- What `GroupFromProto` returns, as one case split on its checks in the order
it makes them. -/
theorem GroupFromProto_cases (NodeFromProto : ProtoNode → Except GoError Node)
    (UnmarshalBinary : List Nat → Except GoError Point) (g : GroupPacket) :
    (∃ err, GroupFromProto NodeFromProto UnmarshalBinary g = .error err ∧
      ((∃ e, nodesFromProto NodeFromProto g.Nodes = .error e) ∨
        g.Threshold < MinimumT g.Nodes.length ∨ int64 g.GenesisTime = 0 ∨
        (g.Period : Int) * Second = 0 ∨
        (∃ e, coefficientsFromProto UnmarshalBinary g.DistKey = .error e) ∨
        (g.DistKey ≠ [] ∧ g.DistKey.length ≠ g.Threshold))) ∨
    (∃ nodes cs, nodesFromProto NodeFromProto g.Nodes = .ok nodes ∧
      coefficientsFromProto UnmarshalBinary g.DistKey = .ok cs ∧
      MinimumT g.Nodes.length ≤ g.Threshold ∧ int64 g.GenesisTime ≠ 0 ∧
      (g.Period : Int) * Second ≠ 0 ∧ (g.DistKey = [] ∨ g.DistKey.length = g.Threshold) ∧
      GroupFromProto NodeFromProto UnmarshalBinary g = .ok
        { Threshold := g.Threshold
          Period := (g.Period : Int) * Second
          Nodes := nodes
          GenesisTime := int64 g.GenesisTime
          GenesisSeed := g.GenesisSeed
          TransitionTime := int64 g.TransitionTime
          PublicKey := if cs.length > 0 then some { Coefficients := cs } else none }) := by
  unfold GroupFromProto
  cases hn : nodesFromProto NodeFromProto g.Nodes with
  | error e => exact Or.inl ⟨e, rfl, Or.inl ⟨e, rfl⟩⟩
  | ok nodes =>
    have hlen := nodesFromProto_length NodeFromProto g.Nodes nodes hn
    simp only [hlen]
    by_cases ht : g.Threshold < MinimumT g.Nodes.length
    · rw [if_pos ht]
      exact Or.inl ⟨_, rfl, Or.inr (Or.inl ht)⟩
    · rw [if_neg ht]
      by_cases hg : int64 g.GenesisTime = 0
      · rw [if_pos hg]
        exact Or.inl ⟨_, rfl, Or.inr (Or.inr (Or.inl hg))⟩
      · rw [if_neg hg]
        by_cases hp : (g.Period : Int) * Second = 0
        · rw [if_pos hp]
          exact Or.inl ⟨_, rfl, Or.inr (Or.inr (Or.inr (Or.inl hp)))⟩
        · rw [if_neg hp]
          cases hc : coefficientsFromProto UnmarshalBinary g.DistKey with
          | error e =>
            exact Or.inl ⟨e, rfl, Or.inr (Or.inr (Or.inr (Or.inr (Or.inl ⟨e, rfl⟩))))⟩
          | ok cs =>
            have hcl := coefficientsFromProto_length UnmarshalBinary g.DistKey cs hc
            simp only
            by_cases h0 : cs.length > 0
            · rw [if_pos h0]
              have hne : g.DistKey ≠ [] := by
                intro h
                rw [h] at hcl
                simp at hcl
                rw [hcl] at h0
                simp at h0
              by_cases hk : cs.length ≠ g.Threshold
              · rw [if_pos hk]
                exact Or.inl ⟨_, rfl,
                  Or.inr (Or.inr (Or.inr (Or.inr (Or.inr ⟨hne, by rw [← hcl]; exact hk⟩))))⟩
              · rw [if_neg hk]
                refine Or.inr ⟨nodes, cs, rfl, rfl, by omega, hg, hp, Or.inr ?_, ?_⟩
                · rw [← hcl]; exact not_not.1 hk
                · rw [if_pos h0]
            · rw [if_neg h0]
              refine Or.inr ⟨nodes, cs, rfl, rfl, by omega, hg, hp, Or.inl ?_, ?_⟩
              · have : g.DistKey.length = 0 := by omega
                exact List.length_eq_zero.1 this
              · rw [if_neg h0]

end key

namespace key

/-- C20: every group `GroupFromProto` accepts has, for its `n` nodes (as many as
the packet lists), `Threshold ≥ MinimumT n = n / 2 + 1`, hence `2 * Threshold >
n`; a non-zero `GenesisTime`; a non-zero `Period` that is a whole number of
seconds; and, when a distributed public key is present, exactly `Threshold`
coefficients.  A packet whose threshold is below the minimum, whose genesis
time or period is zero, or whose non-empty distributed key has another length
than the threshold, is rejected with an error (and so returns no group). -/
theorem GroupFromProto_accepts_only_valid_groups
    (NodeFromProto : ProtoNode → Except GoError Node)
    (UnmarshalBinary : List Nat → Except GoError Point) (g : GroupPacket) :
    (∀ group, GroupFromProto NodeFromProto UnmarshalBinary g = .ok group →
      group.Nodes.length = g.Nodes.length ∧
      MinimumT group.Nodes.length ≤ group.Threshold ∧
      MinimumT group.Nodes.length = group.Nodes.length / 2 + 1 ∧
      group.Nodes.length < 2 * group.Threshold ∧
      group.GenesisTime ≠ 0 ∧
      group.Period ≠ 0 ∧ group.Period % Second = 0 ∧
      (∀ dist, group.PublicKey = some dist → dist.Coefficients.length = group.Threshold)) ∧
    ((g.Threshold < MinimumT g.Nodes.length ∨ g.GenesisTime = 0 ∨ g.Period = 0 ∨
        (g.DistKey ≠ [] ∧ g.DistKey.length ≠ g.Threshold)) →
      ∃ err, GroupFromProto NodeFromProto UnmarshalBinary g = .error err) := by
  rcases GroupFromProto_cases NodeFromProto UnmarshalBinary g with
    ⟨err, herr, _⟩ | ⟨nodes, cs, hn, hc, hthr, hgen, hper, hdist, hok⟩
  · refine ⟨?_, fun _ => ⟨err, herr⟩⟩
    intro group hg
    rw [herr] at hg
    exact absurd hg (by simp)
  · have hlen := nodesFromProto_length NodeFromProto g.Nodes nodes hn
    have hcl := coefficientsFromProto_length UnmarshalBinary g.DistKey cs hc
    refine ⟨?_, ?_⟩
    · intro group hg
      rw [hok] at hg
      simp only [Except.ok.injEq] at hg
      subst hg
      simp only
      refine ⟨hlen, by rw [hlen]; exact hthr, rfl, ?_, hgen, hper, ?_, ?_⟩
      · rw [hlen]
        unfold MinimumT at hthr
        omega
      · exact Int.mul_emod_left _ _
      · intro dist hd
        by_cases h0 : cs.length > 0
        · rw [if_pos h0] at hd
          simp only [Option.some.injEq] at hd
          subst hd
          simp only
          rcases hdist with h | h
          · rw [h] at hcl
            simp at hcl
            rw [hcl] at h0
            simp at h0
          · rw [hcl]; exact h
        · rw [if_neg h0] at hd
          exact absurd hd (by simp)
    · rintro (h | h | h | ⟨h1, h2⟩)
      · exact absurd h (by omega)
      · exact absurd (by rw [h]; rfl) hgen
      · exact absurd (by rw [h]; simp) hper
      · rcases hdist with h | h
        · exact absurd h h1
        · exact absurd h h2

/-- An accepted and three rejected packets, evaluated: the sample packet (three
nodes, threshold 2) gives a group with threshold 2, a period of 30 seconds
and a key of two coefficients; with threshold 1, with genesis time 0 or with a
key of one coefficient it is rejected. -/
theorem GroupFromProto_examples :
    (∃ group, GroupFromProto sampleNodeFromProto sampleUnmarshalBinary samplePacket = .ok group ∧
      group.Threshold = 2 ∧ group.Nodes.length = 3 ∧ group.Period = 30 * Second ∧
      group.PublicKey = some ⟨[⟨[1, 1]⟩, ⟨[2, 2]⟩]⟩) ∧
    GroupFromProto sampleNodeFromProto sampleUnmarshalBinary
      { samplePacket with Threshold := 1 } = .error ⟨1⟩ ∧
    GroupFromProto sampleNodeFromProto sampleUnmarshalBinary
      { samplePacket with GenesisTime := 0 } = .error ⟨2⟩ ∧
    GroupFromProto sampleNodeFromProto sampleUnmarshalBinary
      { samplePacket with DistKey := [[1, 1]] } = .error ⟨5⟩ := by
  refine ⟨⟨_, rfl, rfl, rfl, rfl, rfl⟩, rfl, rfl, rfl⟩

end key

end Drand

namespace Drand

namespace http

/-- C11: when a parked request is cancelled while its waiter `ch` is still in
the pending list (where, every waiter being a channel newly made at line 136,
no channel stands twice), `getRand` returns `(nil, ctx.Err())` and the pending
list afterwards is the list before with `ch` taken out: `ch` is gone, every
other waiter is still there, once, in the same relative order, and the marker
is untouched. -/
theorem cancelRand_removes_only_own_waiter (ctxErr : GoError) (h : handler) (ch : Nat)
    (hmem : ch ∈ h.pending) (hnd : h.pending.Nodup) :
    (h.cancelRand ctxErr ch).2 = getRandOutcome.returned [] (some ctxErr) ∧
    (h.cancelRand ctxErr ch).1.pending = h.pending.filter (fun w => w != ch) ∧
    ch ∉ (h.cancelRand ctxErr ch).1.pending ∧
    (∀ w, w ≠ ch → (w ∈ (h.cancelRand ctxErr ch).1.pending ↔ w ∈ h.pending)) ∧
    (h.cancelRand ctxErr ch).1.pending.Nodup ∧
    (h.cancelRand ctxErr ch).1.pending.Sublist h.pending ∧
    (h.cancelRand ctxErr ch).1.pending.length + 1 = h.pending.length ∧
    (h.cancelRand ctxErr ch).1.latestRound = h.latestRound := by
  have he : (h.cancelRand ctxErr ch).1.pending = h.pending.erase ch := rfl
  rw [he]
  refine ⟨rfl, ?_, ?_, ?_, ?_, ?_, ?_, rfl⟩
  · rw [hnd.erase_eq_filter]
  · exact fun hx => (hnd.mem_erase_iff.1 hx).1 rfl
  · intro w hw
    rw [hnd.mem_erase_iff]
    exact ⟨fun hx => hx.2, fun hx => ⟨hw, hx⟩⟩
  · exact hnd.erase ch
  · exact List.erase_sublist ch h.pending
  · rw [List.length_erase_of_mem hmem]
    have := List.length_pos_of_mem hmem
    omega

/-- C11 at a concrete input: waiters 3, 8, 5 pending, the request with waiter 8
is cancelled. -/
theorem cancelRand_removes_only_own_waiter_witness :
    (({ pending := [3, 8, 5], latestRound := 6 } : handler).cancelRand ⟨2⟩ 8).2
      = getRandOutcome.returned [] (some ⟨2⟩) ∧
    (({ pending := [3, 8, 5], latestRound := 6 } : handler).cancelRand ⟨2⟩ 8).1.pending
      = [3, 5] :=
  ⟨(cancelRand_removes_only_own_waiter ⟨2⟩ { pending := [3, 8, 5], latestRound := 6 } 8
      (by decide) (by decide)).1,
   by
    rw [(cancelRand_removes_only_own_waiter ⟨2⟩ { pending := [3, 8, 5], latestRound := 6 } 8
      (by decide) (by decide)).2.1]
    decide⟩

/-- C16 (evaluation at the failing schedule): the watcher sees round 5; a
request for round 6 registers waiter 0; the watcher receives round 6 and
detaches waiter 0 under the lock; before the watcher sends, the request is
cancelled: it takes the lock, does not find its waiter in the (new, empty)
pending list, closes the channel and returns; the watcher then sends to the
closed channel, which panics. -/
theorem watcher_sends_to_cancelled_waiter
    (marshal : PublicRandResponse → List Nat × Option GoError)
    (PublicRand : PublicRandRequest → Except GoError PublicRandResponse) (ctxErr : GoError) :
    (server.run marshal PublicRand ctxErr server.init
        [action.detach ⟨5, [], [], []⟩, action.register 5 0 6,
          action.detach ⟨6, [], [], []⟩]).todo = [0] ∧
    (server.run marshal PublicRand ctxErr server.init
        [action.detach ⟨5, [], [], []⟩, action.register 5 0 6,
          action.detach ⟨6, [], [], []⟩]).h.pending = [] ∧
    (server.run marshal PublicRand ctxErr server.init
        [action.detach ⟨5, [], [], []⟩, action.register 5 0 6,
          action.detach ⟨6, [], [], []⟩, action.cancel 0]).waiters 0
      = { closed := true, got := none } ∧
    (server.run marshal PublicRand ctxErr server.init
        [action.detach ⟨5, [], [], []⟩, action.register 5 0 6,
          action.detach ⟨6, [], [], []⟩, action.cancel 0]).todo = [0] ∧
    (server.run marshal PublicRand ctxErr server.init
        [action.detach ⟨5, [], [], []⟩, action.register 5 0 6,
          action.detach ⟨6, [], [], []⟩, action.cancel 0]).panicked = false ∧
    (server.run marshal PublicRand ctxErr server.init
        [action.detach ⟨5, [], [], []⟩, action.register 5 0 6,
          action.detach ⟨6, [], [], []⟩, action.cancel 0, action.deliver]).panicked = true := by
  refine ⟨?_, ?_, ?_, ?_, ?_, ?_⟩ <;>
    simp [server.run, server.step, server.init, server.parked, handler.getRand,
      handler.watchLocked, handler.cancelRand, New, U64]

end http

end Drand

namespace Drand

namespace http

theorem Time_Sub_nonpos (t u : Time) (hwall : t.wall ≤ u.wall)
    (hmono : ∀ a b, t.mono = some a → u.mono = some b → a ≤ b) : t.Sub u ≤ 0 := by
  unfold Time.Sub
  cases ht : t.mono with
  | none =>
    simp only
    split_ifs <;> omega
  | some a =>
    cases hu : u.mono with
    | none =>
      simp only
      split_ifs <;> omega
    | some b =>
      have := hmono a b ht hu
      simp only
      split_ifs <;> omega

/-- C17: when `h.group` returns nil and the point fetch and the encoding
succeed, `LatestRand` does not panic on the missing group (it never reads
`grp.Period`) and serves the encoded Result: it writes `data` with
`Content-Type: application/json`, and `Expires` / `Last-Modified` taken from the
clock; this for all readings of the clock in which the reading of line 233 is
not before that of line 227, on the wall clock and on the monotonic clock. -/
theorem LatestRand_serves_without_group
    (marshal : PublicRandResponse → List Nat × Option GoError)
    (PublicRand : PublicRandRequest → Except GoError PublicRandResponse)
    (TimeOfRound : Int → Int → Nat → Int) (Format : Time → String)
    (now1 now2 now3 : Time) (resp : PublicRandResponse) (data : List Nat)
    (hfetch : PublicRand { Round := 0 } = .ok resp)
    (henc : marshal resp = (data, none))
    (hwall : now2.wall ≤ now3.wall)
    (hmono : ∀ a b, now2.mono = some a → now3.mono = some b → a ≤ b) :
    handler.LatestRand marshal PublicRand TimeOfRound Format none now1 now2 now3 =
      some (reply.write
        [("Content-Type", "application/json"), ("Expires", Format now2),
          ("Last-Modified", Format now1)] data) := by
  have hsub := Time_Sub_nonpos now2 now3 hwall hmono
  unfold handler.LatestRand
  simp only [hfetch, henc]
  rw [if_neg (by omega)]
  simp [Header.Set]

/-- C17 at a concrete input: no group, the three clock readings one
nanosecond apart. -/
theorem LatestRand_serves_without_group_witness :
    handler.LatestRand sampleMarshal samplePublicRand sampleTimeOfRound sampleFormat none
        ⟨5000000000, some 10⟩ ⟨5000000001, some 11⟩ ⟨5000000002, some 12⟩ =
      some (reply.write
        [("Content-Type", "application/json"), ("Expires", "5"), ("Last-Modified", "5")]
        [123, 0, 125]) :=
  LatestRand_serves_without_group sampleMarshal samplePublicRand sampleTimeOfRound sampleFormat
    ⟨5000000000, some 10⟩ ⟨5000000001, some 11⟩ ⟨5000000002, some 12⟩
    ⟨0, [], [1], [2]⟩ [123, 0, 125] rfl rfl (by decide)
    (fun a b ha hb => by
      simp only [Option.some.injEq] at ha hb
      omega)

/-- With the clock going backwards between lines 227 and 233 and no group, the
handler reads `grp.Period` through the nil pointer. -/
theorem LatestRand_without_group_clock_backwards :
    handler.LatestRand sampleMarshal samplePublicRand sampleTimeOfRound sampleFormat none
        ⟨5000000000, some 10⟩ ⟨5000000001, some 11⟩ ⟨5000000002, some 9⟩ = none := by
  decide

/-- C13 (evaluation at a failing input): group of period 30 s, latest round due
at second 1000, next round at second 1030, the clock at 1027.5 s: 2.5 s remain,
rounded up to 3, and the header written is `max-age:3, public`, with a colon,
not `max-age=3, public`. -/
theorem LatestRand_cache_control_has_colon :
    handler.LatestRand sampleMarshal samplePublicRand sampleTimeOfRound sampleFormat
        (some sampleGroup) ⟨1027400000000, some 1⟩ ⟨1027400000000, some 2⟩
        ⟨1027500000000, some 3⟩ =
      some (reply.write
        [("Cache-Control", "max-age:3, public"), ("Content-Type", "application/json"),
          ("Expires", "1030"), ("Last-Modified", "1000")]
        [123, 0, 125]) ∧
    (Unix 1030).Sub ⟨1027500000000, some 3⟩ = 2500000000 ∧
    ceilSeconds 2500000000 = 3 ∧
    ("max-age:3, public" : String) ≠ "max-age=3, public" := by
  decide

/-- The rounding of line 235 stays between one second and the period. -/
theorem ceilSeconds_bounds (remaining period : Int) (hpos : 0 < remaining)
    (hlt : remaining < period) :
    1 ≤ ceilSeconds remaining ∧ ceilSeconds remaining ≤ ceilSeconds period ∧
    remaining ≤ ceilSeconds remaining * key.Second ∧
    ceilSeconds remaining * key.Second < remaining + key.Second := by
  unfold ceilSeconds key.Second
  omega

/-- C18: once a fetch has succeeded, `handler.group` returns the cached
descriptor and makes no call to the upstream; when nothing is cached and the
upstream call fails, returns no packet, or returns a packet that
`GroupFromProto` rejects, `handler.group` returns nil, the cached value stays
nil, and the `/group` handler answers 204; when the packet is accepted it is
cached, and the next call returns it without a call. -/
theorem group_cached_after_first_success
    (groupReply : Option key.GroupPacket × Option GoError)
    (NodeFromProto : key.ProtoNode → Except GoError key.Node)
    (UnmarshalBinary : List Nat → Except GoError key.Point)
    (marshalGroup : key.Group → List Nat × Option GoError) (Format : Time → String)
    (now : Time) :
    (∀ g, handler.group groupReply NodeFromProto UnmarshalBinary (some g) =
      { grp := some g, groupInfo := some g, calls := 0 }) ∧
    ((groupReply.2 ≠ none ∨ groupReply.1 = none ∨
        (∃ pkt err, groupReply.1 = some pkt ∧
          key.GroupFromProto NodeFromProto UnmarshalBinary pkt = .error err)) →
      handler.group groupReply NodeFromProto UnmarshalBinary none =
        { grp := none, groupInfo := none, calls := 1 } ∧
      handler.Group groupReply NodeFromProto UnmarshalBinary marshalGroup Format none now =
        (reply.status 204, none)) ∧
    (∀ pkt g, groupReply = (some pkt, none) →
      key.GroupFromProto NodeFromProto UnmarshalBinary pkt = .ok g →
      handler.group groupReply NodeFromProto UnmarshalBinary none =
        { grp := some g, groupInfo := some g, calls := 1 } ∧
      ∀ later : Option key.GroupPacket × Option GoError,
        handler.group later NodeFromProto UnmarshalBinary
            (handler.group groupReply NodeFromProto UnmarshalBinary none).groupInfo =
          { grp := some g, groupInfo := some g, calls := 0 }) := by
  have hfail : (groupReply.2 ≠ none ∨ groupReply.1 = none ∨
        (∃ pkt err, groupReply.1 = some pkt ∧
          key.GroupFromProto NodeFromProto UnmarshalBinary pkt = .error err)) →
      handler.group groupReply NodeFromProto UnmarshalBinary none =
        { grp := none, groupInfo := none, calls := 1 } := by
    intro h
    obtain ⟨pkt, err⟩ := groupReply
    unfold handler.group
    cases err with
    | some e => cases pkt <;> rfl
    | none =>
      cases pkt with
      | none => rfl
      | some p =>
        rcases h with h | h | ⟨pkt, e, h1, h2⟩
        · exact absurd rfl h
        · exact absurd h (by simp)
        · simp only [Option.some.injEq] at h1
          subst h1
          simp only [h2]
  refine ⟨fun g => rfl, ?_, ?_⟩
  · intro h
    refine ⟨hfail h, ?_⟩
    unfold handler.Group
    simp only [hfail h]
  · intro pkt g hr hg
    subst hr
    have hok : handler.group (some pkt, none) NodeFromProto UnmarshalBinary none =
        { grp := some g, groupInfo := some g, calls := 1 } := by
      unfold handler.group
      simp only [hg]
    refine ⟨hok, fun later => ?_⟩
    rw [hok]
    rfl

/-- The `/group` handler at concrete inputs: a failed upstream call, then an
absent packet, then a packet with threshold 1 for three nodes, each answered
with 204 and nothing cached. -/
theorem Group_no_content_examples :
    handler.Group (none, some ⟨3⟩) key.sampleNodeFromProto key.sampleUnmarshalBinary
        (fun _ => ([1], none)) sampleFormat none ⟨0, none⟩ = (reply.status 204, none) ∧
    handler.Group (none, none) key.sampleNodeFromProto key.sampleUnmarshalBinary
        (fun _ => ([1], none)) sampleFormat none ⟨0, none⟩ = (reply.status 204, none) ∧
    handler.Group (some { key.samplePacket with Threshold := 1 }, none)
        key.sampleNodeFromProto key.sampleUnmarshalBinary
        (fun _ => ([1], none)) sampleFormat none ⟨0, none⟩ = (reply.status 204, none) := by
  decide

/-- Reading more digits never lowers the value read so far. -/
theorem foldl_digits_ge (rest : List Nat) :
    ∀ n : Nat, n ≤ rest.foldl (fun acc c => acc * 10 + (c - 48)) n := by
  induction rest with
  | nil => intro n; exact Nat.le_refl n
  | cons c rest ih =>
    intro n
    simp only [List.foldl_cons]
    have := ih (n * 10 + (c - 48))
    omega

/-- The loop of `ParseUint` returns a number exactly when the bytes left are all
digits and the decimal value, continued from `n`, fits in 64 bits; that value
is the number returned. -/
theorem ParseUint_loop_ok_iff (rest : List Nat) :
    ∀ (n m : Nat), n < U64 →
      (ParseUint.loop rest n = .ok m ↔
        (∀ c ∈ rest, 48 ≤ c ∧ c ≤ 57) ∧
        rest.foldl (fun acc c => acc * 10 + (c - 48)) n = m ∧ m ≤ 2 ^ 64 - 1) := by
  induction rest with
  | nil =>
    intro n m hn
    simp only [ParseUint.loop, Except.ok.injEq, List.not_mem_nil, false_implies, implies_true,
      List.foldl_nil, true_and]
    unfold U64 at hn
    constructor
    · intro h; subst h; exact ⟨rfl, by omega⟩
    · intro h; exact h.1
  | cons c rest ih =>
    intro n m hn
    unfold U64 at hn
    simp only [ParseUint.loop, List.mem_cons, forall_eq_or_imp, List.foldl_cons]
    by_cases hd : 48 ≤ c ∧ c ≤ 57
    · rw [if_pos hd]
      have hmono := foldl_digits_ge rest (n * 10 + (c - 48))
      by_cases hcut : n ≥ (U64 - 1) / 10 + 1
      · rw [if_pos hcut]
        unfold U64 at hcut
        constructor
        · intro h; exact absurd h (by simp)
        · rintro ⟨_, h2, h3⟩
          omega
      · rw [if_neg hcut]
        unfold U64 at hcut
        have h10 : n * 10 % U64 = n * 10 := by
          unfold U64
          omega
        simp only [h10]
        by_cases hfit : n * 10 + (c - 48) < U64
        · have h1 : (n * 10 + (c - 48)) % U64 = n * 10 + (c - 48) := Nat.mod_eq_of_lt hfit
          rw [h1, if_neg (by unfold U64 at hfit ⊢; omega)]
          rw [ih (n * 10 + (c - 48)) m hfit]
          constructor
          · rintro ⟨h1, h2, h3⟩; exact ⟨⟨hd, h1⟩, h2, h3⟩
          · rintro ⟨⟨_, h1⟩, h2, h3⟩; exact ⟨h1, h2, h3⟩
        · have h1 : (n * 10 + (c - 48)) % U64 < n * 10 := by
            unfold U64 at hfit ⊢
            omega
          rw [if_pos (Or.inl h1)]
          constructor
          · intro h; exact absurd h (by simp)
          · rintro ⟨_, h2, h3⟩
            unfold U64 at hfit
            omega
    · rw [if_neg hd]
      constructor
      · intro h; exact absurd h (by simp)
      · rintro ⟨⟨h1, _⟩, _⟩; exact absurd h1 hd

/-- `ParseUint(s, 10, 64)` succeeds exactly on the base-10 unsigned 64-bit
integers, and returns the value of the digits. -/
theorem ParseUint_ok_iff (s : List Nat) (m : Nat) :
    ParseUint s = .ok m ↔ isUint64Decimal s ∧ decimalValue s = m := by
  unfold ParseUint isUint64Decimal decimalValue
  by_cases hs : s = []
  · rw [if_pos hs]
    constructor
    · intro h; exact absurd h (by simp)
    · rintro ⟨⟨h, _⟩, _⟩; exact absurd hs h
  · rw [if_neg hs, ParseUint_loop_ok_iff s 0 m (by unfold U64; omega)]
    constructor
    · rintro ⟨h1, h2, h3⟩; exact ⟨⟨hs, h1, by rw [h2]; exact h3⟩, h2⟩
    · rintro ⟨⟨_, h1, h3⟩, h2⟩; exact ⟨h1, h2, by rw [← h2]; exact h3⟩

/-- Removing the first `"/public/"` from a path that starts with it leaves the
rest of the path. -/
theorem Replace1_publicPath (round : List Nat) :
    Replace1 publicPath [] (publicPath ++ round) = round := by
  simp [Replace1, publicPath, List.isPrefixOf]

/-- C19: `handler.PublicRand` answers 400, without calling `getRand` (and so
without a call to the upstream), exactly when the request path with its first
`"/public/"` removed is not a base-10 unsigned 64-bit integer: an empty string,
a string with a byte that is not a decimal digit (a sign, a letter), or digits
whose value exceeds `2 ^ 64 - 1`; when it is one, `getRand` is called once with
its value, and when `getRand` returns an error the answer is 500. -/
theorem PublicRand_bad_request_iff_not_uint64 (getRand : Nat → List Nat × Option GoError)
    (TimeOfRound : Int → Int → Nat → Int) (Format : Time → String)
    (grp : Option key.Group) (now1 now2 : Time) (path : List Nat) :
    ((handler.PublicRand getRand TimeOfRound Format grp now1 now2 path).1 = reply.status 400 ↔
      ¬ isUint64Decimal (Replace1 publicPath [] path)) ∧
    (¬ isUint64Decimal (Replace1 publicPath [] path) →
      (handler.PublicRand getRand TimeOfRound Format grp now1 now2 path).2 = []) ∧
    (isUint64Decimal (Replace1 publicPath [] path) →
      (handler.PublicRand getRand TimeOfRound Format grp now1 now2 path).2 =
        [decimalValue (Replace1 publicPath [] path)] ∧
      ((getRand (decimalValue (Replace1 publicPath [] path))).2 ≠ none →
        (handler.PublicRand getRand TimeOfRound Format grp now1 now2 path).1 =
          reply.status 500)) := by
  cases hp : ParseUint (Replace1 publicPath [] path) with
  | error e =>
    have hnot : ¬ isUint64Decimal (Replace1 publicPath [] path) := by
      intro h
      have := (ParseUint_ok_iff _ _).2 ⟨h, rfl⟩
      rw [hp] at this
      exact absurd this (by simp)
    have hrun : handler.PublicRand getRand TimeOfRound Format grp now1 now2 path =
        (reply.status 400, []) := by
      unfold handler.PublicRand
      simp only [hp]
    rw [hrun]
    exact ⟨⟨fun _ => hnot, fun _ => rfl⟩, fun _ => rfl, fun h => absurd h hnot⟩
  | ok n =>
    obtain ⟨his, hval⟩ := (ParseUint_ok_iff _ _).1 hp
    rw [hval]
    cases hg : getRand n with
    | mk data err =>
      cases err with
      | some e =>
        have hrun : handler.PublicRand getRand TimeOfRound Format grp now1 now2 path =
            (reply.status 500, [n]) := by
          unfold handler.PublicRand
          simp only [hp, hg]
        rw [hrun]
        refine ⟨⟨fun h => absurd h (by simp), fun h => absurd his h⟩,
          fun h => absurd his h, fun _ => ⟨rfl, fun _ => rfl⟩⟩
      | none =>
        have hrun : ∃ header modtime,
            handler.PublicRand getRand TimeOfRound Format grp now1 now2 path =
              (reply.serveContent header "rand.json" modtime data, [n]) := by
          unfold handler.PublicRand
          simp only [hp, hg]
          exact ⟨_, _, rfl⟩
        obtain ⟨header, modtime, hrun⟩ := hrun
        rw [hrun]
        refine ⟨⟨fun h => absurd h (by simp), fun h => absurd his h⟩,
          fun h => absurd his h, fun _ => ⟨rfl, fun h => absurd rfl h⟩⟩

/-- Requests under the public path for the rounds `abc`, the empty string,
`-5`, `+5` and `18446744073709551616` are answered with 400 and no call of
`getRand`; the round `18446744073709551615` is parsed and, `getRand` failing,
answered with 500. -/
theorem PublicRand_examples :
    handler.PublicRand (fun _ => ([], some ⟨1⟩)) sampleTimeOfRound sampleFormat none
        ⟨0, none⟩ ⟨0, none⟩ (publicPath ++ [97, 98, 99]) = (reply.status 400, []) ∧
    handler.PublicRand (fun _ => ([], some ⟨1⟩)) sampleTimeOfRound sampleFormat none
        ⟨0, none⟩ ⟨0, none⟩ publicPath = (reply.status 400, []) ∧
    handler.PublicRand (fun _ => ([], some ⟨1⟩)) sampleTimeOfRound sampleFormat none
        ⟨0, none⟩ ⟨0, none⟩ (publicPath ++ [45, 53]) = (reply.status 400, []) ∧
    handler.PublicRand (fun _ => ([], some ⟨1⟩)) sampleTimeOfRound sampleFormat none
        ⟨0, none⟩ ⟨0, none⟩ (publicPath ++ [43, 53]) = (reply.status 400, []) ∧
    handler.PublicRand (fun _ => ([], some ⟨1⟩)) sampleTimeOfRound sampleFormat none
        ⟨0, none⟩ ⟨0, none⟩
        (publicPath ++ [49, 56, 52, 52, 54, 55, 52, 52, 48, 55, 51, 55, 48, 57, 53, 53, 49, 54,
          49, 54]) = (reply.status 400, []) ∧
    handler.PublicRand (fun _ => ([], some ⟨1⟩)) sampleTimeOfRound sampleFormat none
        ⟨0, none⟩ ⟨0, none⟩
        (publicPath ++ [49, 56, 52, 52, 54, 55, 52, 52, 48, 55, 51, 55, 48, 57, 53, 53, 49, 54,
          49, 53]) = (reply.status 500, [18446744073709551615]) := by
  decide

end http

end Drand

namespace Drand

namespace gossip

/-- The shutdown loop on open channels, no two subscriptions sharing one: it
does not panic, closes every channel of the map (leaving its buffer alone and
waking the receivers parked on it) and touches no other channel. -/
theorem closeAll_spec :
    ∀ (M : List (Nat × Nat)) (chans : Nat → Chan),
      (∀ e ∈ M, (chans e.2).closed = false) → (M.map Prod.snd).Nodup →
      (closeAll M chans).2 = false ∧
      (∀ e ∈ M, (closeAll M chans).1 e.2 = { chans e.2 with closed := true, recvq := 0 }) ∧
      (∀ a, a ∉ M.map Prod.snd → (closeAll M chans).1 a = chans a) := by
  intro M
  induction M with
  | nil =>
    intro chans _ _
    exact ⟨rfl, fun e he => absurd he (List.not_mem_nil _), fun a _ => rfl⟩
  | cons e rest ih =>
    intro chans hopen hnd
    obtain ⟨id, a⟩ := e
    simp only [List.map_cons, List.nodup_cons] at hnd
    have ha : (chans a).closed = false := hopen (id, a) (List.mem_cons_self _ _)
    have hcl : (chans a).close = some { chans a with closed := true, recvq := 0 } := by
      unfold Chan.close
      simp [ha]
    have hopen1 : ∀ e ∈ rest,
        ((Function.update chans a { chans a with closed := true, recvq := 0 }) e.2).closed = false := by
      intro e he
      have hne : e.2 ≠ a := by
        intro heq
        apply hnd.1
        rw [← heq]
        exact List.mem_map_of_mem _ he
      rw [Function.update_noteq hne]
      exact hopen e (List.mem_cons_of_mem _ he)
    obtain ⟨h1, h2, h3⟩ := ih (Function.update chans a { chans a with closed := true, recvq := 0 })
      hopen1 hnd.2
    simp only [closeAll, hcl]
    refine ⟨h1, ?_, ?_⟩
    · intro e he
      rcases List.mem_cons.1 he with he | he
      · subst he
        show (closeAll rest _).1 a = _
        rw [h3 a hnd.1, Function.update_same]
      · have hne : e.2 ≠ a := by
          intro heq
          apply hnd.1
          rw [← heq]
          exact List.mem_map_of_mem _ he
        rw [h2 e he, Function.update_noteq hne]
    · intro b hb
      simp only [List.map_cons, List.mem_cons, not_or] at hb
      rw [h3 b hb.2, Function.update_noteq hb.1]

/-- Once the receive loop has returned, no event enqueues anything. -/
theorem Relay_run_stopped :
    ∀ (evs : List RelayEvent) (r : Relay), r.running = false →
      (r.run evs).out = [] ∧ (r.run evs).r.running = false := by
  intro evs
  induction evs with
  | nil => intro r hr; exact ⟨rfl, hr⟩
  | cons e rest ih =>
    intro r hr
    have hstep : (r.step e).out = [] ∧ (r.step e).r.running = false := by
      cases e with
      | cancel => simp [Relay.step, hr]
      | client ev =>
        cases ev with
        | announce rand => simp [Relay.step, hr]
        | sub ch => exact ⟨rfl, hr⟩
        | unsub i ch =>
          refine ⟨?_, hr⟩
          simp only [Relay.step, Client.step, UnsubFunc]
          cases (r.c.chans ch).close <;> rfl
        | recv ch => exact ⟨rfl, hr⟩
        | reorder M => exact ⟨rfl, hr⟩
    simp only [Relay.run]
    by_cases hp : (r.step e).panicked = true
    · rw [if_pos hp]; exact hstep
    · rw [if_neg hp]
      obtain ⟨h1, h2⟩ := ih (r.step e).r hstep.2
      exact ⟨by simp [hstep.1, h1], h2⟩

/-- C14 (as stated, refuted): two `Sub` calls hand the relay the same queue 5,
which no step objects to; when the root context is then cancelled, the shutdown
loop closes queue 5 for the first subscription and panics on closing it again
for the second, and the map is not emptied: both subscriptions are still in
it.  Likewise when the first `UnsubFunc` has been called before the
cancellation: the one subscription left is registered with a closed queue, the
shutdown loop panics on closing it and the map keeps that subscription. -/
theorem shutdown_panics_on_shared_queue :
    ((Relay.start sampleChans).run
        [RelayEvent.client (Event.sub 5), RelayEvent.client (Event.sub 5)]).panicked = false ∧
    ((Relay.start sampleChans).run
        [RelayEvent.client (Event.sub 5), RelayEvent.client (Event.sub 5)]).r.c.M
      = [(0, 5), (1, 5)] ∧
    ((Relay.start sampleChans).run
        [RelayEvent.client (Event.sub 5), RelayEvent.client (Event.sub 5)]).r.running = true ∧
    ((Relay.start sampleChans).run
        [RelayEvent.client (Event.sub 5), RelayEvent.client (Event.sub 5),
          RelayEvent.cancel]).panicked = true ∧
    ((Relay.start sampleChans).run
        [RelayEvent.client (Event.sub 5), RelayEvent.client (Event.sub 5),
          RelayEvent.cancel]).r.c.M = [(0, 5), (1, 5)] ∧
    ((Relay.start sampleChans).run
        [RelayEvent.client (Event.sub 5), RelayEvent.client (Event.sub 5),
          RelayEvent.client (Event.unsub 0 5)]).panicked = false ∧
    ((Relay.start sampleChans).run
        [RelayEvent.client (Event.sub 5), RelayEvent.client (Event.sub 5),
          RelayEvent.client (Event.unsub 0 5)]).r.c.M = [(1, 5)] ∧
    ((Relay.start sampleChans).run
        [RelayEvent.client (Event.sub 5), RelayEvent.client (Event.sub 5),
          RelayEvent.client (Event.unsub 0 5), RelayEvent.cancel]).panicked = true ∧
    ((Relay.start sampleChans).run
        [RelayEvent.client (Event.sub 5), RelayEvent.client (Event.sub 5),
          RelayEvent.client (Event.unsub 0 5), RelayEvent.cancel]).r.c.M = [(1, 5)] := by
  decide

/-- C14 (amended): when the root context is cancelled while the receive loop
runs, with every registered channel open and no two subscriptions sharing a
channel, the shutdown step completes without panic, closes every queue
registered at that moment (buffers untouched, other channels untouched), leaves
the map empty and ends the loop, whatever the number of subscribers; after it an
announcement changes nothing, and no sequence of later events enqueues
anything. -/
theorem shutdown_closes_and_clears (r : Relay) (hrun : r.running = true)
    (hopen : ∀ e ∈ r.c.M, (r.c.chans e.2).closed = false)
    (hown : (r.c.M.map Prod.snd).Nodup) :
    (r.step RelayEvent.cancel).panicked = false ∧
    (r.step RelayEvent.cancel).r.c.M = [] ∧
    (r.step RelayEvent.cancel).r.running = false ∧
    (∀ e ∈ r.c.M,
      (r.step RelayEvent.cancel).r.c.chans e.2
        = { r.c.chans e.2 with closed := true, recvq := 0 }) ∧
    (∀ a, a ∉ r.c.M.map Prod.snd → (r.step RelayEvent.cancel).r.c.chans a = r.c.chans a) ∧
    (∀ rand, ((r.step RelayEvent.cancel).r.step (RelayEvent.client (Event.announce rand))).out
        = [] ∧
      ((r.step RelayEvent.cancel).r.step (RelayEvent.client (Event.announce rand))).r.c.chans
        = (r.step RelayEvent.cancel).r.c.chans) ∧
    (∀ evs, ((r.step RelayEvent.cancel).r.run evs).out = []) := by
  obtain ⟨h1, h2, h3⟩ := closeAll_spec r.c.M r.c.chans hopen hown
  have hs : r.step RelayEvent.cancel =
      { r := { c := { r.c with M := [], chans := (closeAll r.c.M r.c.chans).1 },
               running := false }
        out := [], panicked := false } := by
    simp only [Relay.step, hrun, if_true, Client.shutdown, h1, Bool.false_eq_true, if_false]
  rw [hs]
  refine ⟨rfl, rfl, rfl, h2, h3, fun rand => ⟨rfl, rfl⟩, fun evs => ?_⟩
  exact (Relay_run_stopped evs _ rfl).1

/-- C14 (amended) at a concrete input: the relay with two subscribers (queues 10 and
11) is shut down. -/
theorem shutdown_closes_and_clears_witness :
    (({ c := twoSubs, running := true } : Relay).step RelayEvent.cancel).panicked = false ∧
    (({ c := twoSubs, running := true } : Relay).step RelayEvent.cancel).r.c.M = [] ∧
    ((({ c := twoSubs, running := true } : Relay).step RelayEvent.cancel).r.c.chans 10).closed
      = true ∧
    ((({ c := twoSubs, running := true } : Relay).step RelayEvent.cancel).r.c.chans 11).closed
      = true :=
  have h := shutdown_closes_and_clears { c := twoSubs, running := true } rfl
    (by decide) (by decide)
  ⟨h.1, h.2.1, by rw [h.2.2.2.1 (0, 10) (by decide)],
    by rw [h.2.2.2.1 (1, 11) (by decide)]⟩

/-- An `UnsubFunc` called after the shutdown closes its channel a second time:
the shutdown has closed the channel and emptied the map, and the `UnsubFunc`
closes whatever it captured. -/
theorem unsub_after_shutdown_panics (c : Client) (id ch : Nat) (hmem : (id, ch) ∈ c.M)
    (hopen : ∀ e ∈ c.M, (c.chans e.2).closed = false)
    (hown : (c.M.map Prod.snd).Nodup) :
    c.shutdown.panicked = false ∧ (UnsubFunc c.shutdown.c id ch).panicked = true := by
  obtain ⟨h1, h2, _⟩ := closeAll_spec c.M c.chans hopen hown
  have hs : c.shutdown =
      { c := { c with M := [], chans := (closeAll c.M c.chans).1 }, out := [],
        panicked := false } := by
    simp only [Client.shutdown, h1, Bool.false_eq_true, if_false]
  rw [hs]
  refine ⟨rfl, ?_⟩
  have hc := h2 (id, ch) hmem
  simp only [UnsubFunc, hc, Chan.close, if_true]

/-- C12 (evaluation at the failing input): a consumer subscribes queue 0, the
relay is shut down (which closes queue 0 and empties the map), and the consumer
then calls its `UnsubFunc`, once: `close(ch)` runs on the closed queue, a
second close, which panics. -/
theorem unsub_after_shutdown_closes_twice :
    ((Relay.start sampleChans).run
        [RelayEvent.client (Event.sub 0), RelayEvent.cancel]).panicked = false ∧
    (((Relay.start sampleChans).run
        [RelayEvent.client (Event.sub 0), RelayEvent.cancel]).r.c.chans 0).closed = true ∧
    ((Relay.start sampleChans).run
        [RelayEvent.client (Event.sub 0), RelayEvent.cancel]).r.c.M = [] ∧
    ((Relay.start sampleChans).run
        [RelayEvent.client (Event.sub 0), RelayEvent.cancel,
          RelayEvent.client (Event.unsub 0 0)]).panicked = true := by
  decide

end gossip

end Drand

namespace Drand

namespace client

namespace LRU

variable {β : Type}

theorem mem_of_lookup (l : LRU β) (k : Nat) (v : β) (h : l.lookup k = some v) : (k, v) ∈ l := by
  induction l with
  | nil => simp at h
  | cons a l ih =>
    obtain ⟨a1, a2⟩ := a
    rw [List.lookup_cons] at h
    by_cases hk : (k == a1) = true
    · rw [hk] at h
      simp only [Option.some.injEq] at h
      have : k = a1 := by simpa using hk
      subst this h
      exact List.mem_cons_self _ _
    · have hk2 : (k == a1) = false := by simpa using hk
      rw [hk2] at h
      exact List.mem_cons_of_mem _ (ih h)

theorem Add_pairs_subset (size : Nat) (l : LRU β) (k : Nat) (v : β) :
    Add size l k v ⊆ (k, v) :: l := by
  unfold Add
  split
  · intro x hx
    rcases List.mem_cons.1 hx with hx | hx
    · exact List.mem_cons.2 (Or.inl hx)
    · exact List.mem_cons_of_mem _ (List.eraseP_subset l hx)
  · simp only [RemoveOldest]
    split
    · exact List.dropLast_subset _
    · exact fun x hx => hx

theorem Get_pairs_subset (l : LRU β) (k : Nat) : (Get l k).1 ⊆ l := by
  unfold Get
  cases h : l.lookup k with
  | none => exact fun x hx => hx
  | some v =>
    intro x hx
    rcases List.mem_cons.1 hx with hx | hx
    · rw [hx]; exact mem_of_lookup l k v h
    · exact List.eraseP_subset l hx

end LRU

namespace ARCCache

theorem replace_entries (c : ARCCache) (b : Bool) :
    (c.replace b).t1 ⊆ c.t1 ∧ (c.replace b).t2 ⊆ c.t2 := by
  unfold replace
  simp only []
  split_ifs with hc
  · cases hl : c.t1.getLast? with
    | none =>
      simp only [LRU.RemoveOldest, hl]
      exact ⟨List.dropLast_subset c.t1, fun _ h => h⟩
    | some e =>
      simp only [LRU.RemoveOldest, hl]
      exact ⟨List.dropLast_subset c.t1, fun _ h => h⟩
  · cases hl : c.t2.getLast? with
    | none =>
      simp only [LRU.RemoveOldest, hl]
      exact ⟨fun _ h => h, List.dropLast_subset c.t2⟩
    | some e =>
      simp only [LRU.RemoveOldest, hl]
      exact ⟨fun _ h => h, List.dropLast_subset c.t2⟩

theorem makeRoom_entries (c : ARCCache) (b : Bool) :
    (c.makeRoom b).t1 ⊆ c.t1 ∧ (c.makeRoom b).t2 ⊆ c.t2 := by
  unfold makeRoom
  split_ifs
  · exact replace_entries c b
  · exact ⟨fun _ h => h, fun _ h => h⟩

/-- `Get` keeps every entry it leaves in the cache as it was. -/
theorem Get_entries_subset (c : ARCCache) (k : Nat) : (c.Get k).1.entries ⊆ c.entries := by
  unfold Get entries
  cases h1 : LRU.Peek c.t1 k with
  | some val =>
    simp only
    have hmem : (k, val) ∈ c.t1 := LRU.mem_of_lookup c.t1 k val h1
    intro x hx
    rcases List.mem_append.1 hx with hx | hx
    · exact List.mem_append_left _ (List.eraseP_subset c.t1 hx)
    · rcases List.mem_cons.1 (LRU.Add_pairs_subset c.size c.t2 k val hx) with hx | hx
      · rw [hx]; exact List.mem_append_left _ hmem
      · exact List.mem_append_right _ hx
  | none =>
    simp only
    cases h2 : LRU.Get c.t2 k with
    | mk t2 o =>
      have hsub := LRU.Get_pairs_subset c.t2 k
      rw [h2] at hsub
      cases o with
      | none => exact fun x hx => hx
      | some val =>
        simp only
        intro x hx
        rcases List.mem_append.1 hx with hx | hx
        · exact List.mem_append_left _ hx
        · exact List.mem_append_right _ (hsub hx)

/-- A value `Get` returns is the value of an entry of the cache. -/
theorem Get_some_mem (c : ARCCache) (k : Nat) (v : Result) (h : (c.Get k).2 = some v) :
    (k, v) ∈ c.entries := by
  unfold Get at h
  unfold entries
  cases h1 : LRU.Peek c.t1 k with
  | some val =>
    rw [h1] at h
    simp only [Option.some.injEq] at h
    subst h
    exact List.mem_append_left _ (LRU.mem_of_lookup c.t1 k val h1)
  | none =>
    rw [h1] at h
    simp only [LRU.Get] at h
    cases h2 : c.t2.lookup k with
    | none => simp [h2] at h
    | some val =>
      simp only [h2, Option.some.injEq] at h
      subst h
      exact List.mem_append_right _ (LRU.mem_of_lookup c.t2 k val h2)

/-- A value `Peek` shows is the value of an entry of the cache. -/
theorem Peek_some_mem (c : ARCCache) (k : Nat) (v : Result) (h : c.Peek k = some v) :
    (k, v) ∈ c.entries := by
  unfold Peek at h
  unfold entries
  cases h1 : LRU.Peek c.t1 k with
  | some val =>
    rw [h1] at h
    simp only [Option.some.injEq] at h
    subst h
    exact List.mem_append_left _ (LRU.mem_of_lookup c.t1 k val h1)
  | none =>
    rw [h1] at h
    exact List.mem_append_right _ (LRU.mem_of_lookup c.t2 k v h)

/-- `Add` brings in the added pair and no other entry. -/
theorem Add_entries_subset (c : ARCCache) (r : Nat) (v : Result) :
    (c.Add r v).entries ⊆ (r, v) :: c.entries := by
  have left : ∀ (l : LRU Result), l ⊆ c.t1 → ∀ x, x ∈ l → x ∈ (r, v) :: (c.t1 ++ c.t2) :=
    fun l hsub x hx => List.mem_cons_of_mem _ (List.mem_append_left _ (hsub hx))
  have right : ∀ (l : LRU Result), l ⊆ c.t2 → ∀ x, x ∈ l → x ∈ (r, v) :: (c.t1 ++ c.t2) :=
    fun l hsub x hx => List.mem_cons_of_mem _ (List.mem_append_right _ (hsub hx))
  have addleft : ∀ (n : Nat) (l : LRU Result), l ⊆ c.t1 →
      ∀ x, x ∈ LRU.Add n l r v → x ∈ (r, v) :: (c.t1 ++ c.t2) := by
    intro n l hsub x hx
    rcases List.mem_cons.1 (LRU.Add_pairs_subset n l r v hx) with h | h
    · exact List.mem_cons.2 (Or.inl h)
    · exact left l hsub x h
  have addright : ∀ (n : Nat) (l : LRU Result), l ⊆ c.t2 →
      ∀ x, x ∈ LRU.Add n l r v → x ∈ (r, v) :: (c.t1 ++ c.t2) := by
    intro n l hsub x hx
    rcases List.mem_cons.1 (LRU.Add_pairs_subset n l r v hx) with h | h
    · exact List.mem_cons.2 (Or.inl h)
    · exact right l hsub x h
  unfold Add entries
  simp only []
  split_ifs
  · intro x hx
    rcases List.mem_append.1 hx with hx | hx
    · exact left _ (List.eraseP_subset c.t1) x hx
    · exact addright _ _ (fun _ h => h) x hx
  · intro x hx
    rcases List.mem_append.1 hx with hx | hx
    · exact left _ (fun _ h => h) x hx
    · exact addright _ _ (fun _ h => h) x hx
  · have hm := makeRoom_entries c.growP false
    have hg := growP_frame c
    rw [hg.2.1, hg.2.2.1] at hm
    intro x hx
    rcases List.mem_append.1 hx with hx | hx
    · exact left _ hm.1 x hx
    · exact addright _ _ hm.2 x hx
  · have hm := makeRoom_entries c.shrinkP true
    have hg := shrinkP_frame c
    rw [hg.2.1, hg.2.2.1] at hm
    intro x hx
    rcases List.mem_append.1 hx with hx | hx
    · exact left _ hm.1 x hx
    · exact addright _ _ hm.2 x hx
  · have hm := makeRoom_entries c false
    have ht := trimGhosts_frame (c.makeRoom false)
    intro x hx
    rcases List.mem_append.1 hx with hx | hx
    · have hx1 : x ∈ LRU.Add (c.makeRoom false).trimGhosts.size
          (c.makeRoom false).trimGhosts.t1 r v := hx
      rw [ht.2.1] at hx1
      exact addleft _ _ hm.1 x hx1
    · have hx1 : x ∈ (c.makeRoom false).trimGhosts.t2 := hx
      rw [ht.2.2] at hx1
      exact right _ hm.2 x hx1

end ARCCache

/-- The recording client answers as the wrapped client does and leaves the
wrapped client in the same state. -/
theorem recording_reply {U : Type} (up : Client U) (u : U) (log : List (Nat × Result))
    (round : Nat) :
    ((recording up).Get (u, log) round).1 = (up.Get u round).1 ∧
    ((recording up).Get (u, log) round).2.1 = (up.Get u round).2 := by
  unfold recording
  simp only
  cases hu : up.Get u round with
  | mk ans u2 =>
    obtain ⟨val, err⟩ := ans
    cases val <;> cases err <;> exact ⟨rfl, rfl⟩

/-- The record grows by the pair (round, Result) exactly when the wrapped client
returned that Result with a nil error, and is otherwise unchanged. -/
theorem recording_log {U : Type} (up : Client U) (u : U) (log : List (Nat × Result))
    (round : Nat) :
    ((recording up).Get (u, log) round).2.2 =
      log ++ (match (up.Get u round).1 with
              | (some v, none) => [(round, v)]
              | _ => []) := by
  unfold recording
  simp only
  cases hu : up.Get u round with
  | mk ans u2 =>
    obtain ⟨val, err⟩ := ans
    cases val <;> cases err <;> simp

/-- Running the caching client around the recording client gives the results,
the calls, the cache and the wrapped client's state that running it around the
wrapped client gives. -/
theorem Get_recording {U : Type} (up : Client U) (c : cachingClient (U × List (Nat × Result)))
    (round : Nat) :
    (cachingClient.Get (recording up) c round).res
      = (cachingClient.Get up { Client := c.Client.1, cache := c.cache } round).res ∧
    (cachingClient.Get (recording up) c round).err
      = (cachingClient.Get up { Client := c.Client.1, cache := c.cache } round).err ∧
    (cachingClient.Get (recording up) c round).calls
      = (cachingClient.Get up { Client := c.Client.1, cache := c.cache } round).calls ∧
    (cachingClient.Get (recording up) c round).c.cache
      = (cachingClient.Get up { Client := c.Client.1, cache := c.cache } round).c.cache ∧
    (cachingClient.Get (recording up) c round).c.Client.1
      = (cachingClient.Get up { Client := c.Client.1, cache := c.cache } round).c.Client := by
  cases hget : c.cache.Get round with
  | mk cache o =>
    cases o with
    | some val =>
      simp [cachingClient.Get, hget]
    | none =>
      cases hu : up.Get c.Client.1 round with
      | mk ans u2 =>
        obtain ⟨val, err⟩ := ans
        cases val <;> cases err <;> simp [cachingClient.Get, hget, recording, hu]

/-- In a reachable caching client every entry of the cache is in the record of
the wrapped client's answers, and every pair of the record is an answer the
wrapped client gives, with a nil error, to a `Get` for that round. -/
theorem Reached_entries_recorded {U : Type} (up : Client U)
    (c : cachingClient (U × List (Nat × Result))) (h : Reached up c) :
    (∀ p ∈ c.cache.entries, p ∈ c.Client.2) ∧
    (∀ p ∈ c.Client.2, ∃ u, (up.Get u p.1).1 = (some p.2, none)) := by
  induction h with
  | init u size c0 hnew =>
    unfold NewCachingClient ARCCache.NewARC at hnew
    by_cases hs : size ≤ 0
    · simp [hs] at hnew
    · simp only [hs, if_false] at hnew
      injection hnew with h
      subst h
      refine ⟨?_, ?_⟩
      · intro p hp
        simp [ARCCache.entries, ARCCache.empty] at hp
      · intro p hp
        exact absurd hp (List.not_mem_nil _)
  | get c round _ ih =>
    cases hget : c.cache.Get round with
    | mk cache o =>
      have hsub := ARCCache.Get_entries_subset c.cache round
      rw [hget] at hsub
      cases o with
      | some val =>
        simp only [cachingClient.Get, hget]
        exact ⟨fun p hp => ih.1 p (hsub hp), ih.2⟩
      | none =>
        cases hu : up.Get c.Client.1 round with
        | mk ans u2 =>
          obtain ⟨val, err⟩ := ans
          cases err with
          | some e =>
            cases val <;> simp only [cachingClient.Get, hget, recording, hu] <;>
              exact ⟨fun p hp => ih.1 p (hsub hp), ih.2⟩
          | none =>
            cases val with
            | none =>
              simp only [cachingClient.Get, hget, recording, hu]
              exact ⟨fun p hp => ih.1 p (hsub hp), ih.2⟩
            | some v =>
              simp only [cachingClient.Get, hget, recording, hu]
              refine ⟨?_, ?_⟩
              · intro p hp
                rcases List.mem_cons.1 (ARCCache.Add_entries_subset cache round v hp) with h | h
                · rw [h]
                  exact List.mem_append_right _ (List.mem_singleton_self _)
                · exact List.mem_append_left _ (ih.1 p (hsub h))
              · intro p hp
                rcases List.mem_append.1 hp with h | h
                · exact ih.2 p h
                · rw [List.mem_singleton.1 h]
                  exact ⟨c.Client.1, by rw [hu]⟩

/-- C15: take the wrapped client with a record of its own answers (the pairs
(round, Result) it returned with a nil error).  In every caching client
reachable from the empty cache by calls of `cachingClient.Get`, whatever the
wrapped client answers, every entry under a key `r` holds a Result found in
that record under the same round `r`, and every pair of the record is an answer
of the wrapped client's `Get` for that round; so what the cache shows for `r`,
and what a hit for `r` returns, is such a Result, as it was returned.  Keeping
the record changes nothing else: each `Get` returns, calls and caches what it
does around the wrapped client alone. -/
theorem cache_holds_only_upstream_results {U : Type} (up : Client U)
    (c : cachingClient (U × List (Nat × Result))) (h : Reached up c) :
    (∀ p ∈ c.cache.entries, p ∈ c.Client.2) ∧
    (∀ p ∈ c.Client.2, ∃ u, (up.Get u p.1).1 = (some p.2, none)) ∧
    (∀ r v, c.cache.Peek r = some v →
      (r, v) ∈ c.Client.2 ∧ ∃ u, (up.Get u r).1 = (some v, none)) ∧
    (∀ r, (cachingClient.Get (recording up) c r).calls = [] →
      ∃ v, (cachingClient.Get (recording up) c r).res = some v ∧
        (cachingClient.Get (recording up) c r).err = none ∧
        (cachingClient.Get (recording up) c r).c.Client = c.Client ∧
        (r, v) ∈ c.Client.2 ∧ ∃ u, (up.Get u r).1 = (some v, none)) ∧
    (∀ r,
      (cachingClient.Get (recording up) c r).res
        = (cachingClient.Get up { Client := c.Client.1, cache := c.cache } r).res ∧
      (cachingClient.Get (recording up) c r).err
        = (cachingClient.Get up { Client := c.Client.1, cache := c.cache } r).err ∧
      (cachingClient.Get (recording up) c r).calls
        = (cachingClient.Get up { Client := c.Client.1, cache := c.cache } r).calls ∧
      (cachingClient.Get (recording up) c r).c.cache
        = (cachingClient.Get up { Client := c.Client.1, cache := c.cache } r).c.cache ∧
      (cachingClient.Get (recording up) c r).c.Client.1
        = (cachingClient.Get up { Client := c.Client.1, cache := c.cache } r).c.Client) := by
  have hinv := Reached_entries_recorded up c h
  refine ⟨hinv.1, hinv.2, ?_, ?_, fun r => Get_recording up c r⟩
  · intro r v hp
    have hm := hinv.1 _ (ARCCache.Peek_some_mem c.cache r v hp)
    exact ⟨hm, hinv.2 _ hm⟩
  · intro r hcalls
    cases hget : c.cache.Get r with
    | mk cache o =>
      cases o with
      | some val =>
        have hstep : cachingClient.Get (recording up) c r =
            { res := some val, err := none, c := { c with cache := cache }, calls := [] } := by
          unfold cachingClient.Get
          rw [hget]
        rw [hstep]
        have hm : (r, val) ∈ c.Client.2 :=
          hinv.1 _ (ARCCache.Get_some_mem c.cache r val (by rw [hget]))
        exact ⟨val, rfl, rfl, rfl, hm, hinv.2 _ hm⟩
      | none =>
        unfold cachingClient.Get at hcalls
        simp only [hget] at hcalls
        cases hu : (recording up).Get c.Client r with
        | mk ans u =>
          obtain ⟨val, err⟩ := ans
          simp [hu] at hcalls

/-- C15 at a concrete input: from the empty cache of size 2, `Get(0)` is
answered upstream with the Result of round 42; the record is then that one
answer, the cache shows it under key 0, and it is the wrapped client's answer
for round 0. -/
theorem cache_holds_only_upstream_results_witness :
    (cachingClient.Get (recording sampleClient)
        { Client := (0, []), cache := ARCCache.empty 2 } 0).c.Client.2
      = [(0, ⟨42, [4, 2]⟩)] ∧
    (cachingClient.Get (recording sampleClient)
        { Client := (0, []), cache := ARCCache.empty 2 } 0).c.cache.Peek 0
      = some ⟨42, [4, 2]⟩ ∧
    (∀ r v,
      (cachingClient.Get (recording sampleClient)
        { Client := (0, []), cache := ARCCache.empty 2 } 0).c.cache.Peek r = some v →
      (r, v) ∈ (cachingClient.Get (recording sampleClient)
        { Client := (0, []), cache := ARCCache.empty 2 } 0).c.Client.2 ∧
      ∃ u, (sampleClient.Get u r).1 = (some v, none)) :=
  ⟨by decide, by decide,
   (cache_holds_only_upstream_results sampleClient
      (cachingClient.Get (recording sampleClient)
        { Client := (0, []), cache := ARCCache.empty 2 } 0).c
      (Reached.get { Client := (0, []), cache := ARCCache.empty 2 } 0
        (Reached.init 0 2 { Client := (0, []), cache := ARCCache.empty 2 } rfl))).2.2.1⟩

end client

end Drand
